import Mathlib

/-!
Verification of the opkg repository index builder and signer of this
repository (source files opkg_make_index.py and crypto_utils.py).

Modelling conventions:
* Python text strings are lists of characters (`Str`), byte strings are
  lists of naturals (`Bytes`).
* Python functions that can raise are modelled with `Option` or `Except`,
  with an error type naming the Python exception that escapes.
* Character classification (`str.isdigit`, `str.isalpha`, `\w`) is modelled
  by the ASCII classes, which agree with Python on the ASCII inputs the
  claims are about.
-/

namespace OpkgRepo

/-- Python strings are modelled as lists of characters. -/
abbrev Str := List Char

/-- Python byte strings are modelled as lists of naturals. -/
abbrev Bytes := List Nat

/-- Convert a Lean string literal to the model of a Python string. -/
def str (s : String) : Str := s.data

/-- Python whitespace characters (the set stripped by str.strip / rstrip). -/
def isPySpace (c : Char) : Bool :=
  c == ' ' || c == '\t' || c == '\n' || c == '\r' || c == Char.ofNat 11 || c == Char.ofNat 12

/-- Model of the Python str.rstrip method (no arguments). -/
def pyRstrip (s : Str) : Str := (s.reverse.dropWhile isPySpace).reverse

/-- Model of the Python str.strip method (no arguments). -/
def pyStrip (s : Str) : Str := (pyRstrip s).dropWhile isPySpace

/-- Numeric value of an ASCII digit character. -/
def digitVal (c : Char) : Nat := c.toNat - 48

/-- Value of a string of ASCII digits read as a decimal numeral
(the semantics of the Python int constructor on a digit string). -/
def digitsToNat : Str → Nat
  | [] => 0
  | c :: l => digitVal c * 10 ^ l.length + digitsToNat l

/-- Decimal digits of a natural, most significant first, with explicit fuel
(the fuel is always sufficient in `natToStr`). -/
def natToStrGo : Nat → Nat → Str → Str
  | 0, _, acc => acc
  | fuel + 1, n, acc =>
    if n = 0 then acc else natToStrGo fuel (n / 10) (Char.ofNat (48 + n % 10) :: acc)

/-- Decimal rendering of a natural number (the Python str / %d rendering). -/
def natToStr (n : Nat) : Str := if n = 0 then ['0'] else natToStrGo (n + 1) n []

/-- Parse a nonempty all-digit string; `none` otherwise. -/
def parseDigits (s : Str) : Option Nat :=
  if s ≠ [] ∧ s.all Char.isDigit then some (digitsToNat s) else none

/-- Sign handling of the Python int constructor after stripping. -/
def pyIntCore (c : Char) (rest : Str) : Option Int :=
  if c = '-' then (parseDigits rest).map (fun n => -(n : Int))
  else if c = '+' then (parseDigits rest).map (fun n => (n : Int))
  else (parseDigits (c :: rest)).map (fun n => (n : Int))

/-- Model of the Python int constructor on a string: strip whitespace, allow
one sign character, then require a nonempty digit run.  `none` models the
ValueError raised on malformed input. -/
def pyInt (s : Str) : Option Int :=
  match pyStrip s with
  | [] => none
  | c :: rest => pyIntCore c rest

/-- Decimal rendering of an integer. -/
def intToStr (i : Int) : Str :=
  if i < 0 then '-' :: natToStr i.natAbs else natToStr i.toNat

section DecimalLemmas

theorem digitVal_ofNat (d : Nat) (hd : d < 10) : digitVal (Char.ofNat (48 + d)) = d := by
  interval_cases d <;> rfl

theorem isDigit_ofNat (d : Nat) (hd : d < 10) : (Char.ofNat (48 + d)).isDigit = true := by
  interval_cases d <;> rfl

theorem digitsToNat_append (a b : Str) :
    digitsToNat (a ++ b) = digitsToNat a * 10 ^ b.length + digitsToNat b := by
  induction a with
  | nil => simp [digitsToNat]
  | cons c l ih =>
    simp only [List.cons_append, digitsToNat, ih, List.append_eq, List.length_append, pow_add]
    ring

theorem natToStrGo_acc (fuel : Nat) :
    ∀ n acc, natToStrGo fuel n acc = natToStrGo fuel n [] ++ acc := by
  induction fuel with
  | zero => intro n acc; rfl
  | succ fuel ih =>
    intro n acc
    by_cases h : n = 0
    · simp [natToStrGo, h]
    · rw [natToStrGo, if_neg h, natToStrGo, if_neg h,
        ih (n / 10) (Char.ofNat (48 + n % 10) :: acc),
        ih (n / 10) [Char.ofNat (48 + n % 10)]]
      simp

theorem digitsToNat_natToStrGo (fuel : Nat) :
    ∀ n, n ≤ fuel → digitsToNat (natToStrGo fuel n []) = n := by
  induction fuel with
  | zero =>
    intro n hn
    interval_cases n
    rfl
  | succ fuel ih =>
    intro n hn
    by_cases h : n = 0
    · simp [natToStrGo, h, digitsToNat]
    · rw [natToStrGo, if_neg h, natToStrGo_acc, digitsToNat_append]
      have hdiv : n / 10 ≤ fuel := by
        have := Nat.div_lt_self (Nat.pos_of_ne_zero h) (show 1 < 10 by norm_num)
        omega
      rw [ih (n / 10) hdiv]
      have h2 : digitsToNat [Char.ofNat (48 + n % 10)] = n % 10 := by
        simp [digitsToNat, digitVal_ofNat (n % 10) (Nat.mod_lt _ (by norm_num))]
      rw [h2]
      simp
      omega

theorem natToStrGo_digits (fuel : Nat) :
    ∀ n, (natToStrGo fuel n []).all Char.isDigit := by
  induction fuel with
  | zero => intro n; rfl
  | succ fuel ih =>
    intro n
    by_cases h : n = 0
    · simp [natToStrGo, h]
    · rw [natToStrGo, if_neg h, natToStrGo_acc]
      simp only [List.all_append, ih (n / 10), Bool.true_and]
      simp [isDigit_ofNat (n % 10) (Nat.mod_lt _ (by norm_num))]

theorem natToStr_digits (n : Nat) : (natToStr n).all Char.isDigit := by
  unfold natToStr
  split
  · rfl
  · exact natToStrGo_digits (n + 1) n

theorem natToStr_ne_nil (n : Nat) : natToStr n ≠ [] := by
  unfold natToStr
  split
  · simp
  · rename_i h
    rw [natToStrGo, if_neg h, natToStrGo_acc]
    simp

theorem digitsToNat_natToStr (n : Nat) : digitsToNat (natToStr n) = n := by
  unfold natToStr
  split
  · simp_all [digitsToNat, digitVal]
  · exact digitsToNat_natToStrGo (n + 1) n (by omega)

theorem parseDigits_natToStr (n : Nat) : parseDigits (natToStr n) = some n := by
  unfold parseDigits
  rw [if_pos ⟨natToStr_ne_nil n, natToStr_digits n⟩, digitsToNat_natToStr]

theorem digit_not_space (c : Char) (h : c.isDigit = true) : isPySpace c = false := by
  by_contra hcon
  have hs : isPySpace c = true := by
    cases hb : isPySpace c
    · exact absurd hb hcon
    · rfl
  simp only [isPySpace, Bool.or_eq_true, beq_iff_eq] at hs
  rcases hs with ((((h1 | h1) | h1) | h1) | h1) | h1 <;> subst h1 <;> exact absurd h (by decide)

theorem dropWhile_eq_self_of {α : Type _} (p : α → Bool) (l : List α)
    (h : ∀ x ∈ l, p x = false) : l.dropWhile p = l := by
  cases l with
  | nil => rfl
  | cons a as =>
    rw [List.dropWhile_cons, if_neg]
    simp [h a (List.mem_cons_self a as)]

theorem pyStrip_digits (s : Str) (h1 : s ≠ []) (h2 : s.all Char.isDigit) :
    pyStrip s = s := by
  have hmem : ∀ x ∈ s, isPySpace x = false := by
    intro x hx
    exact digit_not_space x (List.all_eq_true.mp h2 x hx)
  have hr : pyRstrip s = s := by
    rw [pyRstrip, dropWhile_eq_self_of _ _ (by intro x hx; exact hmem x (List.mem_reverse.mp hx))]
    simp
  rw [pyStrip, hr, dropWhile_eq_self_of _ _ hmem]

theorem pyInt_natToStr (n : Nat) : pyInt (natToStr n) = some (n : Int) := by
  unfold pyInt
  rw [pyStrip_digits _ (natToStr_ne_nil n) (natToStr_digits n)]
  obtain ⟨c, rest, h⟩ : ∃ c rest, natToStr n = c :: rest := by
    match hh : natToStr n with
    | [] => exact absurd hh (natToStr_ne_nil n)
    | c :: rest => exact ⟨c, rest, rfl⟩
  rw [h]
  show pyIntCore c rest = some (n : Int)
  have hd : c.isDigit = true := by
    have hall := natToStr_digits n
    rw [h] at hall
    simp only [List.all_cons, Bool.and_eq_true] at hall
    exact hall.1
  have hc1 : c ≠ '-' := by
    intro he; rw [he] at hd; exact absurd hd (by decide)
  have hc2 : c ≠ '+' := by
    intro he; rw [he] at hd; exact absurd hd (by decide)
  rw [pyIntCore, if_neg hc1, if_neg hc2, ← h, parseDigits_natToStr]
  rfl

end DecimalLemmas

section CmpAlgebra

/-- A lawful sign comparator in the style of the Python code: reflexive,
antisymmetric, and transitive on the induced weak order. -/
structure LawfulCmp {α : Type _} (c : α → α → Int) : Prop where
  refl : ∀ x, c x x = 0
  antisym : ∀ x y, c x y = -(c y x)
  le_trans : ∀ x y z, c x y ≤ 0 → c y z ≤ 0 → c x z ≤ 0

/-- The comparator only takes the values -1, 0, 1. -/
def CmpInRange {α : Type _} (c : α → α → Int) : Prop :=
  ∀ x y, c x y = -1 ∨ c x y = 0 ∨ c x y = 1

theorem LawfulCmp.comap {α β : Type _} {c : α → α → Int} (h : LawfulCmp c) (f : β → α) :
    LawfulCmp (fun x y => c (f x) (f y)) where
  refl x := h.refl (f x)
  antisym x y := h.antisym (f x) (f y)
  le_trans x y z := h.le_trans (f x) (f y) (f z)

/-- Integer sign comparison. -/
def intCmp (a b : Int) : Int := if a < b then -1 else if b < a then 1 else 0

/-- Natural number sign comparison. -/
def natCmp (a b : Nat) : Int := if a < b then -1 else if b < a then 1 else 0

theorem intCmp_lawful : LawfulCmp intCmp where
  refl x := by simp [intCmp]
  antisym x y := by unfold intCmp; split_ifs <;> omega
  le_trans x y z := by unfold intCmp; split_ifs <;> omega

theorem natCmp_lawful : LawfulCmp natCmp where
  refl x := by simp [natCmp]
  antisym x y := by unfold natCmp; split_ifs <;> omega
  le_trans x y z := by unfold natCmp; split_ifs <;> omega

theorem natCmp_range : CmpInRange natCmp := by
  intro x y; unfold natCmp; split_ifs <;> simp

theorem intCmp_range : CmpInRange intCmp := by
  intro x y; unfold intCmp; split_ifs <;> simp

/-- Lexicographic combination of two comparators on the same type. -/
def lexCmp {α : Type _} (c1 c2 : α → α → Int) (x y : α) : Int :=
  if c1 x y = 0 then c2 x y else c1 x y

theorem lexCmp_lawful {α : Type _} {c1 c2 : α → α → Int}
    (h1 : LawfulCmp c1) (h2 : LawfulCmp c2) : LawfulCmp (lexCmp c1 c2) where
  refl x := by simp [lexCmp, h1.refl, h2.refl]
  antisym x y := by
    unfold lexCmp
    have ha := h1.antisym x y
    by_cases h : c1 x y = 0
    · rw [if_pos h, if_pos (by omega), h2.antisym]
    · rw [if_neg h, if_neg (by omega)]
      omega
  le_trans x y z hxy hyz := by
    unfold lexCmp at *
    have haxy := h1.antisym x y
    have hayz := h1.antisym y z
    have haxz := h1.antisym x z
    have hxy1 : c1 x y ≤ 0 := by by_cases h : c1 x y = 0 <;> simp_all
    have hyz1 : c1 y z ≤ 0 := by by_cases h : c1 y z = 0 <;> simp_all
    have hxz1 : c1 x z ≤ 0 := h1.le_trans x y z hxy1 hyz1
    by_cases hz : c1 x z = 0
    · rw [if_pos hz]
      -- both first-stage comparisons must be exactly 0
      have h1xy : c1 x y = 0 := by
        by_contra hne
        have hlt : c1 x y < 0 := by omega
        have : c1 y x ≤ 0 := by
          refine h1.le_trans y z x hyz1 ?_
          omega
        omega
      have h1yz : c1 y z = 0 := by
        by_contra hne
        have hlt : c1 y z < 0 := by omega
        have : c1 z y ≤ 0 := by
          refine h1.le_trans z x y (by omega) hxy1
        omega
      rw [if_pos h1xy] at hxy
      rw [if_pos h1yz] at hyz
      exact h2.le_trans x y z hxy hyz
    · rw [if_neg hz]
      exact hxz1

theorem lexCmp_range {α : Type _} {c1 c2 : α → α → Int}
    (h1 : CmpInRange c1) (h2 : CmpInRange c2) : CmpInRange (lexCmp c1 c2) := by
  intro x y
  unfold lexCmp
  by_cases h : c1 x y = 0
  · rw [if_pos h]; exact h2 x y
  · rw [if_neg h]; exact h1 x y

/-- Tail of `cmpPad` once the left list is exhausted: compare the padding
element against the remaining right elements. -/
def cmpPadNil {α : Type _} (c : α → α → Int) (pad : α) : List α → Int
  | [] => 0
  | y :: ys => if c pad y = 0 then cmpPadNil c pad ys else c pad y

/-- Compare two lists elementwise, padding the shorter list with a neutral
element; the first nonzero elementwise comparison decides. -/
def cmpPad {α : Type _} (c : α → α → Int) (pad : α) : List α → List α → Int
  | [], b => cmpPadNil c pad b
  | x :: xs, b =>
    if c x (b.headD pad) = 0 then cmpPad c pad xs b.tail else c x (b.headD pad)

/-- A uniform head / tail unfolding of cmpPad. -/
theorem cmpPad_unfold {α : Type _} (c : α → α → Int) (pad : α) (a b : List α) :
    cmpPad c pad a b =
      if a.isEmpty && b.isEmpty then 0
      else if c (a.headD pad) (b.headD pad) = 0 then cmpPad c pad a.tail b.tail
      else c (a.headD pad) (b.headD pad) := by
  match a, b with
  | [], [] => rfl
  | [], y :: ys => simp [cmpPad, cmpPadNil]
  | x :: xs, [] => simp [cmpPad, cmpPadNil]
  | x :: xs, y :: ys => simp [cmpPad, cmpPadNil]

theorem isEmptyPair {α : Type _} (a b : List α) :
    (a.isEmpty && b.isEmpty) = true ↔ a = [] ∧ b = [] := by
  cases a <;> cases b <;> simp

theorem cmpPad_refl {α : Type _} {c : α → α → Int} (hc : LawfulCmp c) (pad : α) :
    ∀ a, cmpPad c pad a a = 0 := by
  intro a
  induction a with
  | nil => rfl
  | cons x xs ih => simp [cmpPad, hc.refl, ih]

theorem cmpPad_antisym {α : Type _} {c : α → α → Int} (hc : LawfulCmp c) (pad : α) :
    ∀ a b, cmpPad c pad a b = -(cmpPad c pad b a) := by
  intro a
  induction a with
  | nil =>
    intro b
    induction b with
    | nil => rfl
    | cons y ys ihb =>
      show cmpPadNil c pad (y :: ys) = -(cmpPad c pad (y :: ys) [])
      simp only [cmpPadNil, cmpPad, List.headD, List.tail_nil]
      have h := hc.antisym pad y
      by_cases h0 : c pad y = 0
      · rw [if_pos h0, if_pos (by omega)]
        exact ihb
      · rw [if_neg h0, if_neg (by omega)]
        omega
  | cons x xs ih =>
    intro b
    match b with
    | [] =>
      show cmpPad c pad (x :: xs) [] = -(cmpPadNil c pad (x :: xs))
      simp only [cmpPad, cmpPadNil, List.headD, List.tail_nil]
      have h := hc.antisym x pad
      by_cases h0 : c x pad = 0
      · rw [if_pos h0, if_pos (by omega)]
        exact ih []
      · rw [if_neg h0, if_neg (by omega)]
        omega
    | y :: ys =>
      simp only [cmpPad, List.headD, List.tail_cons]
      have h := hc.antisym x y
      by_cases h0 : c x y = 0
      · rw [if_pos h0, if_pos (by omega)]
        exact ih ys
      · rw [if_neg h0, if_neg (by omega)]
        omega

theorem cmpPad_le_trans_aux {α : Type _} {c : α → α → Int} (hc : LawfulCmp c) (pad : α) :
    ∀ n a b d, a.length + b.length + d.length ≤ n →
      cmpPad c pad a b ≤ 0 → cmpPad c pad b d ≤ 0 → cmpPad c pad a d ≤ 0 := by
  intro n
  induction n with
  | zero =>
    intro a b d hlen _ _
    have ha : a = [] := List.eq_nil_of_length_eq_zero (by omega)
    have hd : d = [] := List.eq_nil_of_length_eq_zero (by omega)
    subst ha; subst hd
    simp [cmpPad, cmpPadNil]
  | succ n ih =>
    intro a b d hlen hab hbd
    by_cases hADnil : a = [] ∧ d = []
    · rw [cmpPad_unfold, if_pos ((isEmptyPair a d).mpr hADnil)]
    by_cases hABnil : a = [] ∧ b = []
    · have : cmpPad c pad a d = cmpPad c pad b d := by rw [hABnil.1, hABnil.2]
      rw [this]; exact hbd
    by_cases hBDnil : b = [] ∧ d = []
    · have : cmpPad c pad a d = cmpPad c pad a b := by rw [hBDnil.1, hBDnil.2]
      rw [this]; exact hab
    rw [cmpPad_unfold, if_neg (fun hcon => hABnil ((isEmptyPair a b).mp hcon))] at hab
    rw [cmpPad_unfold, if_neg (fun hcon => hBDnil ((isEmptyPair b d).mp hcon))] at hbd
    rw [cmpPad_unfold, if_neg (fun hcon => hADnil ((isEmptyPair a d).mp hcon))]
    set x := a.headD pad with hx
    set y := b.headD pad with hy
    set z := d.headD pad with hz
    have hxyA := hc.antisym x y
    have hyzA := hc.antisym y z
    have hxzA := hc.antisym x z
    have hlen2 : a.tail.length + b.tail.length + d.tail.length ≤ n := by
      have h1 : a.tail.length ≤ a.length := a.length_tail ▸ Nat.sub_le _ _
      have h2 : b.tail.length ≤ b.length := b.length_tail ▸ Nat.sub_le _ _
      have h3 : d.tail.length ≤ d.length := d.length_tail ▸ Nat.sub_le _ _
      have hpos : 1 ≤ a.length + b.length + d.length := by
        by_contra hcon
        push_neg at hcon
        exact hABnil ⟨List.eq_nil_of_length_eq_zero (by omega),
          List.eq_nil_of_length_eq_zero (by omega)⟩
      have ha' : a ≠ [] ∨ b ≠ [] ∨ d ≠ [] := by
        by_contra hcon
        push_neg at hcon
        exact hABnil ⟨hcon.1, hcon.2.1⟩
      rcases ha' with h | h | h
      · have : a.tail.length < a.length := by
          rw [a.length_tail]
          exact Nat.sub_lt (List.length_pos.mpr h) Nat.one_pos
        omega
      · have : b.tail.length < b.length := by
          rw [b.length_tail]
          exact Nat.sub_lt (List.length_pos.mpr h) Nat.one_pos
        omega
      · have : d.tail.length < d.length := by
          rw [d.length_tail]
          exact Nat.sub_lt (List.length_pos.mpr h) Nat.one_pos
        omega
    by_cases hxy : c x y = 0
    · rw [if_pos hxy] at hab
      by_cases hyz : c y z = 0
      · -- both heads equal: head x z also compares 0, recurse
        have hxz0 : c x z = 0 := by
          have h1 : c x z ≤ 0 := hc.le_trans x y z (by omega) (by omega)
          have h2 : c z x ≤ 0 := hc.le_trans z y x (by omega) (by omega)
          omega
        rw [if_pos hxz0]
        rw [if_pos hyz] at hbd
        exact ih a.tail b.tail d.tail hlen2 hab hbd
      · rw [if_neg hyz] at hbd
        have hyzlt : c y z < 0 := by omega
        have hxzle : c x z ≤ 0 := hc.le_trans x y z (by omega) (by omega)
        have hxzne : c x z ≠ 0 := by
          intro h0
          have : c z y ≤ 0 := hc.le_trans z x y (by omega) (by omega)
          omega
        rw [if_neg hxzne]
        exact hxzle
    · rw [if_neg hxy] at hab
      have hxylt : c x y < 0 := by omega
      by_cases hyz : c y z = 0
      · have hxzle : c x z ≤ 0 := hc.le_trans x y z (by omega) (by omega)
        have hxzne : c x z ≠ 0 := by
          intro h0
          have : c y x ≤ 0 := hc.le_trans y z x (by omega) (by omega)
          omega
        rw [if_neg hxzne]
        exact hxzle
      · rw [if_neg hyz] at hbd
        have hyzlt : c y z < 0 := by omega
        have hxzle : c x z ≤ 0 := hc.le_trans x y z (by omega) (by omega)
        have hxzne : c x z ≠ 0 := by
          intro h0
          have : c z y ≤ 0 := hc.le_trans z x y (by omega) (by omega)
          omega
        rw [if_neg hxzne]
        exact hxzle

theorem cmpPad_lawful {α : Type _} {c : α → α → Int} (hc : LawfulCmp c) (pad : α) :
    LawfulCmp (cmpPad c pad) where
  refl := cmpPad_refl hc pad
  antisym := cmpPad_antisym hc pad
  le_trans a b d := cmpPad_le_trans_aux hc pad (a.length + b.length + d.length) a b d le_rfl

theorem cmpPad_range {α : Type _} {c : α → α → Int} (hc : CmpInRange c) (pad : α) :
    CmpInRange (cmpPad c pad) := by
  intro a
  induction a with
  | nil =>
    intro b
    induction b with
    | nil => simp [cmpPad, cmpPadNil]
    | cons y ys ihb =>
      show cmpPadNil c pad (y :: ys) = -1 ∨ cmpPadNil c pad (y :: ys) = 0 ∨
        cmpPadNil c pad (y :: ys) = 1
      simp only [cmpPadNil]
      by_cases h0 : c pad y = 0
      · rw [if_pos h0]; exact ihb
      · rw [if_neg h0]
        rcases hc pad y with h | h | h <;> simp_all
  | cons x xs ih =>
    intro b
    simp only [cmpPad]
    by_cases h0 : c x (b.headD pad) = 0
    · rw [if_pos h0]; exact ih b.tail
    · rw [if_neg h0]
      rcases hc x (b.headD pad) with h | h | h <;> simp_all

end CmpAlgebra

section VersionComparator

/-!
Embedding of the opkg version comparison algorithm
(opkg_make_index.py, function `order` and class `Version`).
-/

/-- Model of the helper `order` from the source: maps the optional current
character of a version string (Python passes None once a side is exhausted)
to its ordering key.  None and digits map to 0, tilde to -1, letters to
their code point, anything else to 256 plus its code point. -/
def pyOrder : Option Char → Int
  | none => 0
  | some c =>
    if c = '~' then -1
    else if c.isDigit then 0
    else if c.isAlpha then (c.toNat : Int)
    else 256 + (c.toNat : Int)

/-- True when a list starts with a non-digit character (the loop condition
fragment `value and not str.isdigit(value[0])` of the source). -/
def headNonDigit (l : Str) : Bool :=
  match l with
  | [] => false
  | c :: _ => !c.isDigit

/-- True when a list starts with a digit character. -/
def headDigit (l : Str) : Bool :=
  match l with
  | [] => false
  | c :: _ => c.isDigit

/-- The alphanumeric comparison loop of `Version._versioncompare`: while
either side has a non-digit head, pop one character (or None) from each side
and compare order keys; the first difference decides.  Fuel is always
sufficient at `v.length + r.length`. -/
def alphaPhase : Nat → Str → Str → Sum Int (Str × Str)
  | 0, v, r => Sum.inr (v, r)
  | fuel + 1, v, r =>
    if headNonDigit v || headNonDigit r then
      if pyOrder v.head? = pyOrder r.head? then alphaPhase fuel v.tail r.tail
      else if pyOrder v.head? < pyOrder r.head? then Sum.inl (-1) else Sum.inl 1
    else Sum.inr (v, r)

/-- The leading-zero-skipping loops of `Version._versioncompare`
(`while value and value[0] == "0": value.pop(0)`). -/
def dropZeros : Str → Str
  | [] => []
  | c :: t => if c = '0' then dropZeros t else c :: t

/-- The numeric comparison loop of `Version._versioncompare`: while both
heads are digits pop both, recording the first digit difference in
`first_diff` (updated only while it is still zero). -/
def digitPhase : Int → Str → Str → Int × Str × Str
  | fd, a :: v, b :: r =>
    if a.isDigit && b.isDigit then
      digitPhase (if fd = 0 then (digitVal a : Int) - (digitVal b : Int) else fd) v r
    else (fd, a :: v, b :: r)
  | fd, v, r => (fd, v, r)

/-- Decision step after the numeric loop: remaining digits on either side
decide, otherwise the recorded first difference decides. -/
def digitDecide : Int × Str × Str → Sum Int (Str × Str)
  | (fd, v3, r3) =>
    if headDigit v3 then Sum.inl 1
    else if headDigit r3 then Sum.inl (-1)
    else if 0 < fd then Sum.inl 1
    else if fd < 0 then Sum.inl (-1)
    else Sum.inr (v3, r3)

/-- The digit-run stage of one iteration of the outer loop of
`Version._versioncompare`: skip leading zeros, run the numeric loop, then
decide by remaining digits or the recorded first difference. -/
def digitStage (v1 r1 : Str) : Sum Int (Str × Str) :=
  digitDecide (digitPhase 0 (dropZeros v1) (dropZeros r1))

/-- One iteration of the outer `while value or ref` loop of
`Version._versioncompare`. -/
def outerStep (v r : Str) : Sum Int (Str × Str) :=
  match alphaPhase (v.length + r.length) v r with
  | Sum.inl d => Sum.inl d
  | Sum.inr p => digitStage p.1 p.2

/-- The outer loop of `Version._versioncompare`, with fuel (sufficient at
`v.length + r.length + 1`). -/
def vcmpFuel : Nat → Str → Str → Int
  | 0, _, _ => 0
  | fuel + 1, v, r =>
    if v.isEmpty && r.isEmpty then 0
    else
      match outerStep v r with
      | Sum.inl d => d
      | Sum.inr p => vcmpFuel fuel p.1 p.2

/-- Model of `Version._versioncompare` from the source (the core opkg
string comparison). -/
def vcmp (v r : Str) : Int := vcmpFuel (v.length + r.length + 1) v r

end VersionComparator

end OpkgRepo

namespace OpkgRepo

example : vcmp (str "1.0") (str "2.0") = -1 := by decide
example : vcmp [] ['~'] = 1 := by decide
example : vcmp (str "1.9") (str "1.10") = -1 := by decide
example : vcmp (str "1.0") (str "1.0.0") = -1 := by decide
example : vcmp (str "010") (str "10") = 0 := by decide
example : vcmp (str "a") (str "a1") = -1 := by decide

end OpkgRepo

namespace OpkgRepo

section CanonicalForm

/-- Negation of the ASCII digit test, the predicate of the alphanumeric
runs of the comparison algorithm. -/
def ndB (c : Char) : Bool := !c.isDigit

/-- Ordering key of one concrete character. -/
def charKey (c : Char) : Int := pyOrder (some c)

/-- Keys of the maximal non-digit prefix of a string. -/
def alKeys (s : Str) : List Int := (s.takeWhile ndB).map charKey

/-- Numeric value of the maximal digit run following the non-digit prefix. -/
def numRun (s : Str) : Nat := digitsToNat ((s.dropWhile ndB).takeWhile Char.isDigit)

/-- Remainder of a string after its leading non-digit run and digit run. -/
def restStr (s : Str) : Str := (s.dropWhile ndB).dropWhile Char.isDigit

/-- Padded comparison of key lists (pad key 0 for the exhausted side). -/
def keyCmp : List Int → List Int → Int := cmpPad intCmp 0

/-- Comparison of one (keys, number) token pair. -/
def pairCmp (p q : List Int × Nat) : Int :=
  if keyCmp p.1 q.1 = 0 then natCmp p.2 q.2 else keyCmp p.1 q.1

/-- Padded comparison of token lists. -/
def tokCmp : List (List Int × Nat) → List (List Int × Nat) → Int := cmpPad pairCmp ([], 0)

theorem restStr_length_lt : ∀ (c : Char) (t : Str), (restStr (c :: t)).length < (c :: t).length := by
  intro c t
  unfold restStr
  by_cases h : c.isDigit
  · have h1 : (c :: t).dropWhile ndB = c :: t := by
      rw [List.dropWhile_cons, if_neg (by simp [ndB, h])]
    rw [h1, List.dropWhile_cons, if_pos h]
    have := (List.dropWhile_sublist Char.isDigit (l := t)).length_le
    simp
    omega
  · have h1 : (c :: t).dropWhile ndB = t.dropWhile ndB := by
      rw [List.dropWhile_cons, if_pos (by simp [ndB, h])]
    rw [h1]
    have h2 := (List.dropWhile_sublist ndB (l := t)).length_le
    have h3 := (List.dropWhile_sublist Char.isDigit (l := t.dropWhile ndB)).length_le
    simp
    omega

/-- Canonical token sequence of a version string: alternating non-digit key
runs and digit-run values. -/
def canon : Str → List (List Int × Nat)
  | [] => []
  | c :: t => (alKeys (c :: t), numRun (c :: t)) :: canon (restStr (c :: t))
termination_by s => s.length
decreasing_by simp_wf; apply restStr_length_lt

theorem pyOrder_some (c : Char) :
    pyOrder (some c) =
      if c = '~' then -1
      else if c.isDigit then 0
      else if c.isAlpha then (c.toNat : Int)
      else 256 + (c.toNat : Int) := rfl

theorem pyOrder_digit (c : Char) (h : c.isDigit = true) : pyOrder (some c) = 0 := by
  rw [pyOrder_some, if_neg (by rintro rfl; exact absurd h (by decide)), if_pos h]

theorem pyOrder_ne_zero (c : Char) (h : c.isDigit = false) : pyOrder (some c) ≠ 0 := by
  rw [pyOrder_some]
  by_cases h1 : c = '~'
  · rw [if_pos h1]; decide
  rw [if_neg h1, if_neg (by simp [h])]
  by_cases h2 : c.isAlpha
  · rw [if_pos h2]
    have : 0 < c.toNat := by
      simp only [Char.isAlpha, Char.isUpper, Char.isLower, Bool.or_eq_true,
        Bool.and_eq_true, decide_eq_true_eq] at h2
      obtain h3 | h3 := h2
      · exact lt_of_lt_of_le (by norm_num) h3.1
      · exact lt_of_lt_of_le (by norm_num) h3.1
    omega
  · rw [if_neg h2]
    have : (0 : Int) ≤ (c.toNat : Int) := by positivity
    omega

theorem alKeys_nil : alKeys [] = [] := rfl

theorem alKeys_cons_nd (c : Char) (t : Str) (h : c.isDigit = false) :
    alKeys (c :: t) = charKey c :: alKeys t := by
  unfold alKeys
  rw [List.takeWhile_cons, if_pos (by simp [ndB, h])]
  rfl

theorem alKeys_eq_nil_of (s : Str) (h : headNonDigit s = false) : alKeys s = [] := by
  cases s with
  | nil => rfl
  | cons c t =>
    simp only [headNonDigit, Bool.not_eq_true'] at h
    unfold alKeys
    rw [List.takeWhile_cons, if_neg (by simp [ndB, h])]
    rfl

theorem headD_alKeys (s : Str) : (alKeys s).headD 0 = pyOrder s.head? := by
  cases s with
  | nil => rfl
  | cons c t =>
    by_cases h : c.isDigit
    · rw [alKeys_eq_nil_of _ (by simp [headNonDigit, h])]
      simp [pyOrder_digit c h]
  
    · rw [alKeys_cons_nd c t (by simp [h])]
      rfl

theorem dropWhile_nd_self (s : Str) (h : headNonDigit s = false) :
    s.dropWhile ndB = s := by
  cases s with
  | nil => rfl
  | cons c t =>
    simp only [headNonDigit, Bool.not_eq_true'] at h
    rw [List.dropWhile_cons, if_neg (by simp [ndB, h])]

theorem dropWhile_nd_cons (c : Char) (t : Str) (h : c.isDigit = false) :
    (c :: t).dropWhile ndB = t.dropWhile ndB := by
  rw [List.dropWhile_cons, if_pos (by simp [ndB, h])]

theorem headNonDigit_dropWhile_nd (s : Str) : headNonDigit (s.dropWhile ndB) = false := by
  induction s with
  | nil => rfl
  | cons c t ih =>
    rw [List.dropWhile_cons]
    by_cases h : ndB c
    · rw [if_pos h]; exact ih
    · rw [if_neg h]
      simp only [ndB, Bool.not_eq_true'] at h
      simp [headNonDigit, h]

theorem intCmp_eq_zero_iff (a b : Int) : intCmp a b = 0 ↔ a = b := by
  unfold intCmp
  by_cases h1 : a < b
  · rw [if_pos h1]; constructor <;> intro h3 <;> omega
  · rw [if_neg h1]
    by_cases h2 : b < a
    · rw [if_pos h2]; constructor <;> intro h3 <;> omega
    · rw [if_neg h2]; constructor <;> intro h3 <;> omega

end CanonicalForm

end OpkgRepo

namespace OpkgRepo

section AlphaPhaseSpec

/-- Characterization of the alphanumeric loop: a decision equals the padded
key comparison of the two maximal non-digit prefixes, and an undecided exit
leaves both prefixes consumed with equal keys. -/
theorem alphaPhase_spec : ∀ (fuel : Nat) (v r : Str), v.length + r.length ≤ fuel →
    (match alphaPhase fuel v r with
     | Sum.inl d => keyCmp (alKeys v) (alKeys r) = d
     | Sum.inr p => keyCmp (alKeys v) (alKeys r) = 0 ∧
         p.1 = v.dropWhile ndB ∧ p.2 = r.dropWhile ndB) := by
  intro fuel
  induction fuel with
  | zero =>
    intro v r hlen
    have hv : v = [] := by
      cases v with
      | nil => rfl
      | cons a t => simp at hlen
    have hr : r = [] := by
      cases r with
      | nil => rfl
      | cons a t => simp at hlen
    subst hv; subst hr
    exact ⟨rfl, rfl, rfl⟩
  | succ fuel ih =>
    intro v r hlen
    rw [alphaPhase]
    by_cases hcond : (headNonDigit v || headNonDigit r) = true
    · rw [if_pos hcond]
      by_cases heq : pyOrder v.head? = pyOrder r.head?
      · rw [if_pos heq]
        -- undecided head pair: both sides start with equal-key non-digits
        obtain ⟨a, v2, b, r2, hv, hr, hna, hnb⟩ :
            ∃ a v2 b r2, v = a :: v2 ∧ r = b :: r2 ∧
              a.isDigit = false ∧ b.isDigit = false := by
          match v, r with
          | [], [] => simp [headNonDigit] at hcond
          | [], b :: r2 =>
            exfalso
            have hb : b.isDigit = false := by
              simpa [headNonDigit] using hcond
            exact pyOrder_ne_zero b hb (by simpa using heq.symm)
          | a :: v2, [] =>
            exfalso
            have ha : a.isDigit = false := by
              simpa [headNonDigit] using hcond
            exact pyOrder_ne_zero a ha (by simpa using heq)
          | a :: v2, b :: r2 =>
            by_cases ha : a.isDigit
            · by_cases hb : b.isDigit
              · exfalso
                simp [headNonDigit, ha, hb] at hcond
              · exfalso
                have h1 : pyOrder (some a) = 0 := pyOrder_digit a ha
                have h2 : pyOrder (some b) ≠ 0 := pyOrder_ne_zero b (by simpa using hb)
                simp only [List.head?_cons] at heq
                exact h2 (heq ▸ h1)
            · by_cases hb : b.isDigit
              · exfalso
                have h1 : pyOrder (some b) = 0 := pyOrder_digit b hb
                have h2 : pyOrder (some a) ≠ 0 := pyOrder_ne_zero a (by simpa using ha)
                simp only [List.head?_cons] at heq
                exact h2 (heq.trans h1)
              · exact ⟨a, v2, b, r2, rfl, rfl, by simpa using ha, by simpa using hb⟩
        subst hv; subst hr
        have hk : charKey a = charKey b := by simpa [charKey] using heq
        have hlen2 : v2.length + r2.length ≤ fuel := by simp at hlen; omega
        have ihh := ih v2 r2 hlen2
        have hav : alKeys (a :: v2) = charKey a :: alKeys v2 := alKeys_cons_nd a v2 hna
        have har : alKeys (b :: r2) = charKey b :: alKeys r2 := alKeys_cons_nd b r2 hnb
        have hstep : keyCmp (alKeys (a :: v2)) (alKeys (b :: r2)) =
            keyCmp (alKeys v2) (alKeys r2) := by
          rw [hav, har]
          show cmpPad intCmp 0 (charKey a :: alKeys v2) (charKey b :: alKeys r2) =
            cmpPad intCmp 0 (alKeys v2) (alKeys r2)
          rw [cmpPad]
          rw [if_pos]
          · rfl
          · simp only [List.headD_cons]
            rw [hk]
            exact (intCmp_eq_zero_iff _ _).mpr rfl
        simp only [List.tail_cons]
        match hres : alphaPhase fuel v2 r2 with
        | Sum.inl d =>
          rw [hres] at ihh
          rw [hstep]
          exact ihh
        | Sum.inr p =>
          rw [hres] at ihh
          refine ⟨by rw [hstep]; exact ihh.1, ?_, ?_⟩
          · rw [ihh.2.1, dropWhile_nd_cons a v2 hna]
          · rw [ihh.2.2, dropWhile_nd_cons b r2 hnb]
      · rw [if_neg heq]
        -- a decision: the padded key comparison decides at the first position
        have hne : ¬(alKeys v = [] ∧ alKeys r = []) := by
          rintro ⟨h1, h2⟩
          have e1 : pyOrder v.head? = 0 := by rw [← headD_alKeys, h1]; rfl
          have e2 : pyOrder r.head? = 0 := by rw [← headD_alKeys, h2]; rfl
          exact heq (e1.trans e2.symm)
        have hkey : keyCmp (alKeys v) (alKeys r) = intCmp (pyOrder v.head?) (pyOrder r.head?) := by
          show cmpPad intCmp 0 (alKeys v) (alKeys r) = _
          rw [cmpPad_unfold]
          rw [if_neg (fun hcon => hne ((isEmptyPair _ _).mp hcon))]
          rw [headD_alKeys, headD_alKeys]
          rw [if_neg]
          intro hcon
          exact heq ((intCmp_eq_zero_iff _ _).mp hcon)
        by_cases hlt : pyOrder v.head? < pyOrder r.head?
        · rw [if_pos hlt]
          rw [hkey]
          unfold intCmp
          rw [if_pos hlt]
        · rw [if_neg hlt]
          rw [hkey]
          unfold intCmp
          rw [if_neg hlt, if_pos (by omega)]
    · rw [if_neg hcond]
      obtain ⟨hcv, hcr⟩ : headNonDigit v = false ∧ headNonDigit r = false := by
        have hfalse : (headNonDigit v || headNonDigit r) = false := by
          cases hb : (headNonDigit v || headNonDigit r)
          · rfl
          · exact absurd hb hcond
        exact Bool.or_eq_false_iff.mp hfalse
      refine ⟨?_, (dropWhile_nd_self v hcv).symm, (dropWhile_nd_self r hcr).symm⟩
      rw [alKeys_eq_nil_of v hcv, alKeys_eq_nil_of r hcr]
      rfl

end AlphaPhaseSpec

end OpkgRepo

namespace OpkgRepo

section DigitPhaseSpec

/-- Accumulation of `first_diff` over the consumed digit pairs of the
numeric loop. -/
def foldFd : Int → Str → Str → Int
  | fd, x :: a, y :: b =>
    foldFd (if fd = 0 then (digitVal x : Int) - (digitVal y : Int) else fd) a b
  | fd, _, _ => fd

theorem isDigit_toNat (c : Char) (h : c.isDigit = true) : 48 ≤ c.toNat ∧ c.toNat ≤ 57 := by
  simpa [Char.isDigit] using h

theorem digitVal_le (c : Char) (h : c.isDigit = true) : digitVal c ≤ 9 := by
  have := isDigit_toNat c h
  unfold digitVal
  omega

theorem digitsToNat_lt (l : Str) (h : l.all Char.isDigit = true) :
    digitsToNat l < 10 ^ l.length := by
  induction l with
  | nil => simp [digitsToNat]
  | cons c t ih =>
    simp only [List.all_cons, Bool.and_eq_true] at h
    have h1 := ih h.2
    have h2 : digitVal c ≤ 9 := digitVal_le c h.1
    simp only [digitsToNat, List.length_cons, pow_succ]
    have h3 : digitVal c * 10 ^ t.length ≤ 9 * 10 ^ t.length :=
      Nat.mul_le_mul_right _ h2
    omega

theorem digitsToNat_ge (l : Str) (h : l.all Char.isDigit = true) (hne : l ≠ [])
    (h0 : l.head? ≠ some '0') : 10 ^ (l.length - 1) ≤ digitsToNat l := by
  match l with
  | [] => exact absurd rfl hne
  | c :: t =>
    simp only [List.all_cons, Bool.and_eq_true] at h
    have hc : 1 ≤ digitVal c := by
      have h48 := isDigit_toNat c h.1
      have hne0 : c ≠ '0' := by
        intro he
        exact h0 (by rw [he]; rfl)
      have : c.toNat ≠ 48 := by
        intro he
        apply hne0
        have h4 : c = Char.ofNat c.toNat := (Char.ofNat_toNat c).symm
        rw [h4, he]
      unfold digitVal
      omega
    simp only [digitsToNat, List.length_cons, Nat.add_sub_cancel]
    have h3 : 1 * 10 ^ t.length ≤ digitVal c * 10 ^ t.length :=
      Nat.mul_le_mul_right _ hc
    omega

theorem val_lt_of_shorter (a b : Str) (ha : a.all Char.isDigit = true)
    (hb : b.all Char.isDigit = true) (h0b : b.head? ≠ some '0')
    (hlen : a.length < b.length) : digitsToNat a < digitsToNat b := by
  have hbne : b ≠ [] := by
    intro he
    rw [he] at hlen
    simp at hlen
  have h1 := digitsToNat_lt a ha
  have h2 := digitsToNat_ge b hb hbne h0b
  have h3 : (10 : Nat) ^ a.length ≤ 10 ^ (b.length - 1) :=
    Nat.pow_le_pow_right (by norm_num) (by omega)
  omega

theorem foldFd_ne (fd : Int) (hfd : fd ≠ 0) : ∀ (a b : Str), foldFd fd a b = fd := by
  intro a
  induction a with
  | nil => intro b; rfl
  | cons x a2 ih =>
    intro b
    match b with
    | [] => rfl
    | y :: b2 =>
      show foldFd (if fd = 0 then (digitVal x : Int) - digitVal y else fd) a2 b2 = fd
      rw [if_neg hfd]
      exact ih b2

theorem foldFd_sign : ∀ (a b : Str), a.all Char.isDigit = true → b.all Char.isDigit = true →
    a.length = b.length →
    ((0 < foldFd 0 a b → digitsToNat b < digitsToNat a) ∧
     (foldFd 0 a b < 0 → digitsToNat a < digitsToNat b) ∧
     (foldFd 0 a b = 0 → digitsToNat a = digitsToNat b)) := by
  intro a
  induction a with
  | nil =>
    intro b _ _ hlen
    have hb : b = [] := List.eq_nil_of_length_eq_zero (by simp at hlen; omega)
    subst hb
    refine ⟨?_, ?_, ?_⟩ <;> intro h <;> simp [foldFd] at h ⊢
  | cons x a2 ih =>
    intro b ha hb hlen
    match b with
    | [] => simp at hlen
    | y :: b2 =>
      simp only [List.all_cons, Bool.and_eq_true] at ha hb
      simp only [List.length_cons, Nat.succ_inj] at hlen
      have hstep : foldFd 0 (x :: a2) (y :: b2) =
          foldFd ((digitVal x : Int) - digitVal y) a2 b2 := by
        show foldFd (if (0 : Int) = 0 then (digitVal x : Int) - digitVal y else 0) a2 b2 = _
        rw [if_pos rfl]
      have hva := digitsToNat_lt a2 ha.2
      have hvb := digitsToNat_lt b2 hb.2
      have hlenpow : (10 : Nat) ^ a2.length = 10 ^ b2.length := by rw [hlen]
      by_cases hxy : (digitVal x : Int) = digitVal y
      · have hxy2 : digitVal x = digitVal y := by omega
        rw [hstep, show (digitVal x : Int) - digitVal y = 0 by omega]
        obtain ⟨i1, i2, i3⟩ := ih b2 ha.2 hb.2 hlen
        refine ⟨?_, ?_, ?_⟩ <;> intro h
        · have := i1 h
          simp only [digitsToNat]
          rw [hxy2, hlen]
          omega
        · have := i2 h
          simp only [digitsToNat]
          rw [hxy2, hlen]
          omega
        · have := i3 h
          simp only [digitsToNat]
          rw [hxy2, hlen]
          omega
      · rw [hstep, foldFd_ne _ (by omega)]
        rw [hlen] at hva
        have hmul : ∀ u w : Nat, u < w →
            u * 10 ^ b2.length + digitsToNat a2 < w * 10 ^ b2.length + digitsToNat b2 := by
          intro u w huw
          have e1 : (u + 1) * 10 ^ b2.length ≤ w * 10 ^ b2.length :=
            Nat.mul_le_mul_right _ (by omega)
          have e2 : u * 10 ^ b2.length + 10 ^ b2.length = (u + 1) * 10 ^ b2.length := by ring
          omega
        have hmul2 : ∀ u w : Nat, u < w →
            u * 10 ^ b2.length + digitsToNat b2 < w * 10 ^ b2.length + digitsToNat a2 := by
          intro u w huw
          have e1 : (u + 1) * 10 ^ b2.length ≤ w * 10 ^ b2.length :=
            Nat.mul_le_mul_right _ (by omega)
          have e2 : u * 10 ^ b2.length + 10 ^ b2.length = (u + 1) * 10 ^ b2.length := by ring
          omega
        refine ⟨?_, ?_, ?_⟩ <;> intro h
        · have hlt : digitVal y < digitVal x := by omega
          simp only [digitsToNat, hlen]
          exact hmul2 (digitVal y) (digitVal x) hlt
        · have hlt : digitVal x < digitVal y := by omega
          simp only [digitsToNat, hlen]
          exact hmul (digitVal x) (digitVal y) hlt
        · omega

end DigitPhaseSpec

end OpkgRepo

namespace OpkgRepo

section DigitStageSpec

theorem digitPhase_stop (t : Str) (ht : headDigit t = false) :
    ∀ (fd : Int) (u : Str), digitPhase fd t u = (fd, t, u) := by
  intro fd u
  match t, u with
  | [], [] => rfl
  | [], y :: u2 => rfl
  | c :: t2, [] => rfl
  | c :: t2, y :: u2 =>
    have hc : c.isDigit = false := by simpa [headDigit] using ht
    show (if c.isDigit && y.isDigit then _ else _) = _
    rw [if_neg (by simp [hc])]

theorem digitPhase_run_eq : ∀ (a b t u : Str) (fd : Int),
    a.all Char.isDigit = true → b.all Char.isDigit = true → a.length = b.length →
    headDigit t = false →
    digitPhase fd (a ++ t) (b ++ u) = (foldFd fd a b, t, u) := by
  intro a
  induction a with
  | nil =>
    intro b t u fd _ _ hlen ht
    have hb : b = [] := List.eq_nil_of_length_eq_zero (by simp at hlen; omega)
    subst hb
    simpa [foldFd] using digitPhase_stop t ht fd u
  | cons x a2 ih =>
    intro b t u fd ha hb hlen ht
    match b with
    | [] => simp at hlen
    | y :: b2 =>
      simp only [List.all_cons, Bool.and_eq_true] at ha hb
      simp only [List.length_cons, Nat.succ_inj] at hlen
      show digitPhase fd (x :: (a2 ++ t)) (y :: (b2 ++ u)) = _
      show (if x.isDigit && y.isDigit then _ else _) = _
      rw [if_pos (by simp [ha.1, hb.1])]
      exact ih b2 t u _ ha.2 hb.2 hlen ht

theorem digitPhase_run_lt : ∀ (a b t u : Str) (fd : Int),
    a.all Char.isDigit = true → b.all Char.isDigit = true → a.length < b.length →
    headDigit t = false →
    ∃ fd2, digitPhase fd (a ++ t) (b ++ u) = (fd2, t, b.drop a.length ++ u) := by
  intro a
  induction a with
  | nil =>
    intro b t u fd _ _ _ ht
    exact ⟨fd, by simpa using digitPhase_stop t ht fd (b ++ u)⟩
  | cons x a2 ih =>
    intro b t u fd ha hb hlen ht
    match b with
    | [] => simp at hlen
    | y :: b2 =>
      simp only [List.all_cons, Bool.and_eq_true] at ha hb
      simp only [List.length_cons] at hlen
      show ∃ fd2, digitPhase fd (x :: (a2 ++ t)) (y :: (b2 ++ u)) = _
      obtain ⟨fd2, hres⟩ := ih b2 t u
        (if fd = 0 then (digitVal x : Int) - digitVal y else fd) ha.2 hb.2 (by omega) ht
      refine ⟨fd2, ?_⟩
      show (if x.isDigit && y.isDigit then _ else _) = _
      rw [if_pos (by simp [ha.1, hb.1])]
      exact hres

theorem digitPhase_run_gt : ∀ (b a t u : Str) (fd : Int),
    a.all Char.isDigit = true → b.all Char.isDigit = true → b.length < a.length →
    headDigit u = false →
    ∃ fd2, digitPhase fd (a ++ t) (b ++ u) = (fd2, a.drop b.length ++ t, u) := by
  intro b
  induction b with
  | nil =>
    intro a t u fd ha _ hlen hu
    refine ⟨fd, ?_⟩
    have hane : a ≠ [] := by
      intro he
      rw [he] at hlen
      simp at hlen
    match a with
    | [] => exact absurd rfl hane
    | x :: a2 =>
      simp only [List.all_cons, Bool.and_eq_true] at ha
      match u with
      | [] =>
        simp only [List.nil_append, List.length_nil, List.drop_zero, List.cons_append]
        rfl
      | y :: u2 =>
        have hy : y.isDigit = false := by simpa [headDigit] using hu
        show (if x.isDigit && y.isDigit then _ else _) = _
        rw [if_neg (by simp [hy])]
        simp
  | cons y b2 ih =>
    intro a t u fd ha hb hlen hu
    match a with
    | [] => simp at hlen
    | x :: a2 =>
      simp only [List.all_cons, Bool.and_eq_true] at ha hb
      simp only [List.length_cons] at hlen
      obtain ⟨fd2, hres⟩ := ih a2 t u
        (if fd = 0 then (digitVal x : Int) - digitVal y else fd) ha.2 hb.2 (by omega) hu
      refine ⟨fd2, ?_⟩
      show (if x.isDigit && y.isDigit then _ else _) = _
      rw [if_pos (by simp [ha.1, hb.1])]
      simpa using hres

theorem dropZeros_append (dv t : Str) (ht : headDigit t = false) :
    dropZeros (dv ++ t) = dropZeros dv ++ t := by
  induction dv with
  | nil =>
    simp only [List.nil_append, dropZeros]
    match t with
    | [] => rfl
    | c :: t2 =>
      have hc : c.isDigit = false := by simpa [headDigit] using ht
      show dropZeros (c :: t2) = c :: t2
      rw [dropZeros, if_neg (by rintro rfl; exact absurd hc (by decide))]
  | cons d dv2 ih =>
    show dropZeros (d :: (dv2 ++ t)) = dropZeros (d :: dv2) ++ t
    rw [dropZeros, dropZeros]
    by_cases hd : d = '0'
    · rw [if_pos hd, if_pos hd, ih]
    · rw [if_neg hd, if_neg hd]
      rfl

theorem dropZeros_all (l : Str) (h : l.all Char.isDigit = true) :
    (dropZeros l).all Char.isDigit = true := by
  induction l with
  | nil => rfl
  | cons c t ih =>
    simp only [List.all_cons, Bool.and_eq_true] at h
    rw [dropZeros]
    by_cases hc : c = '0'
    · rw [if_pos hc]; exact ih h.2
    · rw [if_neg hc]
      simp [h.1, h.2]

theorem dropZeros_head (l : Str) : (dropZeros l).head? ≠ some '0' := by
  induction l with
  | nil => simp [dropZeros]
  | cons c t ih =>
    rw [dropZeros]
    by_cases hc : c = '0'
    · rw [if_pos hc]; exact ih
    · rw [if_neg hc]
      simp [hc]

theorem dropZeros_val (l : Str) : digitsToNat (dropZeros l) = digitsToNat l := by
  induction l with
  | nil => rfl
  | cons c t ih =>
    rw [dropZeros]
    by_cases hc : c = '0'
    · rw [if_pos hc, ih]
      subst hc
      show digitsToNat t = digitVal '0' * 10 ^ t.length + digitsToNat t
      have : digitVal '0' = 0 := rfl
      rw [this]
      omega
    · rw [if_neg hc]

theorem headDigit_dropWhile_digit (s : Str) :
    headDigit (s.dropWhile Char.isDigit) = false := by
  induction s with
  | nil => rfl
  | cons c t ih =>
    rw [List.dropWhile_cons]
    by_cases h : c.isDigit
    · rw [if_pos h]; exact ih
    · rw [if_neg h]
      simpa [headDigit] using h

theorem headDigit_append_of_ne (a t : Str) (ha : a.all Char.isDigit = true) (hne : a ≠ []) :
    headDigit (a ++ t) = true := by
  match a with
  | [] => exact absurd rfl hne
  | c :: a2 =>
    simp only [List.all_cons, Bool.and_eq_true] at ha
    simpa [headDigit] using ha.1

/-- Characterization of the digit-run stage: a decision equals the natural
number comparison of the two digit-run values, and an undecided exit leaves
both digit runs consumed with equal values. -/
theorem digitStage_spec (v1 r1 : Str) :
    (match digitStage v1 r1 with
     | Sum.inl d => natCmp (digitsToNat (v1.takeWhile Char.isDigit))
         (digitsToNat (r1.takeWhile Char.isDigit)) = d
     | Sum.inr p => natCmp (digitsToNat (v1.takeWhile Char.isDigit))
         (digitsToNat (r1.takeWhile Char.isDigit)) = 0 ∧
         p.1 = v1.dropWhile Char.isDigit ∧ p.2 = r1.dropWhile Char.isDigit) := by
  have hsplitv : dropZeros v1 = dropZeros (v1.takeWhile Char.isDigit) ++ v1.dropWhile Char.isDigit := by
    conv_lhs => rw [← List.takeWhile_append_dropWhile Char.isDigit v1]
    exact dropZeros_append _ _ (headDigit_dropWhile_digit v1)
  have hsplitr : dropZeros r1 = dropZeros (r1.takeWhile Char.isDigit) ++ r1.dropWhile Char.isDigit := by
    conv_lhs => rw [← List.takeWhile_append_dropWhile Char.isDigit r1]
    exact dropZeros_append _ _ (headDigit_dropWhile_digit r1)
  have hdvall : (dropZeros (v1.takeWhile Char.isDigit)).all Char.isDigit = true :=
    dropZeros_all _ (List.all_takeWhile (l := v1))
  have hdrall : (dropZeros (r1.takeWhile Char.isDigit)).all Char.isDigit = true :=
    dropZeros_all _ (List.all_takeWhile (l := r1))
  have htv : headDigit (v1.dropWhile Char.isDigit) = false := headDigit_dropWhile_digit v1
  have htr : headDigit (r1.dropWhile Char.isDigit) = false := headDigit_dropWhile_digit r1
  have hvalv : digitsToNat (dropZeros (v1.takeWhile Char.isDigit)) =
      digitsToNat (v1.takeWhile Char.isDigit) := dropZeros_val _
  have hvalr : digitsToNat (dropZeros (r1.takeWhile Char.isDigit)) =
      digitsToNat (r1.takeWhile Char.isDigit) := dropZeros_val _
  unfold digitStage
  rw [hsplitv, hsplitr]
  rcases Nat.lt_trichotomy (dropZeros (v1.takeWhile Char.isDigit)).length
      (dropZeros (r1.takeWhile Char.isDigit)).length with hlt | heq | hgt
  · obtain ⟨fd2, hdp⟩ := digitPhase_run_lt (dropZeros (v1.takeWhile Char.isDigit))
      (dropZeros (r1.takeWhile Char.isDigit)) (v1.dropWhile Char.isDigit)
      (r1.dropWhile Char.isDigit) 0 hdvall hdrall hlt htv
    rw [hdp]
    simp only [digitDecide]
    have hne : (dropZeros (r1.takeWhile Char.isDigit)).drop
        (dropZeros (v1.takeWhile Char.isDigit)).length ≠ [] := by
      rw [ne_eq, List.drop_eq_nil_iff]
      omega
    have hdropall : ((dropZeros (r1.takeWhile Char.isDigit)).drop
        (dropZeros (v1.takeWhile Char.isDigit)).length).all Char.isDigit = true := by
      rw [List.all_eq_true] at hdrall ⊢
      intro x hx
      exact hdrall x (List.mem_of_mem_drop hx)
    rw [if_neg (by simp [htv]), if_pos (headDigit_append_of_ne _ _ hdropall hne)]
    have hval : digitsToNat (v1.takeWhile Char.isDigit) < digitsToNat (r1.takeWhile Char.isDigit) := by
      rw [← hvalv, ← hvalr]
      exact val_lt_of_shorter _ _ hdvall hdrall (dropZeros_head _) hlt
    unfold natCmp
    rw [if_pos hval]
  · rw [digitPhase_run_eq _ _ _ _ 0 hdvall hdrall heq htv]
    simp only [digitDecide]
    obtain ⟨s1, s2, s3⟩ := foldFd_sign _ _ hdvall hdrall heq
    rw [if_neg (by simp [htv]), if_neg (by simp [htr])]
    by_cases hpos : 0 < foldFd 0 (dropZeros (v1.takeWhile Char.isDigit))
        (dropZeros (r1.takeWhile Char.isDigit))
    · rw [if_pos hpos]
      have := s1 hpos
      rw [hvalv, hvalr] at this
      unfold natCmp
      rw [if_neg (by omega), if_pos (by omega)]
    · rw [if_neg hpos]
      by_cases hneg : foldFd 0 (dropZeros (v1.takeWhile Char.isDigit))
          (dropZeros (r1.takeWhile Char.isDigit)) < 0
      · rw [if_pos hneg]
        have := s2 hneg
        rw [hvalv, hvalr] at this
        unfold natCmp
        rw [if_pos (by omega)]
      · rw [if_neg hneg]
        have := s3 (by omega)
        rw [hvalv, hvalr] at this
        refine ⟨?_, rfl, rfl⟩
        unfold natCmp
        rw [if_neg (by omega), if_neg (by omega)]
  · obtain ⟨fd2, hdp⟩ := digitPhase_run_gt (dropZeros (r1.takeWhile Char.isDigit))
      (dropZeros (v1.takeWhile Char.isDigit)) (v1.dropWhile Char.isDigit)
      (r1.dropWhile Char.isDigit) 0 hdvall hdrall hgt htr
    rw [hdp]
    simp only [digitDecide]
    have hne : (dropZeros (v1.takeWhile Char.isDigit)).drop
        (dropZeros (r1.takeWhile Char.isDigit)).length ≠ [] := by
      rw [ne_eq, List.drop_eq_nil_iff]
      omega
    have hdropall : ((dropZeros (v1.takeWhile Char.isDigit)).drop
        (dropZeros (r1.takeWhile Char.isDigit)).length).all Char.isDigit = true := by
      rw [List.all_eq_true] at hdvall ⊢
      intro x hx
      exact hdvall x (List.mem_of_mem_drop hx)
    rw [if_pos (headDigit_append_of_ne _ _ hdropall hne)]
    have hval : digitsToNat (r1.takeWhile Char.isDigit) < digitsToNat (v1.takeWhile Char.isDigit) := by
      rw [← hvalv, ← hvalr]
      exact val_lt_of_shorter _ _ hdrall hdvall (dropZeros_head _) hgt
    unfold natCmp
    rw [if_neg (by omega), if_pos hval]

end DigitStageSpec

end OpkgRepo


namespace OpkgRepo

section OuterSpec

theorem canon_nil : canon [] = [] := by rw [canon]

theorem canon_cons (c : Char) (t : Str) :
    canon (c :: t) = (alKeys (c :: t), numRun (c :: t)) :: canon (restStr (c :: t)) := by
  rw [canon]

theorem headD_canon (s : Str) : (canon s).headD ([], 0) = (alKeys s, numRun s) := by
  cases s with
  | nil => rw [canon_nil]; rfl
  | cons c t => rw [canon_cons]; rfl

theorem tail_canon (s : Str) : (canon s).tail = canon (restStr s) := by
  cases s with
  | nil =>
    show (canon []).tail = canon []
    rw [canon_nil]
    rfl
  | cons c t => rw [canon_cons]; rfl

theorem canon_eq_nil_iff (s : Str) : canon s = [] ↔ s = [] := by
  cases s with
  | nil => simp [canon_nil]
  | cons c t => rw [canon_cons]; simp

theorem pairCmp_def (a b : List Int) (m n : Nat) :
    pairCmp (a, m) (b, n) = if keyCmp a b = 0 then natCmp m n else keyCmp a b := rfl

theorem tokCmp_head (v r : Str) (hne : ¬(v = [] ∧ r = [])) :
    tokCmp (canon v) (canon r) =
      if pairCmp (alKeys v, numRun v) (alKeys r, numRun r) = 0
      then tokCmp (canon (restStr v)) (canon (restStr r))
      else pairCmp (alKeys v, numRun v) (alKeys r, numRun r) := by
  show cmpPad pairCmp ([], 0) (canon v) (canon r) = _
  rw [cmpPad_unfold]
  rw [if_neg (by
    intro hcon
    obtain ⟨h1, h2⟩ := (isEmptyPair _ _).mp hcon
    exact hne ⟨(canon_eq_nil_iff v).mp h1, (canon_eq_nil_iff r).mp h2⟩)]
  rw [headD_canon, headD_canon, tail_canon, tail_canon]
  by_cases hp : pairCmp (alKeys v, numRun v) (alKeys r, numRun r) = 0
  · rw [if_pos hp, if_pos hp]
    rfl
  · rw [if_neg hp, if_neg hp]

theorem alphaPhase_inl_values : ∀ (fuel : Nat) (v r : Str) (d : Int),
    alphaPhase fuel v r = Sum.inl d → d = -1 ∨ d = 1 := by
  intro fuel
  induction fuel with
  | zero => intro v r d h; exact absurd h (by simp [alphaPhase])
  | succ fuel ih =>
    intro v r d h
    rw [alphaPhase] at h
    by_cases hcond : (headNonDigit v || headNonDigit r) = true
    · rw [if_pos hcond] at h
      by_cases heq : pyOrder v.head? = pyOrder r.head?
      · rw [if_pos heq] at h
        exact ih v.tail r.tail d h
      · rw [if_neg heq] at h
        by_cases hlt : pyOrder v.head? < pyOrder r.head?
        · rw [if_pos hlt] at h
          exact Or.inl (Sum.inl.inj h).symm
        · rw [if_neg hlt] at h
          exact Or.inr (Sum.inl.inj h).symm
    · rw [if_neg hcond] at h
      exact absurd h (by simp)

theorem digitStage_inl_values (v1 r1 : Str) (d : Int)
    (h : digitStage v1 r1 = Sum.inl d) : d = -1 ∨ d = 1 := by
  unfold digitStage at h
  match hdp : digitPhase 0 (dropZeros v1) (dropZeros r1) with
  | (fd, v3, r3) =>
    rw [hdp] at h
    simp only [digitDecide] at h
    by_cases h1 : headDigit v3 = true
    · rw [if_pos h1] at h
      exact Or.inr (Sum.inl.inj h).symm
    rw [if_neg h1] at h
    by_cases h2 : headDigit r3 = true
    · rw [if_pos h2] at h
      exact Or.inl (Sum.inl.inj h).symm
    rw [if_neg h2] at h
    by_cases h3 : 0 < fd
    · rw [if_pos h3] at h
      exact Or.inr (Sum.inl.inj h).symm
    rw [if_neg h3] at h
    by_cases h4 : fd < 0
    · rw [if_pos h4] at h
      exact Or.inl (Sum.inl.inj h).symm
    · rw [if_neg h4] at h
      exact absurd h (by simp)

/-- One outer iteration agrees with the canonical token comparison: a
decision is the token comparison's value, an undecided iteration consumes
exactly one token from each side without changing the comparison. -/
theorem outerStep_spec (v r : Str) (hne : ¬(v = [] ∧ r = [])) :
    (match outerStep v r with
     | Sum.inl d => tokCmp (canon v) (canon r) = d
     | Sum.inr p => tokCmp (canon v) (canon r) = tokCmp (canon p.1) (canon p.2) ∧
         p.1 = restStr v ∧ p.2 = restStr r) := by
  have haspec := alphaPhase_spec (v.length + r.length) v r le_rfl
  match hα : alphaPhase (v.length + r.length) v r with
  | Sum.inl d =>
    have houtv : outerStep v r = Sum.inl d := by
      unfold outerStep
      rw [hα]
    rw [houtv]
    have haspec2 : keyCmp (alKeys v) (alKeys r) = d := by
      rw [hα] at haspec
      exact haspec
    show tokCmp (canon v) (canon r) = d
    have hd : d = -1 ∨ d = 1 := alphaPhase_inl_values _ _ _ _ hα
    rw [tokCmp_head v r hne, pairCmp_def]
    rw [if_neg (by rw [haspec2]; omega), if_neg (by rw [haspec2]; omega)]
    exact haspec2
  | Sum.inr p =>
    have houtv : outerStep v r = digitStage p.1 p.2 := by
      unfold outerStep
      rw [hα]
    have haspec2 : keyCmp (alKeys v) (alKeys r) = 0 ∧
        p.1 = v.dropWhile ndB ∧ p.2 = r.dropWhile ndB := by
      rw [hα] at haspec
      exact haspec
    obtain ⟨hkey0, hp1, hp2⟩ := haspec2
    rw [houtv]
    have hdspec := digitStage_spec p.1 p.2
    have hnum1 : digitsToNat (p.1.takeWhile Char.isDigit) = numRun v := by
      rw [hp1]; rfl
    have hnum2 : digitsToNat (p.2.takeWhile Char.isDigit) = numRun r := by
      rw [hp2]; rfl
    have hrest1 : p.1.dropWhile Char.isDigit = restStr v := by
      rw [hp1]; rfl
    have hrest2 : p.2.dropWhile Char.isDigit = restStr r := by
      rw [hp2]; rfl
    match hδ : digitStage p.1 p.2 with
    | Sum.inl d =>
      have hdspec2 : natCmp (numRun v) (numRun r) = d := by
        rw [hδ] at hdspec
        rw [← hnum1, ← hnum2]
        exact hdspec
      show tokCmp (canon v) (canon r) = d
      have hd : d = -1 ∨ d = 1 := digitStage_inl_values _ _ _ hδ
      rw [tokCmp_head v r hne, pairCmp_def, if_pos hkey0]
      rw [if_neg (by rw [hdspec2]; omega)]
      exact hdspec2
    | Sum.inr q =>
      have hdspec2 : natCmp (numRun v) (numRun r) = 0 ∧
          q.1 = p.1.dropWhile Char.isDigit ∧ q.2 = p.2.dropWhile Char.isDigit := by
        rw [hδ] at hdspec
        rw [← hnum1, ← hnum2]
        exact hdspec
      obtain ⟨hnat0, hq1, hq2⟩ := hdspec2
      show tokCmp (canon v) (canon r) = tokCmp (canon q.1) (canon q.2) ∧
        q.1 = restStr v ∧ q.2 = restStr r
      refine ⟨?_, by rw [hq1, hrest1], by rw [hq2, hrest2]⟩
      rw [tokCmp_head v r hne, pairCmp_def, if_pos hkey0, if_pos hnat0]
      rw [hq1, hrest1, hq2, hrest2]

theorem restStr_le (s : Str) : (restStr s).length ≤ s.length := by
  unfold restStr
  have h1 := (List.dropWhile_sublist ndB (l := s)).length_le
  have h2 := (List.dropWhile_sublist Char.isDigit (l := s.dropWhile ndB)).length_le
  omega

theorem restStr_nil : restStr [] = [] := rfl

theorem restStr_pair_lt (v r : Str) (hne : ¬(v = [] ∧ r = [])) :
    (restStr v).length + (restStr r).length < v.length + r.length := by
  match v, r with
  | [], [] => exact absurd ⟨rfl, rfl⟩ hne
  | [], c :: t =>
    rw [restStr_nil]
    have := restStr_length_lt c t
    simpa using this
  | c :: t, [] =>
    rw [restStr_nil]
    have := restStr_length_lt c t
    simpa using this
  | c :: t, c2 :: t2 =>
    have h1 := restStr_length_lt c t
    have h2 := restStr_length_lt c2 t2
    omega

/-- The fuelled outer loop computes the canonical token comparison. -/
theorem vcmpFuel_eq_tok : ∀ (fuel : Nat) (v r : Str), v.length + r.length < fuel →
    vcmpFuel fuel v r = tokCmp (canon v) (canon r) := by
  intro fuel
  induction fuel with
  | zero => intro v r hlen; omega
  | succ fuel ih =>
    intro v r hlen
    rw [vcmpFuel]
    by_cases hemp : (v.isEmpty && r.isEmpty) = true
    · rw [if_pos hemp]
      obtain ⟨h1, h2⟩ := (isEmptyPair v r).mp hemp
      subst h1; subst h2
      rw [canon_nil]
      rfl
    · rw [if_neg hemp]
      have hne : ¬(v = [] ∧ r = []) := fun h => hemp ((isEmptyPair v r).mpr h)
      have hspec := outerStep_spec v r hne
      match hstep : outerStep v r with
      | Sum.inl d =>
        have hspec2 : tokCmp (canon v) (canon r) = d := by
          rw [hstep] at hspec
          exact hspec
        exact hspec2.symm
      | Sum.inr p =>
        have hspec2 : tokCmp (canon v) (canon r) = tokCmp (canon p.1) (canon p.2) ∧
            p.1 = restStr v ∧ p.2 = restStr r := by
          rw [hstep] at hspec
          exact hspec
        obtain ⟨heq, hp1, hp2⟩ := hspec2
        show vcmpFuel fuel p.1 p.2 = tokCmp (canon v) (canon r)
        rw [heq]
        apply ih
        have := restStr_pair_lt v r hne
        rw [hp1, hp2]
        omega

/-- `Version._versioncompare` equals the canonical token comparison. -/
theorem vcmp_eq_tok (v r : Str) : vcmp v r = tokCmp (canon v) (canon r) :=
  vcmpFuel_eq_tok (v.length + r.length + 1) v r (by omega)

theorem pairCmp_lawful : LawfulCmp pairCmp := by
  have h := lexCmp_lawful
    ((cmpPad_lawful intCmp_lawful 0).comap (Prod.fst : List Int × Nat → List Int))
    (natCmp_lawful.comap (Prod.snd : List Int × Nat → Nat))
  exact h

theorem tokCmp_lawful : LawfulCmp tokCmp := cmpPad_lawful pairCmp_lawful ([], 0)

/-- The core string comparison is a lawful comparator. -/
theorem vcmp_lawful : LawfulCmp vcmp where
  refl v := by rw [vcmp_eq_tok]; exact tokCmp_lawful.refl _
  antisym v r := by rw [vcmp_eq_tok, vcmp_eq_tok]; exact tokCmp_lawful.antisym _ _
  le_trans a b c h1 h2 := by
    rw [vcmp_eq_tok] at h1 h2 ⊢
    exact tokCmp_lawful.le_trans _ _ _ h1 h2

theorem pairCmp_range : CmpInRange pairCmp := by
  intro x y
  unfold pairCmp
  by_cases h : keyCmp x.1 y.1 = 0
  · rw [if_pos h]; exact natCmp_range x.2 y.2
  · rw [if_neg h]; exact cmpPad_range intCmp_range 0 x.1 y.1

/-- The core string comparison only returns -1, 0 or 1. -/
theorem vcmp_range : ∀ v r, vcmp v r = -1 ∨ vcmp v r = 0 ∨ vcmp v r = 1 := by
  intro v r
  rw [vcmp_eq_tok]
  exact cmpPad_range pairCmp_range ([], 0) _ _

end OuterSpec

end OpkgRepo

namespace OpkgRepo

section VersionClass

/-- Model of the `Version` class of the source: an epoch and a version
string. -/
structure Version where
  epoch : Nat
  version : Str
deriving DecidableEq

/-- Scan for the first position (at least one character in) where the
revision suffix pattern `-r` followed by at least one character starts. -/
def splitRevAux : Str → Option (Str × Str)
  | [] => none
  | '-' :: 'r' :: c :: rest => some ([], '-' :: 'r' :: c :: rest)
  | c :: rest => (splitRevAux rest).map (fun p => (c :: p.1, p.2))

/-- Split a nonempty version string into upstream part and optional
`-r...` revision suffix, per the regex of `Version.compare`
(the non-greedy group `(.+?)` followed by the optional group `(-r.+)?`
anchored at the end). -/
def splitRev (s : Str) : Str × Str :=
  match s with
  | [] => ([], [])
  | c :: rest =>
    match splitRevAux rest with
    | some p => (c :: p.1, p.2)
    | none => (c :: rest, [])

/-- One trailing newline is invisible to the anchor `$` of the Python
regex; the match drops it. -/
def stripNl (s : Str) : Str := if s.getLast? = some '\n' then s.dropLast else s

/-- Semantics of `re.match(r"(.+?)(-r.+)?$", s)` from `Version.compare`:
`none` models a failed match (empty string, or an interior newline that
neither `.` nor `$` can cross), which makes the source raise
AttributeError on `.group`. -/
def pyVerSplit (s : Str) : Option (Str × Str) :=
  if stripNl s = [] ∨ '\n' ∈ stripNl s then none else some (splitRev (stripNl s))

/-- Model of `Version.compare` from the source.  `none` models the
AttributeError raised when the split regex fails to match a version
string. -/
def Version.compare (a b : Version) : Option Int :=
  if b.epoch < a.epoch then some 1
  else if a.epoch < b.epoch then some (-1)
  else
    match pyVerSplit a.version, pyVerSplit b.version with
    | some p, some q =>
      some (if vcmp p.1 q.1 = 0 then vcmp p.2 q.2 else vcmp p.1 q.1)
    | _, _ => none

/-- Model of `parse_version` from the source.  `none` models the
ValueError of `int("")` on a version string that starts with a colon. -/
def parse_version (s : Str) : Option Version :=
  match s.dropWhile Char.isDigit with
  | ':' :: rest =>
    if s.takeWhile Char.isDigit = [] then none
    else some ⟨digitsToNat (s.takeWhile Char.isDigit), rest.takeWhile (fun c => c != '\n')⟩
  | _ => some ⟨0, s⟩

/-- Upstream component selected by the split regex. -/
def upPart (a : Version) : Str := (splitRev (stripNl a.version)).1

/-- Revision component selected by the split regex (empty when absent). -/
def revPart (a : Version) : Str := (splitRev (stripNl a.version)).2

/-- The total comparison function that `Version.compare` computes on the
inputs where its regex matches. -/
def compareTotal : Version → Version → Int :=
  lexCmp (fun a b => natCmp a.epoch b.epoch)
    (lexCmp (fun a b => vcmp (upPart a) (upPart b)) (fun a b => vcmp (revPart a) (revPart b)))

/-- Well-formedness domain on which the compare regex always matches:
nonempty, newline-free version strings. -/
def VerWF (a : Version) : Prop := a.version ≠ [] ∧ '\n' ∉ a.version

theorem stripNl_of_wf (s : Str) (h1 : s ≠ []) (h2 : '\n' ∉ s) : stripNl s = s := by
  unfold stripNl
  rw [if_neg]
  intro hcon
  exact h2 (List.mem_of_mem_getLast? hcon)

theorem pyVerSplit_of_wf (s : Str) (h1 : s ≠ []) (h2 : '\n' ∉ s) :
    pyVerSplit s = some (splitRev s) := by
  unfold pyVerSplit
  rw [stripNl_of_wf s h1 h2, if_neg]
  rintro (h | h)
  · exact h1 h
  · exact h2 h

theorem compare_eq_total (A B : Version) (hA : VerWF A) (hB : VerWF B) :
    A.compare B = some (compareTotal A B) := by
  unfold Version.compare compareTotal lexCmp
  beta_reduce
  rw [pyVerSplit_of_wf A.version hA.1 hA.2, pyVerSplit_of_wf B.version hB.1 hB.2]
  by_cases h1 : B.epoch < A.epoch
  · rw [if_pos h1]
    have : natCmp A.epoch B.epoch = 1 := by unfold natCmp; rw [if_neg (by omega), if_pos h1]
    rw [this]
    norm_num
  · rw [if_neg h1]
    by_cases h2 : A.epoch < B.epoch
    · rw [if_pos h2]
      have : natCmp A.epoch B.epoch = -1 := by unfold natCmp; rw [if_pos h2]
      rw [this]
      norm_num
    · rw [if_neg h2]
      have : natCmp A.epoch B.epoch = 0 := by
        unfold natCmp; rw [if_neg h2, if_neg h1]
      rw [this, if_pos rfl]
      have hupA : (splitRev A.version).1 = upPart A := by
        unfold upPart
        rw [stripNl_of_wf A.version hA.1 hA.2]
      have hupB : (splitRev B.version).1 = upPart B := by
        unfold upPart
        rw [stripNl_of_wf B.version hB.1 hB.2]
      have hrevA : (splitRev A.version).2 = revPart A := by
        unfold revPart
        rw [stripNl_of_wf A.version hA.1 hA.2]
      have hrevB : (splitRev B.version).2 = revPart B := by
        unfold revPart
        rw [stripNl_of_wf B.version hB.1 hB.2]
      show some (if vcmp (splitRev A.version).1 (splitRev B.version).1 = 0
        then vcmp (splitRev A.version).2 (splitRev B.version).2
        else vcmp (splitRev A.version).1 (splitRev B.version).1) = _
      rw [hupA, hupB, hrevA, hrevB]

theorem compareTotal_lawful : LawfulCmp compareTotal :=
  lexCmp_lawful (natCmp_lawful.comap Version.epoch)
    (lexCmp_lawful (vcmp_lawful.comap upPart) (vcmp_lawful.comap revPart))

theorem compareTotal_range : CmpInRange compareTotal := by
  intro a b
  unfold compareTotal lexCmp
  beta_reduce
  by_cases h1 : natCmp a.epoch b.epoch = 0
  · rw [if_pos h1]
    by_cases h2 : vcmp (upPart a) (upPart b) = 0
    · rw [if_pos h2]
      exact vcmp_range _ _
    · rw [if_neg h2]
      exact vcmp_range _ _
  · rw [if_neg h1]
    exact natCmp_range _ _

end VersionClass

end OpkgRepo

namespace OpkgRepo

/-- C2 counterexample: the claim asserts compare returns a value in
{-1,0,1} for every pair of Version values including the empty version
string, and in particular compare(A,A)=0; but at A = {epoch 0, version ""}
the split regex of the source fails to match and compare raises
(modelled by none), so compare(A,A) is not 0. -/
theorem C2_counterexample_empty_version :
    (Version.mk 0 (str "")).compare (Version.mk 0 (str "")) ≠ some 0 := by decide

/-- C2 (amended): on version strings that are nonempty and newline-free —
the domain where the split regex of `Version.compare` matches — the
comparator is a total order: compare(A,A)=0, compare(A,B)=-compare(B,A),
transitivity holds, and compare always returns -1, 0 or +1. -/
theorem C2_version_comparator_total_order (A B C : Version)
    (hA : A.version ≠ [] ∧ '\n' ∉ A.version)
    (hB : B.version ≠ [] ∧ '\n' ∉ B.version)
    (hC : C.version ≠ [] ∧ '\n' ∉ C.version) :
    A.compare A = some 0 ∧
    A.compare B = some (compareTotal A B) ∧
    compareTotal A B = -(compareTotal B A) ∧
    (compareTotal A B ≤ 0 → compareTotal B C ≤ 0 → compareTotal A C ≤ 0) ∧
    (A.compare B = some (-1) ∨ A.compare B = some 0 ∨ A.compare B = some 1) := by
  refine ⟨?_, compare_eq_total A B hA hB, compareTotal_lawful.antisym A B,
    compareTotal_lawful.le_trans A B C, ?_⟩
  · rw [compare_eq_total A A hA hA, compareTotal_lawful.refl A]
  · rw [compare_eq_total A B hA hB]
    rcases compareTotal_range A B with h | h | h <;> simp [h]

/-- C2 witness: the amended total-order theorem applied at the concrete
versions 1.0, 2.0 and 3.0. -/
theorem C2_version_comparator_total_order_witness :
    (Version.mk 0 (str "1.0")).compare (Version.mk 0 (str "2.0")) = some (-1) := by
  have h := C2_version_comparator_total_order
    (Version.mk 0 (str "1.0")) (Version.mk 0 (str "2.0")) (Version.mk 0 (str "3.0"))
    (by decide) (by decide) (by decide)
  rw [h.2.1]
  decide

/-- C3: the spec's property `compare({0,""}, {0,"~"}) > 0` is the intent
(the inner string comparison does return 1 there), but in the code the
split regex `(.+?)(-r.+)?$` of `Version.compare` fails on the empty
version string, so the call raises AttributeError instead of returning a
positive value: the comparison does not terminate normally. -/
theorem C3_empty_vs_tilde_crash :
    (Version.mk 0 (str "")).compare (Version.mk 0 (str "~")) = none ∧
    vcmp (str "") (str "~") = 1 := by decide

end OpkgRepo

namespace OpkgRepo

section PackageModel

/-- ASCII lowercase conversion (Python str.lower on the ASCII field names
used in control files). -/
def pyLower (s : Str) : Str := s.map Char.toLower

/-- Model of the `Package` class attribute state relevant to control-file
parsing and printing.  Defaults follow `Package.__init__` (fn = None):
every field None except version = 'none'.  `extra_attrs` absorbs
assignments read_control makes to the other `__dict__` attributes
(`fn`, `file_list`, ... ), which the claims never exercise. -/
structure Package where
  package : Option Str := none
  version : Str := str ("none")
  architecture : Option Str := none
  maintainer : Option Str := none
  source : Option Str := none
  description : Option Str := none
  depends : Option Str := none
  provides : Option Str := none
  replaces : Option Str := none
  conflicts : Option Str := none
  recommends : Option Str := none
  suggests : Option Str := none
  section_ : Option Str := none
  installed_size : Option Str := none
  filename : Option Str := none
  homepage : Option Str := none
  oe : Option Str := none
  priority : Option Str := none
  tags : Option Str := none
  license : Option Str := none
  md5 : Option Str := none
  sha256 : Option Str := none
  size : Option Int := none
  user_defined_fields : List (Str × Str) := []
  extra_attrs : List (Str × Str) := []
deriving DecidableEq

/-- Python `%s` of an optional string attribute (None renders as "None"). -/
def pyShow (o : Option Str) : Str :=
  match o with
  | none => str ("None")
  | some s => s

/-- One `Key: value` block of `Package.print` guarded by the truthiness of
the optional attribute. -/
def optPair (key : Str) (v : Option Str) : List (Str × Str) :=
  match v with
  | some s => if s = [] then [] else [(key, s)]
  | none => []

/-- The `InstalledSize` block of `Package.print`: present when the
attribute is truthy, rendered through int(); `none` models the ValueError
of int() on a non-numeric stored value. -/
def instPair (p : Package) : Option (List (Str × Str)) :=
  match p.installed_size with
  | none => some []
  | some v =>
    if v = [] then some []
    else (pyInt v).map (fun i => [(str ("InstalledSize"), intToStr i)])

/-- The ordered `(key, value)` lines emitted by `Package.print` for the
given checksum selection.  The order and guards follow the source:
Package, Version, Depends, Provides, Replaces, Conflicts, Suggests,
Recommends, Section, Architecture, Maintainer, MD5Sum, SHA256sum, Size,
InstalledSize, Filename, Source, Description, OE, HomePage, License,
Priority, Tags, then user-defined fields.  The lazy md5 / sha256
attributes evaluate to "Unknown" when unset with no backing file, and
`if self.size` reads 0 when unset with no backing file. -/
def Package.fieldPairs (p : Package) (checksum : List Str) : Option (List (Str × Str)) :=
  (instPair p).map (fun ipair =>
    optPair (str ("Package")) p.package ++
    (if p.version = [] then [] else [(str ("Version"), p.version)]) ++
    optPair (str ("Depends")) p.depends ++
    optPair (str ("Provides")) p.provides ++
    optPair (str ("Replaces")) p.replaces ++
    optPair (str ("Conflicts")) p.conflicts ++
    optPair (str ("Suggests")) p.suggests ++
    optPair (str ("Recommends")) p.recommends ++
    optPair (str ("Section")) p.section_ ++
    optPair (str ("Architecture")) p.architecture ++
    optPair (str ("Maintainer")) p.maintainer ++
    (if str ("md5") ∈ checksum then optPair (str ("MD5Sum")) (some (p.md5.getD (str ("Unknown")))) else []) ++
    (if str ("sha256") ∈ checksum then optPair (str ("SHA256sum")) (some (p.sha256.getD (str ("Unknown")))) else []) ++
    (if p.size.getD 0 = 0 then [] else [(str ("Size"), intToStr (p.size.getD 0))]) ++
    ipair ++
    optPair (str ("Filename")) p.filename ++
    optPair (str ("Source")) p.source ++
    optPair (str ("Description")) p.description ++
    optPair (str ("OE")) p.oe ++
    optPair (str ("HomePage")) p.homepage ++
    optPair (str ("License")) p.license ++
    optPair (str ("Priority")) p.priority ++
    optPair (str ("Tags")) p.tags ++
    p.user_defined_fields)

/-- Render `(key, value)` lines as `Key: value` text. -/
def emitPairs : List (Str × Str) → Str
  | [] => []
  | (k, v) :: rest => k ++ str (": ") ++ v ++ ['\n'] ++ emitPairs rest

/-- Model of `Package.print`: the serialized control block, ending with
one blank line. -/
def Package.print (p : Package) (checksum : List Str) : Option Str :=
  (p.fieldPairs checksum).map (fun kvs => emitPairs kvs ++ ['\n'])

/-- Model of readline on a string buffer: the chunk up to and including
the first newline (or the rest of the buffer), and the remainder. -/
def pyReadline : Str → Str × Str
  | [] => ([], [])
  | c :: rest =>
    if c = '\n' then ([c], rest)
    else
      match pyReadline rest with
      | (l, r) => (c :: l, r)

/-- The character class `[\w-]` of the field-name regex (ASCII word
characters and the dash). -/
def isWordChar (c : Char) : Bool := c.isAlphanum || c = '_' || c = '-'

/-- Semantics of `re.match(r'([\w-]*?):\s*(.*)', line)` on an
rstripped line: the maximal word-character prefix must be followed by a
colon; the value is the rest with leading whitespace stripped. -/
def matchHeader (l : Str) : Option (Str × Str) :=
  match l.dropWhile isWordChar with
  | ':' :: rest => some (l.takeWhile isWordChar, rest.dropWhile isPySpace)
  | _ => none

/-- Routing of one parsed field into the Package state, mirroring the
dispatch of `read_control`: `size` through int(), `md5sum` / `sha256sum`
to the checksum attributes, names present in `__dict__` to the matching
attribute, anything else kept only under the all-fields flag. -/
def routeField (p : Package) (name : Str) (value : Str) (af : Bool) : Option Package :=
  if pyLower name = str ("size") then (pyInt value).map (fun i => { p with size := some i })
  else if pyLower name = str ("md5sum") then some { p with md5 := some value }
  else if pyLower name = str ("sha256sum") then some { p with sha256 := some value }
  else if pyLower name = str ("package") then some { p with package := some value }
  else if pyLower name = str ("version") then some { p with version := value }
  else if pyLower name = str ("architecture") then some { p with architecture := some value }
  else if pyLower name = str ("maintainer") then some { p with maintainer := some value }
  else if pyLower name = str ("source") then some { p with source := some value }
  else if pyLower name = str ("description") then some { p with description := some value }
  else if pyLower name = str ("depends") then some { p with depends := some value }
  else if pyLower name = str ("provides") then some { p with provides := some value }
  else if pyLower name = str ("replaces") then some { p with replaces := some value }
  else if pyLower name = str ("conflicts") then some { p with conflicts := some value }
  else if pyLower name = str ("recommends") then some { p with recommends := some value }
  else if pyLower name = str ("suggests") then some { p with suggests := some value }
  else if pyLower name = str ("section") then some { p with section_ := some value }
  else if pyLower name = str ("installed_size") then some { p with installed_size := some value }
  else if pyLower name = str ("filename") then some { p with filename := some value }
  else if pyLower name = str ("homepage") then some { p with homepage := some value }
  else if pyLower name = str ("oe") then some { p with oe := some value }
  else if pyLower name = str ("priority") then some { p with priority := some value }
  else if pyLower name = str ("tags") then some { p with tags := some value }
  else if pyLower name = str ("license") then some { p with license := some value }
  else if pyLower name = str ("parsed_version") ∨ pyLower name = str ("filename_header") ∨
      pyLower name = str ("file_list") ∨ pyLower name = str ("file_ext_opk") ∨
      pyLower name = str ("fn") ∨ pyLower name = str ("scratch_dir") ∨
      pyLower name = str ("file_dir") ∨ pyLower name = str ("meta_dir") ∨
      pyLower name = str ("user_defined_fields") then
    some { p with extra_attrs := p.extra_attrs ++ [(pyLower name, value)] }
  else if af then some { p with user_defined_fields := p.user_defined_fields ++ [(name, value)] }
  else some p

/-- The continuation-line loop of `read_control`: read lines while they
are nonempty after rstrip and start with a space, appending them to the
value.  Returns the final value, the breaking line (none when falsy) and
the rest of the buffer. -/
def contLoop : Nat → Str → Str → Str × Option Str × Str
  | 0, value, buf => (value, none, buf)
  | fuel + 1, value, buf =>
    match pyReadline buf with
    | (chunk, rest) =>
      match pyRstrip chunk with
      | [] => (value, none, rest)
      | c :: l2 =>
        if c ≠ ' ' then (value, some (c :: l2), rest)
        else contLoop fuel (value ++ '\n' :: c :: l2) rest

/-- The outer loop of `read_control`. -/
def rcLoop : Nat → Option Str → Str → Bool → Package → Option Package
  | 0, _, _, _, p => some p
  | fuel + 1, cur, buf, af, p =>
    match cur with
    | none => some p
    | some l =>
      match matchHeader (pyRstrip l) with
      | some (name, value0) =>
        match contLoop (buf.length + 1) value0 buf with
        | (value, brk, rest) =>
          match routeField p name value af with
          | none => none
          | some p2 => rcLoop fuel brk rest af p2
      | none =>
        match pyReadline buf with
        | ([], rest) => rcLoop fuel none rest af p
        | (lnext, rest) => rcLoop fuel (some lnext) rest af p

/-- Model of `Package.read_control` reading from a string buffer.
`none` models the ValueError of int() on a malformed Size value. -/
def Package.read_control (p : Package) (s : Str) (af : Bool) : Option Package :=
  match pyReadline s with
  | (l, rest) => rcLoop (2 * s.length + 4) (if l = [] then none else some l) rest af p

end PackageModel

end OpkgRepo

namespace OpkgRepo

/-- A small fully concrete record used to check the serializer model. -/
def pkgProbe : Package :=
  { package := some (str ("a")), version := str ("1.0"),
    md5 := some (str ("m")), sha256 := some (str ("s")), size := some 1 }

/-- The probe record with a stored InstalledSize value. -/
def pkgProbeInst : Package :=
  { package := some (str ("a")), version := str ("1.0"), installed_size := some (str ("123")),
    md5 := some (str ("m")), sha256 := some (str ("s")), size := some 1 }

example :
    Package.print pkgProbe [str ("md5"), str ("sha256")] =
      some (str ("Package: a\nVersion: 1.0\nMD5Sum: m\nSHA256sum: s\nSize: 1\n\n")) := by
  decide

example :
    ((Package.print pkgProbe [str ("md5"), str ("sha256")]).bind
      (fun s => Package.read_control {} s false)) = some pkgProbe := by
  decide

example :
    ((Package.print pkgProbeInst [str ("md5"), str ("sha256")]).bind
      (fun s => Package.read_control {} s false)) = some pkgProbe := by
  decide

end OpkgRepo

namespace OpkgRepo

section RoundTrip

/-- Sequential routing of parsed fields, the effect of the outer
read_control loop on the record. -/
def foldRoute (p : Package) (kvs : List (Str × Str)) (af : Bool) : Option Package :=
  match kvs with
  | [] => some p
  | (k, v) :: rest => (routeField p k v af).bind (fun p2 => foldRoute p2 rest af)

/-- A value that survives the line discipline of print / read_control:
nonempty, no embedded newline, and no leading or trailing Python
whitespace. -/
def wfValue (v : Str) : Prop :=
  v ≠ [] ∧ '\n' ∉ v ∧
  (∀ c, v.head? = some c → isPySpace c = false) ∧
  (∀ c, v.getLast? = some c → isPySpace c = false)

/-- A serialized field line the parser reads back unchanged. -/
def goodKV (kv : Str × Str) : Prop :=
  kv.1 ≠ [] ∧ kv.1.all isWordChar = true ∧ wfValue kv.2

theorem wordChar_not_nl (c : Char) (h : isWordChar c = true) : c ≠ '\n' := by
  rintro rfl
  exact absurd h (by decide)

theorem wordChar_not_space (c : Char) (h : isWordChar c = true) : c ≠ ' ' := by
  rintro rfl
  exact absurd h (by decide)

theorem pyRstrip_append_nl (xs : Str) : pyRstrip (xs ++ ['\n']) = pyRstrip xs := by
  unfold pyRstrip
  rw [List.reverse_append]
  have h1 : List.reverse ['\n'] ++ xs.reverse = '\n' :: xs.reverse := rfl
  rw [h1, List.dropWhile_cons, if_pos (by decide)]

theorem pyRstrip_no_trailing (xs : Str)
    (h : ∀ c, xs.getLast? = some c → isPySpace c = false) : pyRstrip xs = xs := by
  unfold pyRstrip
  match hrev : xs.reverse with
  | [] =>
    have : xs = [] := by simpa using congrArg List.reverse hrev
    simp [this]
  | c :: l =>
    have hc : xs.getLast? = some c := by
      rw [← List.head?_reverse, hrev]
      rfl
    rw [List.dropWhile_cons, if_neg (by simp [h c hc])]
    rw [← hrev, List.reverse_reverse]

theorem dropWhile_head_false {α : Type _} (p : α → Bool) (l : List α)
    (h : ∀ c, l.head? = some c → p c = false) : l.dropWhile p = l := by
  match l with
  | [] => rfl
  | c :: t =>
    rw [List.dropWhile_cons, if_neg (by simp [h c rfl])]

theorem takeWhile_all_append {α : Type _} (p : α → Bool) (a b : List α)
    (h : ∀ x ∈ a, p x = true) : (a ++ b).takeWhile p = a ++ b.takeWhile p := by
  induction a with
  | nil => rfl
  | cons x t ih =>
    rw [List.cons_append, List.takeWhile_cons, if_pos (h x (List.mem_cons_self x t)),
      ih (fun y hy => h y (List.mem_cons_of_mem x hy))]
    rfl

theorem dropWhile_all_append {α : Type _} (p : α → Bool) (a b : List α)
    (h : ∀ x ∈ a, p x = true) : (a ++ b).dropWhile p = b.dropWhile p := by
  induction a with
  | nil => rfl
  | cons x t ih =>
    rw [List.cons_append, List.dropWhile_cons, if_pos (h x (List.mem_cons_self x t)),
      ih (fun y hy => h y (List.mem_cons_of_mem x hy))]

theorem matchHeader_field (k v : Str) (hk1 : k ≠ []) (hk2 : k.all isWordChar = true)
    (hv : ∀ c, v.head? = some c → isPySpace c = false) :
    matchHeader (k ++ str (": ") ++ v) = some (k, v) := by
  unfold matchHeader
  have hkmem : ∀ x ∈ k, isWordChar x = true := List.all_eq_true.mp hk2
  have e1 : (k ++ str (": ") ++ v).dropWhile isWordChar = str (": ") ++ v := by
    rw [List.append_assoc, dropWhile_all_append _ _ _ hkmem]
    rfl
  have e2 : (k ++ str (": ") ++ v).takeWhile isWordChar = k := by
    rw [List.append_assoc, takeWhile_all_append _ _ _ hkmem]
    show k ++ (':' :: ' ' :: v).takeWhile isWordChar = k
    rw [List.takeWhile_cons, if_neg (by decide)]
    simp
  rw [e1]
  show some ((k ++ str (": ") ++ v).takeWhile isWordChar, (' ' :: v).dropWhile isPySpace) =
    some (k, v)
  rw [e2, List.dropWhile_cons, if_pos (by decide), dropWhile_head_false _ _ hv]

theorem pyReadline_append (xs ys : Str) (h : '\n' ∉ xs) :
    pyReadline (xs ++ '\n' :: ys) = (xs ++ ['\n'], ys) := by
  induction xs with
  | nil =>
    show pyReadline ('\n' :: ys) = _
    rw [pyReadline, if_pos rfl]
    rfl
  | cons c t ih =>
    have hc : c ≠ '\n' := fun he => h (he ▸ List.mem_cons_self c t)
    show pyReadline (c :: (t ++ '\n' :: ys)) = _
    rw [pyReadline, if_neg hc, ih (fun hm => h (List.mem_cons_of_mem c hm))]
    rfl

theorem emitPairs_cons (k v : Str) (rest : List (Str × Str)) :
    emitPairs ((k, v) :: rest) = (k ++ str (": ") ++ v) ++ '\n' :: emitPairs rest := by
  show k ++ str (": ") ++ v ++ ['\n'] ++ emitPairs rest = _
  simp

theorem goodLine_no_nl (k v : Str) (h : goodKV (k, v)) : '\n' ∉ k ++ str (": ") ++ v := by
  obtain ⟨hk1, hk2, hv1, hv2, _, _⟩ := h
  intro hmem
  rw [List.append_assoc] at hmem
  rcases List.mem_append.mp hmem with hm | hm
  · exact wordChar_not_nl '\n' (List.all_eq_true.mp hk2 _ hm) rfl
  · rcases List.mem_append.mp (by simpa using hm) with hm2 | hm2
    · simp [str] at hm2
    · exact hv2 hm2

theorem goodLine_rstrip (k v : Str) (h : goodKV (k, v)) :
    pyRstrip (k ++ str (": ") ++ v) = k ++ str (": ") ++ v := by
  obtain ⟨hk1, hk2, hv1, hv2, hv3, hv4⟩ := h
  apply pyRstrip_no_trailing
  intro c hc
  rw [List.getLast?_append] at hc
  have hvne : v.getLast? ≠ none := by
    simp [hv1]
  match hvl : v.getLast? with
  | none => exact absurd hvl hvne
  | some c2 =>
    rw [hvl] at hc
    simp only [Option.or_some, Option.some.injEq] at hc
    exact hc ▸ hv4 c2 hvl

theorem contLoop_emit (f : Nat) (value : Str)
    (kvs : List (Str × Str)) (hkvs : ∀ kv ∈ kvs, goodKV kv) :
    contLoop (f + 1) value (emitPairs kvs ++ ['\n']) =
      (value,
       match kvs with
       | [] => none
       | (k2, v2) :: _ => some (k2 ++ str (": ") ++ v2),
       match kvs with
       | [] => []
       | _ :: rest => emitPairs rest ++ ['\n']) := by
  rw [contLoop]
  match kvs with
  | [] =>
    show (match pyReadline ['\n'] with
      | (chunk, rest) => match pyRstrip chunk with
        | [] => (value, none, rest)
        | c :: l2 => if c ≠ ' ' then (value, some (c :: l2), rest)
            else contLoop f (value ++ '\n' :: c :: l2) rest) = (value, none, [])
    rw [show pyReadline ['\n'] = (['\n'], []) from rfl]
    rfl
  | (k2, v2) :: rest =>
    have hgood := hkvs (k2, v2) (List.mem_cons_self _ _)
    obtain ⟨hk1, hk2, hv⟩ := hgood
    rw [emitPairs_cons, List.append_assoc, List.cons_append,
      pyReadline_append _ _ (goodLine_no_nl k2 v2 (hkvs _ (List.mem_cons_self _ _)))]
    show (match pyRstrip ((k2 ++ str (": ") ++ v2) ++ ['\n']) with
      | [] => (value, none, emitPairs rest ++ ['\n'])
      | c :: l2 => if c ≠ ' ' then (value, some (c :: l2), emitPairs rest ++ ['\n'])
          else contLoop f (value ++ '\n' :: c :: l2) (emitPairs rest ++ ['\n'])) = _
    rw [pyRstrip_append_nl, goodLine_rstrip k2 v2 (hkvs _ (List.mem_cons_self _ _))]
    match k2, hk1 with
    | c :: kt, _ =>
      have hcw : isWordChar c = true := by
        have := List.all_eq_true.mp hk2 c (List.mem_cons_self c kt)
        exact this
      show (if c ≠ ' ' then _ else _) = _
      rw [if_pos (wordChar_not_space c hcw)]
      rfl

theorem rcLoop_none (fuel : Nat) (buf : Str) (af : Bool) (p : Package) :
    rcLoop fuel none buf af p = some p := by
  cases fuel <;> rfl

theorem rcLoop_fields : ∀ (kvs : List (Str × Str)) (fuel : Nat) (l k v : Str)
    (af : Bool) (p : Package),
    pyRstrip l = k ++ str (": ") ++ v →
    goodKV (k, v) → (∀ kv ∈ kvs, goodKV kv) →
    kvs.length < fuel →
    rcLoop fuel (some l) (emitPairs kvs ++ ['\n']) af p =
      (routeField p k v af).bind (fun p2 => foldRoute p2 kvs af) := by
  intro kvs
  induction kvs with
  | nil =>
    intro fuel l k v af p hline hgood _ hfuel
    match fuel, hfuel with
    | f + 1, _ =>
      rw [rcLoop]
      rw [hline, matchHeader_field k v hgood.1 hgood.2.1 hgood.2.2.2.2.1]
      dsimp only
      rw [contLoop_emit _ v [] (by intro kv hkv; cases hkv)]
      dsimp only
      match hroute : routeField p k v af with
      | none => rfl
      | some p2 =>
        dsimp only
        rw [rcLoop_none]
        rfl
  | cons kv2 rest ih =>
    intro fuel l k v af p hline hgood hkvs hfuel
    match fuel, hfuel with
    | f + 1, hf =>
      rw [rcLoop]
      rw [hline, matchHeader_field k v hgood.1 hgood.2.1 hgood.2.2.2.2.1]
      dsimp only
      rw [contLoop_emit _ v (kv2 :: rest) hkvs]
      match kv2, hkvs kv2 (List.mem_cons_self _ _) with
      | (k2, v2), hgood2 =>
        dsimp only
        match hroute : routeField p k v af with
        | none => rfl
        | some p2 =>
          dsimp only
          rw [ih f (k2 ++ str (": ") ++ v2) k2 v2 af p2
            (goodLine_rstrip k2 v2 hgood2) hgood2
            (fun kv hkv => hkvs kv (List.mem_cons_of_mem _ hkv))
            (by simp only [List.length_cons] at hf; omega)]
          rfl

theorem emitPairs_length_ge (kvs : List (Str × Str)) :
    kvs.length ≤ (emitPairs kvs).length := by
  induction kvs with
  | nil => simp [emitPairs]
  | cons kv rest ih =>
    match kv with
    | (k, v) =>
      rw [emitPairs_cons]
      simp only [List.length_append, List.length_cons]
      omega

/-- Parsing the serialization of a list of good field lines routes each
field in order. -/
theorem read_control_emit (kvs : List (Str × Str)) (hkvs : ∀ kv ∈ kvs, goodKV kv)
    (p : Package) (af : Bool) :
    Package.read_control p (emitPairs kvs ++ ['\n']) af = foldRoute p kvs af := by
  unfold Package.read_control
  match kvs with
  | [] =>
    show (match pyReadline ['\n'] with
      | (l, rest) => rcLoop (2 * (emitPairs [] ++ ['\n']).length + 4)
          (if l = [] then none else some l) rest af p) = some p
    rw [show pyReadline ['\n'] = (['\n'], []) from rfl]
    show rcLoop (2 * (emitPairs [] ++ ['\n']).length + 4) (some ['\n']) [] af p = some p
    rw [rcLoop]
    show (match matchHeader (pyRstrip ['\n']) with
      | some (name, value0) =>
        (match contLoop (([] : Str).length + 1) value0 [] with
         | (value, brk, rest2) =>
           match routeField p name value af with
           | none => none
           | some p2 => rcLoop (2 * (emitPairs [] ++ ['\n']).length + 3) brk rest2 af p2)
      | none =>
        match pyReadline [] with
        | ([], rest2) => rcLoop (2 * (emitPairs [] ++ ['\n']).length + 3) none rest2 af p
        | (lnext, rest2) => rcLoop (2 * (emitPairs [] ++ ['\n']).length + 3) (some lnext) rest2 af p) =
      some p
    rw [show pyRstrip ['\n'] = [] from rfl]
    show rcLoop (2 * (emitPairs [] ++ ['\n']).length + 3) none [] af p = some p
    rw [rcLoop_none]
  | (k, v) :: rest =>
    have hgood := hkvs (k, v) (List.mem_cons_self _ _)
    rw [emitPairs_cons, List.append_assoc, List.cons_append,
      pyReadline_append _ _ (goodLine_no_nl k v hgood)]
    dsimp only
    rw [if_neg (by simp)]
    rw [rcLoop_fields rest _ _ k v af p
      (by rw [pyRstrip_append_nl]; exact goodLine_rstrip k v hgood) hgood
      (fun kv hkv => hkvs kv (List.mem_cons_of_mem _ hkv))
      (by
        have h1 := emitPairs_length_ge rest
        simp only [List.length_append, List.length_cons]
        omega)]
    rfl

end RoundTrip

end OpkgRepo

namespace OpkgRepo

section C7Support

/-- A choice of values for the recognized always-printed fields of a
Package record, with Size as a positive natural number. -/
structure FieldVals where
  pkg : Str
  ver : Str
  dep : Str
  prov : Str
  repl : Str
  conf : Str
  sug : Str
  rcm : Str
  sec : Str
  arch : Str
  maint : Str
  m5 : Str
  s2 : Str
  n : Nat
  fn : Str
  src : Str
  desc : Str
  oe : Str
  hp : Str
  lic : Str
  pri : Str
  tg : Str

/-- The record holding those values (installed_size left unset). -/
def mkFull (fv : FieldVals) : Package :=
  { package := some fv.pkg, version := fv.ver, depends := some fv.dep,
    provides := some fv.prov, replaces := some fv.repl, conflicts := some fv.conf,
    suggests := some fv.sug, recommends := some fv.rcm, section_ := some fv.sec,
    architecture := some fv.arch, maintainer := some fv.maint,
    md5 := some fv.m5, sha256 := some fv.s2, size := some (fv.n : Int),
    filename := some fv.fn, source := some fv.src, description := some fv.desc,
    oe := some fv.oe, homepage := some fv.hp, license := some fv.lic,
    priority := some fv.pri, tags := some fv.tg }

/-- The field lines preceding Size in print order. -/
def prePairs (fv : FieldVals) : List (Str × Str) :=
  [(str ("Package"), fv.pkg), (str ("Version"), fv.ver), (str ("Depends"), fv.dep),
   (str ("Provides"), fv.prov), (str ("Replaces"), fv.repl), (str ("Conflicts"), fv.conf),
   (str ("Suggests"), fv.sug), (str ("Recommends"), fv.rcm), (str ("Section"), fv.sec),
   (str ("Architecture"), fv.arch), (str ("Maintainer"), fv.maint),
   (str ("MD5Sum"), fv.m5), (str ("SHA256sum"), fv.s2)]

/-- The field lines following Size in print order. -/
def postPairs (fv : FieldVals) : List (Str × Str) :=
  [(str ("Filename"), fv.fn), (str ("Source"), fv.src), (str ("Description"), fv.desc),
   (str ("OE"), fv.oe), (str ("HomePage"), fv.hp), (str ("License"), fv.lic),
   (str ("Priority"), fv.pri), (str ("Tags"), fv.tg)]

/-- All field lines `Package.print` emits for the record, in order. -/
def fullPairs (fv : FieldVals) : List (Str × Str) :=
  prePairs fv ++ (str ("Size"), natToStr fv.n) :: postPairs fv

/-- The record state after routing the lines preceding Size. -/
def prePkg (fv : FieldVals) : Package :=
  { package := some fv.pkg, version := fv.ver, depends := some fv.dep,
    provides := some fv.prov, replaces := some fv.repl, conflicts := some fv.conf,
    suggests := some fv.sug, recommends := some fv.rcm, section_ := some fv.sec,
    architecture := some fv.arch, maintainer := some fv.maint,
    md5 := some fv.m5, sha256 := some fv.s2 }

/-- Well-formedness of the chosen values: each survives the line
discipline of the control format and the size is positive. -/
def FVWF (fv : FieldVals) : Prop :=
  wfValue fv.pkg ∧ wfValue fv.ver ∧ wfValue fv.dep ∧ wfValue fv.prov ∧
  wfValue fv.repl ∧ wfValue fv.conf ∧ wfValue fv.sug ∧ wfValue fv.rcm ∧
  wfValue fv.sec ∧ wfValue fv.arch ∧ wfValue fv.maint ∧ wfValue fv.m5 ∧
  wfValue fv.s2 ∧ wfValue fv.fn ∧ wfValue fv.src ∧ wfValue fv.desc ∧
  wfValue fv.oe ∧ wfValue fv.hp ∧ wfValue fv.lic ∧ wfValue fv.pri ∧
  wfValue fv.tg ∧ 0 < fv.n

theorem intToStr_ofNat (n : Nat) : intToStr (n : Int) = natToStr n := by
  unfold intToStr
  rw [if_neg (by omega)]
  simp

theorem wfValue_check (v : Str) (h1 : v ≠ [])
    (h2 : v.all (fun c => !isPySpace c && !(c = '\n')) = true) : wfValue v := by
  refine ⟨h1, ?_, ?_, ?_⟩
  · intro hmem
    exact absurd (List.all_eq_true.mp h2 _ hmem) (by decide)
  · intro c hc
    match v, hc with
    | [], hc => nomatch hc
    | c0 :: t, hc =>
      have hce : c0 = c := by injection hc
      subst hce
      have hp := List.all_eq_true.mp h2 c0 (List.mem_cons_self _ _)
      simp only [Bool.and_eq_true, Bool.not_eq_true'] at hp
      exact hp.1
  · intro c hc
    have hmem : c ∈ v := List.mem_of_mem_getLast? (Option.mem_def.mpr hc)
    have hp := List.all_eq_true.mp h2 c hmem
    simp only [Bool.and_eq_true, Bool.not_eq_true'] at hp
    exact hp.1

theorem wfValue_natToStr (n : Nat) : wfValue (natToStr n) := by
  apply wfValue_check _ (natToStr_ne_nil n)
  rw [List.all_eq_true]
  intro c hc
  have hd := List.all_eq_true.mp (natToStr_digits n) c hc
  simp only [Bool.and_eq_true, Bool.not_eq_true', decide_eq_false_iff_not]
  exact ⟨digit_not_space c hd, fun he => absurd (he ▸ hd) (by decide)⟩

theorem optPair_some (key v : Str) (h : v ≠ []) : optPair key (some v) = [(key, v)] := by
  show (if v = [] then [] else [(key, v)]) = [(key, v)]
  rw [if_neg h]

theorem foldRoute_append (a : List (Str × Str)) :
    ∀ (p : Package) (b : List (Str × Str)) (af : Bool),
    foldRoute p (a ++ b) af = (foldRoute p a af).bind (fun q => foldRoute q b af) := by
  induction a with
  | nil => intro p b af; rfl
  | cons kv rest ih =>
    intro p b af
    show (routeField p kv.1 kv.2 af).bind (fun p2 => foldRoute p2 (rest ++ b) af) =
      ((routeField p kv.1 kv.2 af).bind (fun p2 => foldRoute p2 rest af)).bind
        (fun q => foldRoute q b af)
    match routeField p kv.1 kv.2 af with
    | none => rfl
    | some q => exact ih q b af

set_option maxHeartbeats 1600000 in
theorem mkFull_fieldPairs (fv : FieldVals) (h : FVWF fv) :
    (mkFull fv).fieldPairs [str ("md5"), str ("sha256")] = some (fullPairs fv) := by
  obtain ⟨h1, h2, h3, h4, h5, h6, h7, h8, h9, h10, h11, h12, h13, h14, h15, h16,
    h17, h18, h19, h20, h21, hn⟩ := h
  have hip : instPair (mkFull fv) = some [] := rfl
  unfold Package.fieldPairs
  rw [hip, Option.map_some']
  beta_reduce
  rw [show (mkFull fv).package = some fv.pkg from rfl,
    show (mkFull fv).version = fv.ver from rfl,
    show (mkFull fv).depends = some fv.dep from rfl,
    show (mkFull fv).provides = some fv.prov from rfl,
    show (mkFull fv).replaces = some fv.repl from rfl,
    show (mkFull fv).conflicts = some fv.conf from rfl,
    show (mkFull fv).suggests = some fv.sug from rfl,
    show (mkFull fv).recommends = some fv.rcm from rfl,
    show (mkFull fv).section_ = some fv.sec from rfl,
    show (mkFull fv).architecture = some fv.arch from rfl,
    show (mkFull fv).maintainer = some fv.maint from rfl,
    show (mkFull fv).md5 = some fv.m5 from rfl,
    show (mkFull fv).sha256 = some fv.s2 from rfl,
    show (mkFull fv).size = some (fv.n : Int) from rfl,
    show (mkFull fv).filename = some fv.fn from rfl,
    show (mkFull fv).source = some fv.src from rfl,
    show (mkFull fv).description = some fv.desc from rfl,
    show (mkFull fv).oe = some fv.oe from rfl,
    show (mkFull fv).homepage = some fv.hp from rfl,
    show (mkFull fv).license = some fv.lic from rfl,
    show (mkFull fv).priority = some fv.pri from rfl,
    show (mkFull fv).tags = some fv.tg from rfl,
    show (mkFull fv).user_defined_fields = [] from rfl]
  simp only [Option.getD_some]
  rw [optPair_some _ _ h1.1, if_neg h2.1, optPair_some _ _ h3.1, optPair_some _ _ h4.1,
    optPair_some _ _ h5.1, optPair_some _ _ h6.1, optPair_some _ _ h7.1, optPair_some _ _ h8.1,
    optPair_some _ _ h9.1, optPair_some _ _ h10.1, optPair_some _ _ h11.1]
  rw [if_pos (show str ("md5") ∈ [str ("md5"), str ("sha256")] from by decide)]
  rw [if_pos (show str ("sha256") ∈ [str ("md5"), str ("sha256")] from by decide)]
  rw [optPair_some _ _ h12.1, optPair_some _ _ h13.1]
  rw [if_neg (show ¬((fv.n : Int) = 0) from by omega)]
  rw [intToStr_ofNat]
  rw [optPair_some _ _ h14.1, optPair_some _ _ h15.1, optPair_some _ _ h16.1,
    optPair_some _ _ h17.1, optPair_some _ _ h18.1, optPair_some _ _ h19.1,
    optPair_some _ _ h20.1, optPair_some _ _ h21.1]
  unfold fullPairs prePairs postPairs
  simp only [List.cons_append, List.singleton_append, List.nil_append, List.append_nil,
    List.append_assoc]

theorem mkFull_print (fv : FieldVals) (h : FVWF fv) :
    (mkFull fv).print [str ("md5"), str ("sha256")] =
      some (emitPairs (fullPairs fv) ++ ['\n']) := by
  unfold Package.print
  rw [mkFull_fieldPairs fv h]
  rfl

theorem goodKV_mk (k v : Str) (hk1 : k ≠ []) (hk2 : k.all isWordChar = true)
    (hv : wfValue v) : goodKV (k, v) := ⟨hk1, hk2, hv⟩

theorem fullPairs_good (fv : FieldVals) (h : FVWF fv) :
    ∀ kv ∈ fullPairs fv, goodKV kv := by
  obtain ⟨h1, h2, h3, h4, h5, h6, h7, h8, h9, h10, h11, h12, h13, h14, h15, h16,
    h17, h18, h19, h20, h21, hn⟩ := h
  intro kv hkv
  simp only [fullPairs, prePairs, postPairs, List.cons_append, List.nil_append,
    List.mem_cons, List.mem_singleton, List.not_mem_nil, or_false] at hkv
  rcases hkv with rfl|rfl|rfl|rfl|rfl|rfl|rfl|rfl|rfl|rfl|rfl|rfl|rfl|rfl|rfl|rfl|rfl|rfl|rfl|rfl|rfl|rfl
  · exact goodKV_mk _ _ (by decide) (by decide) h1
  · exact goodKV_mk _ _ (by decide) (by decide) h2
  · exact goodKV_mk _ _ (by decide) (by decide) h3
  · exact goodKV_mk _ _ (by decide) (by decide) h4
  · exact goodKV_mk _ _ (by decide) (by decide) h5
  · exact goodKV_mk _ _ (by decide) (by decide) h6
  · exact goodKV_mk _ _ (by decide) (by decide) h7
  · exact goodKV_mk _ _ (by decide) (by decide) h8
  · exact goodKV_mk _ _ (by decide) (by decide) h9
  · exact goodKV_mk _ _ (by decide) (by decide) h10
  · exact goodKV_mk _ _ (by decide) (by decide) h11
  · exact goodKV_mk _ _ (by decide) (by decide) h12
  · exact goodKV_mk _ _ (by decide) (by decide) h13
  · exact goodKV_mk _ _ (by decide) (by decide) (wfValue_natToStr fv.n)
  · exact goodKV_mk _ _ (by decide) (by decide) h14
  · exact goodKV_mk _ _ (by decide) (by decide) h15
  · exact goodKV_mk _ _ (by decide) (by decide) h16
  · exact goodKV_mk _ _ (by decide) (by decide) h17
  · exact goodKV_mk _ _ (by decide) (by decide) h18
  · exact goodKV_mk _ _ (by decide) (by decide) h19
  · exact goodKV_mk _ _ (by decide) (by decide) h20
  · exact goodKV_mk _ _ (by decide) (by decide) h21

theorem foldRoute_full (fv : FieldVals) :
    foldRoute {} (fullPairs fv) false = some (mkFull fv) := by
  unfold fullPairs
  rw [foldRoute_append]
  have e1 : foldRoute {} (prePairs fv) false = some (prePkg fv) := rfl
  rw [e1]
  show foldRoute (prePkg fv) ((str ("Size"), natToStr fv.n) :: postPairs fv) false = _
  show (routeField (prePkg fv) (str ("Size")) (natToStr fv.n) false).bind
    (fun p2 => foldRoute p2 (postPairs fv) false) = _
  have e2 : routeField (prePkg fv) (str ("Size")) (natToStr fv.n) false =
      (pyInt (natToStr fv.n)).map (fun i => { prePkg fv with size := some i }) := rfl
  rw [e2, pyInt_natToStr]
  rfl

end C7Support

end OpkgRepo

namespace OpkgRepo

/-- C7 counterexample: a record holding an InstalledSize value serializes
to an `InstalledSize:` line, but read_control lowercases the field name to
"installedsize", which matches no attribute (the attribute is named
installed_size), so the reparsed record has lost the field and differs
from the original. -/
theorem C7_counterexample_installed_size :
    ((Package.print pkgProbeInst [str ("md5"), str ("sha256")]).bind
        (fun s => Package.read_control {} s false)) ≠ some pkgProbeInst ∧
    ((Package.print pkgProbeInst [str ("md5"), str ("sha256")]).bind
        (fun s => Package.read_control {} s false)) =
      some { pkgProbeInst with installed_size := none } := by
  decide

/-- C7 (amended): for every record built from the recognized field set
except InstalledSize — Package, Version, Depends, Provides, Replaces,
Conflicts, Suggests, Recommends, Section, Architecture, Maintainer, the
two checksums, a positive Size, Filename, Source, Description, OE,
HomePage, License, Priority, Tags, each value nonempty with no newline
and no leading or trailing whitespace — serializing the record with
Package.print and re-parsing the text with read_control into a fresh
record yields the original record field for field.  InstalledSize breaks
the round trip: print emits the key InstalledSize, which read_control
lowercases to "installedsize", matching no attribute of the class. -/
theorem C7_control_roundtrip (fv : FieldVals) (h : FVWF fv) :
    ((mkFull fv).print [str ("md5"), str ("sha256")]).bind
      (fun s => Package.read_control {} s false) = some (mkFull fv) := by
  rw [mkFull_print fv h]
  show Package.read_control {} (emitPairs (fullPairs fv) ++ ['\n']) false = _
  rw [read_control_emit (fullPairs fv) (fullPairs_good fv h) {} false]
  exact foldRoute_full fv

/-- A concrete fully-populated choice of field values. -/
def fvProbe : FieldVals :=
  { pkg := str ("a"), ver := str ("1.0"), dep := str ("b"), prov := str ("c"),
    repl := str ("d"), conf := str ("e"), sug := str ("f"), rcm := str ("g"),
    sec := str ("base"), arch := str ("mips"), maint := str ("m"),
    m5 := str ("x"), s2 := str ("y"), n := 7, fn := str ("a.ipk"),
    src := str ("s"), desc := str ("d.d"), oe := str ("o"), hp := str ("h"),
    lic := str ("MIT"), pri := str ("opt"), tg := str ("t") }

/-- C7 witness: the amended round trip applied at a concrete
fully-populated record. -/
theorem C7_control_roundtrip_witness :
    ((mkFull fvProbe).print [str ("md5"), str ("sha256")]).bind
      (fun s => Package.read_control {} s false) = some (mkFull fvProbe) :=
  C7_control_roundtrip fvProbe
    ⟨wfValue_check _ (by decide) (by decide), wfValue_check _ (by decide) (by decide),
     wfValue_check _ (by decide) (by decide), wfValue_check _ (by decide) (by decide),
     wfValue_check _ (by decide) (by decide), wfValue_check _ (by decide) (by decide),
     wfValue_check _ (by decide) (by decide), wfValue_check _ (by decide) (by decide),
     wfValue_check _ (by decide) (by decide), wfValue_check _ (by decide) (by decide),
     wfValue_check _ (by decide) (by decide), wfValue_check _ (by decide) (by decide),
     wfValue_check _ (by decide) (by decide), wfValue_check _ (by decide) (by decide),
     wfValue_check _ (by decide) (by decide), wfValue_check _ (by decide) (by decide),
     wfValue_check _ (by decide) (by decide), wfValue_check _ (by decide) (by decide),
     wfValue_check _ (by decide) (by decide), wfValue_check _ (by decide) (by decide),
     wfValue_check _ (by decide) (by decide), by decide⟩

end OpkgRepo

namespace OpkgRepo

section CryptoUtils

/-- Error kinds of `crypto_utils`: one constructor per distinct raise
site (the ValueError messages, and the IndexError of a key file with no
second line). -/
inductive CryptoErr where
  | badHeader
  | indexErr
  | badKeyAlgo
  | badKeySize
  | badSigFormat
  | badSigSize
  | badSigAlgo
  | keyMismatch
deriving DecidableEq

/-- The result of `load_key`: the 8-byte fingerprint and the 32-byte key
material (the seed of a secret key, or the public key). -/
structure KeyRecord where
  fingerprint : Bytes
  keyData : Bytes
deriving DecidableEq

/-- The algorithm tag PK_ALGO, the two bytes of "Ed". -/
def edTag : Bytes := [69, 100]

/-- The header prefix required of key files. -/
def untrustedComment : Str := str ("untrusted comment:")

/-- The branch of `load_key` on the decoded binary record: a 104-byte
record is a signify secret key (pkalg 2, kdfalg 2, kdfrounds 4, salt 16,
checksum 8, fingerprint 8, seckey 64; only the first 32 seckey bytes are
returned), a 42-byte record is a public key (pkalg 2, fingerprint 8,
pubkey 32); any other size is rejected.  The kdf fields of a secret key
are unpacked but never inspected. -/
def parseKeyRecord (raw : Bytes) : Except CryptoErr KeyRecord :=
  if raw.length = 104 then
    if raw.take 2 = edTag then
      .ok ⟨(raw.drop 32).take 8, (raw.drop 40).take 32⟩
    else .error .badKeyAlgo
  else if raw.length = 42 then
    if raw.take 2 = edTag then
      .ok ⟨(raw.drop 2).take 8, raw.drop 10⟩
    else .error .badKeyAlgo
  else .error .badKeySize

/-- Model of `load_key` over the lines of the key file; `b64` is the
base64 decoder, abstracted as a function on the stripped payload line. -/
def load_key (b64 : Str → Bytes) (lines : List Str) : Except CryptoErr KeyRecord :=
  match lines with
  | [] => .error .badHeader
  | l0 :: rest =>
    if untrustedComment.isPrefixOf l0 then
      match rest with
      | [] => .error .indexErr
      | l1 :: _ => parseKeyRecord (b64 (pyStrip l1))
    else .error .badHeader

/-- Model of `verify_file`: load the public key, require a second line
in the signature file, decode it, require size 74 (pkalg 2, fingerprint
8, sig 64), the Ed tag and a fingerprint match, then return the boolean
verdict of the Ed25519 primitive `edVerify pubkey message sig` as a
normal result. -/
def verify_file (edVerify : Bytes → Bytes → Bytes → Bool) (b64 : Str → Bytes)
    (message : Bytes) (sigLines pubLines : List Str) : Except CryptoErr Bool :=
  match load_key b64 pubLines with
  | .error e => .error e
  | .ok kr =>
    match sigLines with
    | [] => .error .badSigFormat
    | [_] => .error .badSigFormat
    | _ :: l1 :: _ =>
      if (b64 (pyStrip l1)).length ≠ 74 then .error .badSigSize
      else if (b64 (pyStrip l1)).take 2 ≠ edTag then .error .badSigAlgo
      else if kr.fingerprint ≠ ((b64 (pyStrip l1)).drop 2).take 8 then .error .keyMismatch
      else .ok (edVerify kr.keyData message ((b64 (pyStrip l1)).drop 10))

end CryptoUtils

end OpkgRepo

namespace OpkgRepo

/-- C5: verification error discipline of `verify_file`: with the public
key loaded and a well-sized signature record, a wrong algorithm tag is a
format error, a fingerprint mismatch is a key-mismatch error, and with
format and fingerprint valid the result is the boolean verdict of the
Ed25519 primitive over the exact message bytes, returned normally (an
invalid signature is the value false, not an error). -/
theorem C5_verification_error_discipline
    (edVerify : Bytes → Bytes → Bytes → Bool) (b64 : Str → Bytes) (message : Bytes)
    (pubLines : List Str) (kr : KeyRecord) (hpub : load_key b64 pubLines = .ok kr)
    (l0 l1 : Str) (rest : List Str) (hlen : (b64 (pyStrip l1)).length = 74) :
    ((b64 (pyStrip l1)).take 2 ≠ edTag →
      verify_file edVerify b64 message (l0 :: l1 :: rest) pubLines = .error .badSigAlgo) ∧
    ((b64 (pyStrip l1)).take 2 = edTag →
      kr.fingerprint ≠ ((b64 (pyStrip l1)).drop 2).take 8 →
      verify_file edVerify b64 message (l0 :: l1 :: rest) pubLines = .error .keyMismatch) ∧
    ((b64 (pyStrip l1)).take 2 = edTag →
      kr.fingerprint = ((b64 (pyStrip l1)).drop 2).take 8 →
      verify_file edVerify b64 message (l0 :: l1 :: rest) pubLines =
        .ok (edVerify kr.keyData message ((b64 (pyStrip l1)).drop 10))) := by
  unfold verify_file
  rw [hpub]
  dsimp only
  refine ⟨?_, ?_, ?_⟩
  · intro halgo
    rw [if_neg (fun h => h hlen), if_pos halgo]
  · intro halgo hfp
    rw [if_neg (fun h => h hlen), if_neg (fun h => h halgo), if_pos hfp]
  · intro halgo hfp
    rw [if_neg (fun h => h hlen), if_neg (fun h => h halgo), if_neg (fun h => h hfp)]

/-- Concrete probe data for the crypto layer. -/
def fpProbe : Bytes := [1, 2, 3, 4, 5, 6, 7, 8]

/-- A concrete 42-byte public key record. -/
def pubRec : Bytes := edTag ++ fpProbe ++ List.replicate 32 9

/-- A concrete 74-byte signature record with the matching fingerprint. -/
def sigRec : Bytes := edTag ++ fpProbe ++ List.replicate 64 5

/-- A base64 decoder table for the probe lines. -/
def b64Probe (s : Str) : Bytes := if s = str ("PUB") then pubRec else sigRec

/-- The probe public key file lines. -/
def pubLinesProbe : List Str := [str ("untrusted comment: pub"), str ("PUB")]

/-- C5 witness: at a concrete well-formed signature and public key and a
rejecting Ed25519 primitive, verify_file returns the normal result
false. -/
theorem C5_verification_error_discipline_witness :
    (b64Probe (pyStrip (str ("SIG")))).length = 74 ∧
    verify_file (fun _ _ _ => false) b64Probe [77]
      [str ("untrusted comment: sig"), str ("SIG")] pubLinesProbe = .ok false :=
  ⟨by decide,
   (C5_verification_error_discipline (fun _ _ _ => false) b64Probe [77] pubLinesProbe
      ⟨fpProbe, List.replicate 32 9⟩ rfl (str ("untrusted comment: sig")) (str ("SIG")) []
      (by decide)).2.2 (by decide) (by decide)⟩

/-- A concrete 104-byte secret key record whose kdf fields are not the
unencrypted pattern: kdfalg "BK", kdfrounds 42, nonzero salt and
checksum. -/
def encKey : Bytes :=
  edTag ++ [66, 75] ++ [42, 0, 0, 0] ++ List.replicate 16 7 ++ List.replicate 8 9 ++
  fpProbe ++ (List.replicate 32 11 ++ List.replicate 32 12)

/-- C6: a password-protected secret key record (kdfalg not none, nonzero
rounds and salt) is not rejected: load_key accepts it and returns the
first 32 bytes of the still-encrypted seckey field as if they were a
plaintext seed. -/
theorem C6_encrypted_key_accepted :
    (encKey.drop 2).take 2 ≠ [0, 0] ∧
    (encKey.drop 4).take 4 ≠ [0, 0, 0, 0] ∧
    (encKey.drop 8).take 16 ≠ List.replicate 16 0 ∧
    load_key (fun _ => encKey) [str ("untrusted comment: sec"), str ("KEY")] =
      .ok ⟨fpProbe, List.replicate 32 11⟩ :=
  ⟨by decide, by decide, by decide, rfl⟩

end OpkgRepo

namespace OpkgRepo

section ArModel

/-- A readable byte stream with a position (the underlying file object
of FileSection and ArFile). -/
structure PyFile where
  data : Bytes
  pos : Nat
deriving DecidableEq

/-- Byte-level readline split: the chunk up to and including the first
newline byte 10 (or all of the input), and the remainder. -/
def breadline : Bytes → Bytes × Bytes
  | [] => ([], [])
  | b :: rest =>
    if b = 10 then ([b], rest)
    else
      match breadline rest with
      | (l, r) => (b :: l, r)

/-- Model of `f.readline()`. -/
def fReadline (f : PyFile) : Bytes × PyFile :=
  ((breadline (f.data.drop f.pos)).1,
   ⟨f.data, f.pos + (breadline (f.data.drop f.pos)).1.length⟩)

/-- Absolute seek (negative positions raise in Python and are never
reached by the archives considered here). -/
def fSeekAbs (f : PyFile) (p : Int) : PyFile := ⟨f.data, p.toNat⟩

/-- Relative seek (`whence = 1`). -/
def fSeekRel (f : PyFile) (d : Int) : PyFile := ⟨f.data, ((f.pos : Int) + d).toNat⟩

/-- Model of `f.read(n)`: all remaining bytes when n is negative, else
up to n bytes from the current position. -/
def fRead (f : PyFile) (n : Int) : Bytes × PyFile :=
  if n < 0 then (f.data.drop f.pos, ⟨f.data, f.data.length⟩)
  else ((f.data.drop f.pos).take n.toNat,
    ⟨f.data, f.pos + ((f.data.drop f.pos).take n.toNat).length⟩)

/-- The section record of `FileSection`: a window of the underlying
file. -/
structure FileSection where
  offset : Nat
  size : Int
deriving DecidableEq

/-- `FileSection.__init__`: record the bounds and seek the underlying
file to the section start (`self.seek(0, 0)`). -/
def fsInit (f : PyFile) (offset : Nat) (size : Int) : FileSection × PyFile :=
  (⟨offset, size⟩, fSeekAbs f offset)

/-- `FileSection.seek`: whence 0 is mapped by the section offset, whence
1 is passed through, whence 2 is mapped to offset + size + target;
anything else hits `assert False`. -/
def FileSection.seek (sec : FileSection) (f : PyFile) (off : Int) (whence : Nat) :
    Option PyFile :=
  if whence = 0 then some (fSeekAbs f (off + sec.offset))
  else if whence = 1 then some (fSeekRel f off)
  else if whence = 2 then some (fSeekAbs f ((sec.offset : Int) + sec.size + off))
  else none

/-- `FileSection.read`: a plain passthrough to the underlying file
read, with no clamping to the section bounds. -/
def FileSection.read (sec : FileSection) (f : PyFile) (n : Int) : Bytes × PyFile :=
  fRead f n

/-- `FileSection.tell`: underlying position shifted by the offset. -/
def FileSection.tell (sec : FileSection) (f : PyFile) : Int :=
  (f.pos : Int) - sec.offset

/-- `bytes.decode("ascii")`: every byte must be below 128. -/
def decodeAscii (b : Bytes) : Option Str :=
  if b.all (fun x => x < 128) then some (b.map (fun x => Char.ofNat x)) else none

/-- Encode an ASCII string as bytes. -/
def strToBytes (s : Str) : Bytes := s.map Char.toNat

/-- The ar header field widths of `_scan`. -/
def arFieldLens : List Nat := [16, 12, 6, 6, 8, 10, 2]

/-- Successive stripped slices of the given widths (Python slicing past
the end yields short or empty fields). -/
def takeFields : List Nat → Str → List Str
  | [], _ => []
  | n :: ns, l => pyStrip (l.take n) :: takeFields ns (l.drop n)

/-- Python dict lookup on an association list. -/
def dictGet {α : Type} (d : List (Str × α)) (k : Str) : Option α :=
  (d.find? (fun kv => kv.1 == k)).map (fun kv => kv.2)

/-- Python dict assignment on an association list: overwrite in place or
append. -/
def dictInsert {α : Type} (d : List (Str × α)) (k : Str) (v : α) : List (Str × α) :=
  if (dictGet d k).isSome then d.map (fun kv => if kv.1 == k then (k, v) else kv)
  else d ++ [(k, v)]

/-- The mutable scan state of `ArFile`: resume offset, member directory
(name to descriptor fields and data offset), and the directory-complete
flag. -/
structure ArSt where
  dirOff : Int
  dir : List (Str × (List Str × Nat))
  dirRead : Bool
deriving DecidableEq

/-- The bytes of the global ar magic line "!<arch>" followed by a
newline. -/
def arMagicB : Bytes := [33, 60, 97, 114, 99, 104, 62, 10]

/-- `ArFile.__init__`: read the signature line, require the ar magic
(`none` models the AssertionError on any other leading bytes), and
record the first scan offset. -/
def arInit (f : PyFile) : Option (PyFile × ArSt) :=
  match fReadline f with
  | (sig, f1) => if sig = arMagicB then some (f1, ⟨(f1.pos : Int), [], false⟩) else none

/-- One readline of the `_scan` loop including the blank-line skip
branch: either an early loop exit (inl) or a decoded header line to
process (inr).  The inner `none` values model EOF returns (only the
first one sets directoryRead), the outer `none` a UnicodeDecodeError. -/
def arGetLine (f : PyFile) (ar : ArSt) :
    (Option (Option FileSection × PyFile × ArSt)) ⊕ (Str × PyFile) :=
  match fReadline f with
  | (line, f1) =>
    if line = [] then .inl (some (none, f1, ⟨ar.dirOff, ar.dir, true⟩))
    else
      match decodeAscii line with
      | none => .inl none
      | some ls =>
        if ls = ['\n'] then
          match fReadline f1 with
          | (line2, f2) =>
            if line2 = [] then .inl (some (none, f2, ar))
            else
              match decodeAscii line2 with
              | none => .inl none
              | some ls2 => .inr (ls2, f2)
        else .inr (ls, f1)

/-- The `_scan` loop of `ArFile`: strip backquotes, slice the header
fields, parse the size, strip an optional `/` terminator from the name,
record the directory entry; on a name match record the resume offset
(current position plus size, without padding) and return the section;
otherwise skip size plus one padding byte when the size is odd.  `none`
models an uncaught exception (decode, int() or indexing failure). -/
def arScan : Nat → PyFile → ArSt → Str → Option (Option FileSection × PyFile × ArSt)
  | 0, _, _, _ => none
  | fuel + 1, f, ar, fname =>
    match arGetLine f ar with
    | .inl r => r
    | .inr (ls, f1) =>
      match takeFields arFieldLens (ls.filter (fun c => ¬ c = Char.ofNat 96)) with
      | [d0, d1, d2, d3, d4, d5, d6] =>
        match pyInt d5 with
        | none => none
        | some size =>
          match d0.getLast? with
          | none => none
          | some c =>
            if (if c = '/' then d0.dropLast else d0) = fname then
              some (some ⟨f1.pos, size⟩, fSeekAbs f1 (f1.pos : Int),
                ⟨(f1.pos : Int) + size,
                 dictInsert ar.dir (if c = '/' then d0.dropLast else d0)
                   ([d0, d1, d2, d3, d4, d5, d6], f1.pos), ar.dirRead⟩)
            else
              arScan fuel (fSeekRel f1 (if size % 2 = 1 then size + 1 else size))
                ⟨ar.dirOff,
                 dictInsert ar.dir (if c = '/' then d0.dropLast else d0)
                   ([d0, d1, d2, d3, d4, d5, d6], f1.pos), ar.dirRead⟩ fname
      | _ => none

/-- `ArFile._scan` entered from the recorded directory offset, with
enough fuel for any archive with nonnegative member sizes. -/
def ar_scan (f : PyFile) (ar : ArSt) (fname : Str) :
    Option (Option FileSection × PyFile × ArSt) :=
  arScan (f.data.length + 1) (fSeekAbs f ar.dirOff) ar fname

/-- `ArFile.open`: serve from the directory when present, raise when the
directory is complete, otherwise scan; `none` models the IOError (or an
escaped scan exception). -/
def arOpen (f : PyFile) (ar : ArSt) (fname : Str) :
    Option (FileSection × PyFile × ArSt) :=
  match dictGet ar.dir fname with
  | some dv =>
    match dv.1.getLast? with
    | none => none
    | some _ =>
      match dv.1.get? 5 with
      | none => none
      | some d5 =>
        match pyInt d5 with
        | none => none
        | some size => some (⟨dv.2, size⟩, fSeekAbs f (dv.2 : Int), ar)
  | none =>
    if ar.dirRead then none
    else
      match ar_scan f ar fname with
      | none => none
      | some (none, _, _) => none
      | some (some sec, f2, ar2) => some (sec, f2, ar2)

/-- Right-pad a string with spaces to the given width. -/
def padTo (s : Str) (n : Nat) : Str := s ++ List.replicate (n - s.length) ' '

/-- The 58 text characters of an ar member header. -/
def hdrStr (name : Str) (size : Nat) : Str :=
  padTo name 16 ++ padTo (str ("0")) 12 ++ padTo (str ("0")) 6 ++
    padTo (str ("0")) 6 ++ padTo (str ("100644")) 8 ++ padTo (natToStr size) 10

/-- The 58 header text bytes plus the backquote terminator byte. -/
def arHeaderBody (name : Str) (size : Nat) : Bytes :=
  strToBytes (hdrStr name size) ++ [96]

/-- A 60-byte ar member header. -/
def arHeader (name : Str) (size : Nat) : Bytes := arHeaderBody name size ++ [10]

/-- One archived member: header, data, and one newline padding byte
after odd-sized data. -/
def memberChunk (m : Str × Bytes) : Bytes :=
  arHeader m.1 m.2.length ++ m.2 ++ (if m.2.length % 2 = 1 then [10] else [])

/-- A well-formed ar container holding the given members. -/
def buildAr (ms : List (Str × Bytes)) : Bytes :=
  arMagicB ++ (ms.map memberChunk).foldr (fun a b => a ++ b) []

/-- The two-member archive of the padding claims. -/
def arProbe (d1 d2 : Bytes) : Bytes :=
  buildAr [(str ("control.tar.gz"), d1), (str ("data.tar.gz"), d2)]

end ArModel

end OpkgRepo

namespace OpkgRepo

section ArLemmas

theorem natToStrGo_length : ∀ (k fuel n : Nat) (acc : Str), n < 10 ^ k →
    (natToStrGo fuel n acc).length ≤ k + acc.length := by
  intro k
  induction k with
  | zero =>
    intro fuel n acc h
    have hz : n = 0 := by simpa using h
    subst hz
    cases fuel with
    | zero => simp [natToStrGo]
    | succ f =>
      rw [natToStrGo, if_pos rfl]
      simp
  | succ k ih =>
    intro fuel n acc h
    cases fuel with
    | zero =>
      rw [natToStrGo]
      omega
    | succ f =>
      rw [natToStrGo]
      by_cases h0 : n = 0
      · rw [if_pos h0]
        omega
      · rw [if_neg h0]
        have hdiv : n / 10 < 10 ^ k := by
          apply Nat.div_lt_of_lt_mul
          rw [Nat.mul_comm]
          rw [pow_succ] at h
          exact h
        have hrec := ih f (n / 10) (Char.ofNat (48 + n % 10) :: acc) hdiv
        simp only [List.length_cons] at hrec
        omega

theorem natToStr_length_le (n : Nat) (h : n < 10 ^ 10) : (natToStr n).length ≤ 10 := by
  unfold natToStr
  by_cases h0 : n = 0
  · rw [if_pos h0]
    simp
  · rw [if_neg h0]
    have := natToStrGo_length 10 (n + 1) n [] h
    simpa using this

theorem padTo_length (s : Str) (n : Nat) (h : s.length ≤ n) : (padTo s n).length = n := by
  unfold padTo
  simp
  omega

theorem strToBytes_append (a b : Str) :
    strToBytes (a ++ b) = strToBytes a ++ strToBytes b := by
  unfold strToBytes
  simp

theorem strToBytes_length (a : Str) : (strToBytes a).length = a.length := by
  unfold strToBytes
  simp

theorem pyStrip_pad (s : Str) (k : Nat) (hne : s ≠ [])
    (hall : ∀ c ∈ s, isPySpace c = false) :
    pyStrip (s ++ List.replicate k ' ') = s := by
  have hr : pyRstrip (s ++ List.replicate k ' ') = s := by
    unfold pyRstrip
    rw [List.reverse_append, List.reverse_replicate,
      dropWhile_all_append _ _ _ (by
        intro x hx
        rw [List.eq_of_mem_replicate hx]
        decide)]
    rw [dropWhile_head_false _ _ (by
      intro c hc
      apply hall
      rw [List.head?_reverse] at hc
      exact List.mem_of_mem_getLast? (Option.mem_def.mpr hc))]
    simp
  unfold pyStrip
  rw [hr, dropWhile_head_false _ _ (by
    intro c hc
    apply hall
    match s, hc with
    | c0 :: t, hc =>
      have : c0 = c := by injection hc
      exact this ▸ List.mem_cons_self c0 t)]

theorem breadline_append (xs ys : Bytes) (h : 10 ∉ xs) :
    breadline (xs ++ 10 :: ys) = (xs ++ [10], ys) := by
  induction xs with
  | nil =>
    show breadline (10 :: ys) = _
    rw [breadline, if_pos rfl]
    rfl
  | cons b t ih =>
    have hb : b ≠ 10 := fun he => h (he ▸ List.mem_cons_self b t)
    show breadline (b :: (t ++ 10 :: ys)) = _
    rw [breadline, if_neg hb, ih (fun hm => h (List.mem_cons_of_mem b hm))]
    rfl

theorem decode_strToBytes (s : Str) (h : ∀ c ∈ s, c.toNat < 128) :
    decodeAscii (strToBytes s) = some s := by
  unfold decodeAscii
  rw [if_pos (by
    rw [List.all_eq_true]
    intro b hb
    unfold strToBytes at hb
    rw [List.mem_map] at hb
    obtain ⟨c, hc, rfl⟩ := hb
    simpa using h c hc)]
  congr 1
  unfold strToBytes
  rw [List.map_map]
  apply List.map_id''
  intro c
  exact Char.ofNat_toNat c

end ArLemmas

end OpkgRepo

namespace OpkgRepo

section ArLemmas2

/-- Characters allowed anywhere in a header line body: ASCII, no
newline, no backquote. -/
def hdrCharOK (c : Char) : Bool :=
  decide (c.toNat < 128) && !(c == '\n') && !(c == Char.ofNat 96)

/-- Characters allowed in a member name: header characters that are
also not Python whitespace. -/
def nameCharOK (c : Char) : Bool := hdrCharOK c && !isPySpace c

/-- A member name the scanner reads back unchanged: nonempty, at most
16 characters, no trailing slash, all characters benign. -/
def NameOK (name : Str) : Prop :=
  name ≠ [] ∧ name.length ≤ 16 ∧ name.getLast? ≠ some '/' ∧ name.all nameCharOK = true

theorem eq_char_of_toNat (c : Char) (k : Nat) (h : c.toNat = k) : c = Char.ofNat k := by
  rw [← h, Char.ofNat_toNat]

theorem digit_hdrOK (c : Char) (h : c.isDigit = true) : hdrCharOK c = true := by
  obtain ⟨h1, h2⟩ := isDigit_toNat c h
  unfold hdrCharOK
  simp only [Bool.and_eq_true, decide_eq_true_eq, Bool.not_eq_true', beq_eq_false_iff_ne]
  refine ⟨⟨by omega, ?_⟩, ?_⟩
  · intro he
    rw [he] at h1 h2
    exact absurd h1 (by decide)
  · intro he
    rw [he] at h1 h2
    revert h2
    decide

theorem replicate_space_all (k : Nat) (p : Char → Bool) (hp : p ' ' = true) :
    (List.replicate k ' ').all p = true := by
  rw [List.all_eq_true]
  intro c hc
  rw [List.eq_of_mem_replicate hc]
  exact hp

theorem padTo_all (s : Str) (n : Nat) (p : Char → Bool) (hs : s.all p = true)
    (hp : p ' ' = true) : (padTo s n).all p = true := by
  unfold padTo
  rw [List.all_append, hs, replicate_space_all _ _ hp]
  rfl

theorem natToStr_hdrOK (n : Nat) : (natToStr n).all hdrCharOK = true := by
  rw [List.all_eq_true]
  intro c hc
  exact digit_hdrOK c (List.all_eq_true.mp (natToStr_digits n) c hc)

theorem hdrStr_all (name : Str) (n : Nat) (hname : name.all nameCharOK = true) :
    (hdrStr name n).all hdrCharOK = true := by
  have hn : name.all hdrCharOK = true := by
    rw [List.all_eq_true] at hname ⊢
    intro c hc
    have := hname c hc
    unfold nameCharOK at this
    rw [Bool.and_eq_true] at this
    exact this.1
  unfold hdrStr
  simp only [List.all_append, Bool.and_eq_true]
  refine ⟨⟨⟨⟨⟨?_, ?_⟩, ?_⟩, ?_⟩, ?_⟩, ?_⟩
  · exact padTo_all _ _ _ hn (by decide)
  · exact padTo_all _ _ _ (by decide) (by decide)
  · exact padTo_all _ _ _ (by decide) (by decide)
  · exact padTo_all _ _ _ (by decide) (by decide)
  · exact padTo_all _ _ _ (by decide) (by decide)
  · exact padTo_all _ _ _ (natToStr_hdrOK n) (by decide)

theorem hdrStr_length (name : Str) (n : Nat) (h16 : name.length ≤ 16)
    (hn : n < 10 ^ 10) : (hdrStr name n).length = 58 := by
  unfold hdrStr
  simp only [List.length_append]
  rw [padTo_length name 16 h16, padTo_length (str ("0")) 12 (by decide),
    padTo_length (str ("0")) 6 (by decide), padTo_length (str ("100644")) 8 (by decide),
    padTo_length (natToStr n) 10 (natToStr_length_le n hn)]

theorem hdr_bytes_ok (name : Str) (n : Nat) (hname : name.all nameCharOK = true) :
    (∀ b ∈ strToBytes (hdrStr name n), b < 128) ∧ 10 ∉ strToBytes (hdrStr name n) := by
  have hall := hdrStr_all name n hname
  rw [List.all_eq_true] at hall
  constructor
  · intro b hb
    unfold strToBytes at hb
    rw [List.mem_map] at hb
    obtain ⟨c, hc, rfl⟩ := hb
    have := hall c hc
    unfold hdrCharOK at this
    simp only [Bool.and_eq_true, decide_eq_true_eq] at this
    exact this.1.1
  · intro hb
    unfold strToBytes at hb
    rw [List.mem_map] at hb
    obtain ⟨c, hc, hce⟩ := hb
    have := hall c hc
    unfold hdrCharOK at this
    simp only [Bool.and_eq_true, Bool.not_eq_true', beq_eq_false_iff_ne] at this
    exact this.1.2 (by
      rw [eq_char_of_toNat c 10 hce])

end ArLemmas2

end OpkgRepo

namespace OpkgRepo

section ArLemmas3

theorem fReadline_at (A xs ys : Bytes) (h10 : 10 ∉ xs) :
    fReadline ⟨A ++ (xs ++ 10 :: ys), A.length⟩ =
      (xs ++ [10], ⟨A ++ (xs ++ 10 :: ys), A.length + (xs.length + 1)⟩) := by
  unfold fReadline
  rw [List.drop_left, breadline_append xs ys h10]
  simp

theorem hdr_chars_lt (name : Str) (n : Nat) (hname : name.all nameCharOK = true) :
    ∀ c ∈ hdrStr name n, c.toNat < 128 := by
  intro c hc
  have := List.all_eq_true.mp (hdrStr_all name n hname) c hc
  unfold hdrCharOK at this
  simp only [Bool.and_eq_true, decide_eq_true_eq] at this
  exact this.1.1

theorem decodeAscii_append_str (s : Str) (bs : Bytes) (hs : ∀ c ∈ s, c.toNat < 128)
    (hbs : bs.all (fun b => decide (b < 128)) = true) :
    decodeAscii (strToBytes s ++ bs) = some (s ++ bs.map (fun b => Char.ofNat b)) := by
  unfold decodeAscii
  rw [if_pos (by
    rw [List.all_append]
    simp only [Bool.and_eq_true]
    constructor
    · rw [List.all_eq_true]
      intro b hb
      unfold strToBytes at hb
      rw [List.mem_map] at hb
      obtain ⟨c, hc, rfl⟩ := hb
      simpa using hs c hc
    · simpa using hbs)]
  rw [List.map_append]
  congr 2
  unfold strToBytes
  rw [List.map_map]
  apply List.map_id''
  intro c
  exact Char.ofNat_toNat c

theorem arHeader_split (name : Str) (n : Nat) (tail : Bytes) :
    arHeader name n ++ tail = strToBytes (hdrStr name n) ++ 96 :: 10 :: tail := by
  unfold arHeader arHeaderBody
  simp

theorem hdr96_no10 (name : Str) (n : Nat) (hname : name.all nameCharOK = true) :
    10 ∉ strToBytes (hdrStr name n) ++ [96] := by
  intro hm
  rcases List.mem_append.mp hm with hm | hm
  · unfold strToBytes at hm
    rw [List.mem_map] at hm
    obtain ⟨c, hc, hce⟩ := hm
    have := List.all_eq_true.mp (hdrStr_all name n hname) c hc
    unfold hdrCharOK at this
    simp only [Bool.and_eq_true, Bool.not_eq_true', beq_eq_false_iff_ne] at this
    exact this.1.2 (by rw [eq_char_of_toNat c 10 hce])
  · simp at hm

theorem hdr_line_decode (name : Str) (n : Nat) (hname : name.all nameCharOK = true) :
    decodeAscii (strToBytes (hdrStr name n) ++ [96, 10]) =
      some (hdrStr name n ++ [Char.ofNat 96, '\n']) := by
  rw [decodeAscii_append_str _ _ (hdr_chars_lt name n hname) (by decide)]
  rfl

theorem hdr_line_ne_nl (name : Str) (n : Nat) (h16 : name.length ≤ 16)
    (hn : n < 10 ^ 10) : hdrStr name n ++ [Char.ofNat 96, '\n'] ≠ ['\n'] := by
  intro he
  have := congrArg List.length he
  rw [List.length_append, hdrStr_length name n h16 hn] at this
  simp at this

/-- Reading at a header boundary yields the decoded header line. -/
theorem arGetLine_header (A tail : Bytes) (name : Str) (n : Nat) (ar : ArSt)
    (hname : NameOK name) (hn : n < 10 ^ 10) :
    arGetLine ⟨A ++ (arHeader name n ++ tail), A.length⟩ ar =
      .inr (hdrStr name n ++ [Char.ofNat 96, '\n'],
        ⟨A ++ (arHeader name n ++ tail), A.length + 60⟩) := by
  obtain ⟨hne, h16, hsl, hch⟩ := hname
  unfold arGetLine
  have h1 := fReadline_at A (strToBytes (hdrStr name n) ++ [96]) tail (hdr96_no10 name n hch)
  simp only [List.append_assoc, List.cons_append, List.nil_append, List.singleton_append,
    List.length_append, List.length_cons, List.length_nil, Nat.zero_add] at h1
  rw [arHeader_split, h1]
  dsimp only
  rw [if_neg (by simp)]
  rw [hdr_line_decode name n hch]
  dsimp only
  rw [if_neg (hdr_line_ne_nl name n h16 hn)]
  simp [strToBytes_length, hdrStr_length name n h16 hn]

/-- Reading at an odd-member padding byte skips it and yields the next
decoded header line. -/
theorem arGetLine_pad (A tail : Bytes) (name : Str) (n : Nat) (ar : ArSt)
    (hname : NameOK name) (hn : n < 10 ^ 10) :
    arGetLine ⟨A ++ 10 :: (arHeader name n ++ tail), A.length⟩ ar =
      .inr (hdrStr name n ++ [Char.ofNat 96, '\n'],
        ⟨A ++ 10 :: (arHeader name n ++ tail), A.length + 61⟩) := by
  obtain ⟨hne, h16, hsl, hch⟩ := hname
  rw [arHeader_split]
  unfold arGetLine
  have h1 := fReadline_at A [] (strToBytes (hdrStr name n) ++ 96 :: 10 :: tail) (by simp)
  simp only [List.nil_append, List.length_nil, Nat.zero_add] at h1
  rw [h1]
  dsimp only
  rw [if_neg (by simp)]
  rw [show decodeAscii [10] = some ['\n'] from rfl]
  dsimp only
  rw [if_pos rfl]
  have h2 := fReadline_at (A ++ [10]) (strToBytes (hdrStr name n) ++ [96]) tail
    (hdr96_no10 name n hch)
  simp only [List.append_assoc, List.cons_append, List.nil_append, List.singleton_append,
    List.length_append, List.length_cons, List.length_nil, Nat.zero_add] at h2
  rw [h2]
  dsimp only
  rw [if_neg (by simp)]
  rw [hdr_line_decode name n hch]
  dsimp only
  simp [strToBytes_length, hdrStr_length name n h16 hn]

end ArLemmas3

end OpkgRepo

namespace OpkgRepo

section ArLemmas4

theorem takeFields_cons (k : Nat) (ks : List Nat) (l : Str) :
    takeFields (k :: ks) l = pyStrip (l.take k) :: takeFields ks (l.drop k) := rfl

theorem natToStr_no_space (n : Nat) : ∀ c ∈ natToStr n, isPySpace c = false := by
  intro c hc
  exact digit_not_space c (List.all_eq_true.mp (natToStr_digits n) c hc)

/-- The descriptor fields `_scan` extracts from a generated header. -/
def hdrDesc (name : Str) (n : Nat) : List Str :=
  [name, str ("0"), str ("0"), str ("0"), str ("100644"), natToStr n, []]

theorem takeFields_hdr (name : Str) (n : Nat) (hname : NameOK name) (hn : n < 10 ^ 10) :
    takeFields arFieldLens (hdrStr name n ++ ['\n']) = hdrDesc name n := by
  obtain ⟨hne, h16, hsl, hch⟩ := hname
  have hnsp : ∀ c ∈ name, isPySpace c = false := by
    intro c hc
    have := List.all_eq_true.mp hch c hc
    unfold nameCharOK at this
    simp only [Bool.and_eq_true, Bool.not_eq_true'] at this
    exact this.2
  unfold hdrStr
  simp only [List.append_assoc]
  rw [show arFieldLens = [16, 12, 6, 6, 8, 10, 2] from rfl]
  rw [takeFields_cons, List.take_left' (padTo_length name 16 h16),
    List.drop_left' (padTo_length name 16 h16)]
  rw [takeFields_cons, List.take_left' (padTo_length (str ("0")) 12 (by decide)),
    List.drop_left' (padTo_length (str ("0")) 12 (by decide))]
  rw [takeFields_cons, List.take_left' (padTo_length (str ("0")) 6 (by decide)),
    List.drop_left' (padTo_length (str ("0")) 6 (by decide))]
  rw [takeFields_cons, List.take_left' (padTo_length (str ("0")) 6 (by decide)),
    List.drop_left' (padTo_length (str ("0")) 6 (by decide))]
  rw [takeFields_cons, List.take_left' (padTo_length (str ("100644")) 8 (by decide)),
    List.drop_left' (padTo_length (str ("100644")) 8 (by decide))]
  rw [takeFields_cons,
    List.take_left' (padTo_length (natToStr n) 10 (natToStr_length_le n hn)),
    List.drop_left' (padTo_length (natToStr n) 10 (natToStr_length_le n hn))]
  rw [show padTo name 16 = name ++ List.replicate (16 - name.length) ' ' from rfl,
    pyStrip_pad name _ hne hnsp]
  rw [show padTo (natToStr n) 10 = natToStr n ++ List.replicate (10 - (natToStr n).length) ' '
      from rfl,
    pyStrip_pad (natToStr n) _ (natToStr_ne_nil n) (natToStr_no_space n)]
  rw [show pyStrip (padTo (str ("0")) 12) = str ("0") from by decide]
  rw [show pyStrip (padTo (str ("0")) 6) = str ("0") from by decide]
  rw [show pyStrip (padTo (str ("100644")) 8) = str ("100644") from by decide]
  rw [show takeFields [2] ['\n'] = [[]] from by decide]
  rfl

/-- One `_scan` iteration that reads a generated header: a name match
records the data offset and the unpadded resume offset; a miss records
the directory entry and skips the data plus padding. -/
theorem arScan_step (fuel : Nat) (f f1 : PyFile) (ar : ArSt) (fname name : Str) (n : Nat)
    (hget : arGetLine f ar = .inr (hdrStr name n ++ [Char.ofNat 96, '\n'], f1))
    (hname : NameOK name) (hn : n < 10 ^ 10) :
    arScan (fuel + 1) f ar fname =
      if name = fname then
        some (some ⟨f1.pos, (n : Int)⟩, fSeekAbs f1 (f1.pos : Int),
          ⟨(f1.pos : Int) + (n : Int), dictInsert ar.dir name (hdrDesc name n, f1.pos),
           ar.dirRead⟩)
      else
        arScan fuel (fSeekRel f1 (if (n : Int) % 2 = 1 then (n : Int) + 1 else (n : Int)))
          ⟨ar.dirOff, dictInsert ar.dir name (hdrDesc name n, f1.pos), ar.dirRead⟩ fname := by
  have hname2 := hname
  obtain ⟨hne, h16, hsl, hch⟩ := hname2
  rw [arScan, hget]
  dsimp only
  have hfil : (hdrStr name n ++ [Char.ofNat 96, '\n']).filter
      (fun c => ¬ c = Char.ofNat 96) = hdrStr name n ++ ['\n'] := by
    rw [List.filter_append]
    rw [List.filter_eq_self.mpr (by
      intro c hc
      have := List.all_eq_true.mp (hdrStr_all name n hch) c hc
      unfold hdrCharOK at this
      simp only [Bool.and_eq_true, Bool.not_eq_true', beq_eq_false_iff_ne] at this
      simpa using this.2)]
    congr 1
  rw [hfil, takeFields_hdr name n hname hn]
  show (match pyInt (natToStr n) with
    | none => none
    | some size =>
      match name.getLast? with
      | none => none
      | some c =>
        if (if c = '/' then name.dropLast else name) = fname then
          some (some (FileSection.mk f1.pos size), fSeekAbs f1 (f1.pos : Int),
            ArSt.mk ((f1.pos : Int) + size)
              (dictInsert ar.dir (if c = '/' then name.dropLast else name)
                ([name, str ("0"), str ("0"), str ("0"), str ("100644"), natToStr n, []],
                 f1.pos)) ar.dirRead)
        else
          arScan fuel (fSeekRel f1 (if size % 2 = 1 then size + 1 else size))
            (ArSt.mk ar.dirOff
              (dictInsert ar.dir (if c = '/' then name.dropLast else name)
                ([name, str ("0"), str ("0"), str ("0"), str ("100644"), natToStr n, []],
                 f1.pos)) ar.dirRead) fname) = _
  rw [pyInt_natToStr]
  dsimp only
  match hlast : name.getLast? with
  | none =>
    have hsome := List.getLast?_isSome.mpr hne
    rw [hlast] at hsome
    exact absurd hsome (by decide)
  | some c =>
    dsimp only
    have hcs : ¬ c = '/' := fun he => hsl (by rw [hlast, he])
    rw [if_neg hcs]
    rfl

end ArLemmas4

end OpkgRepo

namespace OpkgRepo

section ArLemmas5

/-- The control member name used by make_index. -/
def ctlName : Str := str ("control.tar.gz")

/-- The data member name. -/
def datName : Str := str ("data.tar.gz")

theorem ctlName_ok : NameOK ctlName := ⟨by decide, by decide, by decide, by decide⟩

theorem datName_ok : NameOK datName := ⟨by decide, by decide, by decide, by decide⟩

theorem arHeader_length (name : Str) (n : Nat) (h16 : name.length ≤ 16)
    (hn : n < 10 ^ 10) : (arHeader name n).length = 60 := by
  unfold arHeader arHeaderBody
  simp [strToBytes_length, hdrStr_length name n h16 hn]

theorem arProbe_shape1 (d1 d2 : Bytes) (hodd : d1.length % 2 = 1) :
    arProbe d1 d2 = arMagicB ++ (arHeader ctlName d1.length ++
      (d1 ++ 10 :: (arHeader datName d2.length ++
        (d2 ++ (if d2.length % 2 = 1 then [10] else []))))) := by
  unfold arProbe buildAr memberChunk ctlName datName
  simp only [List.map_cons, List.map_nil, List.foldr_cons, List.foldr_nil]
  rw [if_pos hodd]
  simp [List.append_assoc]

theorem arProbe_shape2 (d1 d2 : Bytes) (hodd : d1.length % 2 = 1) :
    arProbe d1 d2 = (arMagicB ++ arHeader ctlName d1.length ++ d1 ++ [10]) ++
      (arHeader datName d2.length ++
        (d2 ++ (if d2.length % 2 = 1 then [10] else []))) := by
  rw [arProbe_shape1 d1 d2 hodd]
  simp [List.append_assoc]

theorem arProbe_shape3 (d1 d2 : Bytes) (hodd : d1.length % 2 = 1) :
    arProbe d1 d2 = (arMagicB ++ arHeader ctlName d1.length ++ d1) ++
      10 :: (arHeader datName d2.length ++
        (d2 ++ (if d2.length % 2 = 1 then [10] else []))) := by
  rw [arProbe_shape1 d1 d2 hodd]
  simp [List.append_assoc]

theorem shape2_length (d1 : Bytes) (h1 : d1.length < 10 ^ 10) :
    (arMagicB ++ arHeader ctlName d1.length ++ d1 ++ [10]).length = 69 + d1.length := by
  simp [List.length_append, arHeader_length ctlName d1.length (by decide) h1, arMagicB]
  omega

theorem shape3_length (d1 : Bytes) (h1 : d1.length < 10 ^ 10) :
    (arMagicB ++ arHeader ctlName d1.length ++ d1).length = 68 + d1.length := by
  simp [List.length_append, arHeader_length ctlName d1.length (by decide) h1, arMagicB]
  omega

theorem arProbe_length (d1 d2 : Bytes) (hodd : d1.length % 2 = 1)
    (h1 : d1.length < 10 ^ 10) (h2 : d2.length < 10 ^ 10) :
    (arProbe d1 d2).length =
      (128 + d1.length + d2.length + (if d2.length % 2 = 1 then 1 else 0)) + 1 := by
  rw [arProbe_shape2 d1 d2 hodd]
  rw [List.length_append, shape2_length d1 h1, List.length_append,
    arHeader_length datName d2.length (by decide) h2, List.length_append]
  by_cases hp : d2.length % 2 = 1
  · rw [if_pos hp, if_pos hp]
    simp
    omega
  · rw [if_neg hp, if_neg hp]
    simp
    omega

end ArLemmas5

end OpkgRepo

namespace OpkgRepo

section ArLemmas6

theorem scan_find_ctl (d1 d2 : Bytes) (hodd : d1.length % 2 = 1)
    (h1 : d1.length < 10 ^ 10) (fuel : Nat) (ar : ArSt) :
    arScan (fuel + 1) ⟨arProbe d1 d2, 8⟩ ar ctlName =
      some (some ⟨68, (d1.length : Int)⟩, ⟨arProbe d1 d2, 68⟩,
        ⟨(68 : Int) + d1.length, dictInsert ar.dir ctlName (hdrDesc ctlName d1.length, 68),
         ar.dirRead⟩) := by
  have hg := arGetLine_header arMagicB
    (d1 ++ 10 :: (arHeader datName d2.length ++
      (d2 ++ (if d2.length % 2 = 1 then [10] else [])))) ctlName d1.length ar ctlName_ok h1
  rw [show (arMagicB).length = 8 from rfl, ← arProbe_shape1 d1 d2 hodd] at hg
  rw [arScan_step fuel _ _ ar ctlName ctlName d1.length hg ctlName_ok h1, if_pos rfl]
  simp only [fSeekAbs, Int.toNat_ofNat]
  norm_num

theorem scan_step1_miss (d1 d2 : Bytes) (hodd : d1.length % 2 = 1)
    (h1 : d1.length < 10 ^ 10) (fuel : Nat) (ar : ArSt) :
    arScan (fuel + 1) ⟨arProbe d1 d2, 8⟩ ar datName =
      arScan fuel ⟨arProbe d1 d2, 69 + d1.length⟩
        ⟨ar.dirOff, dictInsert ar.dir ctlName (hdrDesc ctlName d1.length, 68), ar.dirRead⟩
        datName := by
  have hg := arGetLine_header arMagicB
    (d1 ++ 10 :: (arHeader datName d2.length ++
      (d2 ++ (if d2.length % 2 = 1 then [10] else [])))) ctlName d1.length ar ctlName_ok h1
  rw [show (arMagicB).length = 8 from rfl, ← arProbe_shape1 d1 d2 hodd] at hg
  rw [arScan_step fuel _ _ ar datName ctlName d1.length hg ctlName_ok h1,
    if_neg (by decide), if_pos (show (d1.length : Int) % 2 = 1 from by omega)]
  have hpos : (((8 + 60 : Nat) : Int) + ((d1.length : Int) + 1)).toNat = 69 + d1.length := by
    omega
  show arScan fuel ⟨arProbe d1 d2, (((8 + 60 : Nat) : Int) + ((d1.length : Int) + 1)).toNat⟩
      ⟨ar.dirOff, dictInsert ar.dir ctlName (hdrDesc ctlName d1.length, 68), ar.dirRead⟩
      datName = _
  rw [hpos]

theorem scan_step2_find (d1 d2 : Bytes) (hodd : d1.length % 2 = 1)
    (h1 : d1.length < 10 ^ 10) (h2 : d2.length < 10 ^ 10) (fuel : Nat) (ar : ArSt) :
    arScan (fuel + 1) ⟨arProbe d1 d2, 69 + d1.length⟩ ar datName =
      some (some ⟨d1.length + 129, (d2.length : Int)⟩, ⟨arProbe d1 d2, d1.length + 129⟩,
        ⟨((d1.length + 129 : Nat) : Int) + d2.length,
         dictInsert ar.dir datName (hdrDesc datName d2.length, d1.length + 129),
         ar.dirRead⟩) := by
  have hg := arGetLine_header (arMagicB ++ arHeader ctlName d1.length ++ d1 ++ [10])
    (d2 ++ (if d2.length % 2 = 1 then [10] else [])) datName d2.length ar datName_ok h2
  rw [shape2_length d1 h1, ← arProbe_shape2 d1 d2 hodd] at hg
  rw [arScan_step fuel _ _ ar datName datName d2.length hg datName_ok h2, if_pos rfl]
  have he : 69 + d1.length + 60 = d1.length + 129 := by omega
  rw [he]
  simp only [fSeekAbs, Int.toNat_ofNat]

theorem scan_resume_find (d1 d2 : Bytes) (hodd : d1.length % 2 = 1)
    (h1 : d1.length < 10 ^ 10) (h2 : d2.length < 10 ^ 10) (fuel : Nat) (ar : ArSt) :
    arScan (fuel + 1) ⟨arProbe d1 d2, 68 + d1.length⟩ ar datName =
      some (some ⟨d1.length + 129, (d2.length : Int)⟩, ⟨arProbe d1 d2, d1.length + 129⟩,
        ⟨((d1.length + 129 : Nat) : Int) + d2.length,
         dictInsert ar.dir datName (hdrDesc datName d2.length, d1.length + 129),
         ar.dirRead⟩) := by
  have hg := arGetLine_pad (arMagicB ++ arHeader ctlName d1.length ++ d1)
    (d2 ++ (if d2.length % 2 = 1 then [10] else [])) datName d2.length ar datName_ok h2
  rw [shape3_length d1 h1, ← arProbe_shape3 d1 d2 hodd] at hg
  rw [arScan_step fuel _ _ ar datName datName d2.length hg datName_ok h2, if_pos rfl]
  have he : 68 + d1.length + 61 = d1.length + 129 := by omega
  rw [he]
  simp only [fSeekAbs, Int.toNat_ofNat]

end ArLemmas6

end OpkgRepo

namespace OpkgRepo

section ArLemmas7

theorem arProbe_shape4 (d1 d2 : Bytes) (hodd : d1.length % 2 = 1) :
    arProbe d1 d2 = ((arMagicB ++ arHeader ctlName d1.length ++ d1 ++ [10]) ++
      arHeader datName d2.length) ++
      (d2 ++ (if d2.length % 2 = 1 then [10] else [])) := by
  rw [arProbe_shape1 d1 d2 hodd]
  simp [List.append_assoc]

theorem shape4_length (d1 d2 : Bytes) (h1 : d1.length < 10 ^ 10)
    (h2 : d2.length < 10 ^ 10) :
    ((arMagicB ++ arHeader ctlName d1.length ++ d1 ++ [10]) ++
      arHeader datName d2.length).length = d1.length + 129 := by
  rw [List.length_append, shape2_length d1 h1,
    arHeader_length datName d2.length (by decide) h2]
  omega

theorem ar_open_fresh_dat (d1 d2 : Bytes) (hodd : d1.length % 2 = 1)
    (h1 : d1.length < 10 ^ 10) (h2 : d2.length < 10 ^ 10) :
    arOpen ⟨arProbe d1 d2, 8⟩ ⟨8, [], false⟩ datName =
      some (⟨d1.length + 129, (d2.length : Int)⟩, ⟨arProbe d1 d2, d1.length + 129⟩,
        ⟨((d1.length + 129 : Nat) : Int) + d2.length,
         dictInsert (dictInsert [] ctlName (hdrDesc ctlName d1.length, 68)) datName
           (hdrDesc datName d2.length, d1.length + 129), false⟩) := by
  have hscan : ar_scan ⟨arProbe d1 d2, 8⟩ ⟨8, [], false⟩ datName =
      some (some ⟨d1.length + 129, (d2.length : Int)⟩, ⟨arProbe d1 d2, d1.length + 129⟩,
        ⟨((d1.length + 129 : Nat) : Int) + d2.length,
         dictInsert (dictInsert [] ctlName (hdrDesc ctlName d1.length, 68)) datName
           (hdrDesc datName d2.length, d1.length + 129), false⟩) := by
    unfold ar_scan
    show arScan ((arProbe d1 d2).length + 1) ⟨arProbe d1 d2, 8⟩ ⟨8, [], false⟩ datName = _
    rw [scan_step1_miss d1 d2 hodd h1 ((arProbe d1 d2).length) ⟨8, [], false⟩]
    rw [show (arProbe d1 d2).length =
      (128 + d1.length + d2.length + (if d2.length % 2 = 1 then 1 else 0)) + 1 from
      arProbe_length d1 d2 hodd h1 h2]
    rw [scan_step2_find d1 d2 hodd h1 h2]
  unfold arOpen
  rw [show dictGet ([] : List (Str × (List Str × Nat))) datName = none from rfl]
  dsimp only
  rw [if_neg (show ¬(false = true) from by decide)]
  rw [hscan]

theorem ar_open_ctl (d1 d2 : Bytes) (hodd : d1.length % 2 = 1)
    (h1 : d1.length < 10 ^ 10) (h2 : d2.length < 10 ^ 10) :
    arOpen ⟨arProbe d1 d2, 8⟩ ⟨8, [], false⟩ ctlName =
      some (⟨68, (d1.length : Int)⟩, ⟨arProbe d1 d2, 68⟩,
        ⟨(68 : Int) + d1.length, dictInsert [] ctlName (hdrDesc ctlName d1.length, 68),
         false⟩) := by
  have hscan : ar_scan ⟨arProbe d1 d2, 8⟩ ⟨8, [], false⟩ ctlName =
      some (some ⟨68, (d1.length : Int)⟩, ⟨arProbe d1 d2, 68⟩,
        ⟨(68 : Int) + d1.length, dictInsert [] ctlName (hdrDesc ctlName d1.length, 68),
         false⟩) := by
    unfold ar_scan
    show arScan ((arProbe d1 d2).length + 1) ⟨arProbe d1 d2, 8⟩ ⟨8, [], false⟩ ctlName = _
    rw [scan_find_ctl d1 d2 hodd h1 ((arProbe d1 d2).length) ⟨8, [], false⟩]
  unfold arOpen
  rw [show dictGet ([] : List (Str × (List Str × Nat))) ctlName = none from rfl]
  dsimp only
  rw [if_neg (show ¬(false = true) from by decide)]
  rw [hscan]

theorem ar_open_resume_dat (d1 d2 : Bytes) (hodd : d1.length % 2 = 1)
    (h1 : d1.length < 10 ^ 10) (h2 : d2.length < 10 ^ 10) :
    arOpen ⟨arProbe d1 d2, 68⟩
      ⟨(68 : Int) + d1.length, dictInsert [] ctlName (hdrDesc ctlName d1.length, 68),
       false⟩ datName =
      some (⟨d1.length + 129, (d2.length : Int)⟩, ⟨arProbe d1 d2, d1.length + 129⟩,
        ⟨((d1.length + 129 : Nat) : Int) + d2.length,
         dictInsert (dictInsert [] ctlName (hdrDesc ctlName d1.length, 68)) datName
           (hdrDesc datName d2.length, d1.length + 129), false⟩) := by
  have hscan : ar_scan ⟨arProbe d1 d2, 68⟩
      ⟨(68 : Int) + d1.length, dictInsert [] ctlName (hdrDesc ctlName d1.length, 68),
       false⟩ datName =
      some (some ⟨d1.length + 129, (d2.length : Int)⟩, ⟨arProbe d1 d2, d1.length + 129⟩,
        ⟨((d1.length + 129 : Nat) : Int) + d2.length,
         dictInsert (dictInsert [] ctlName (hdrDesc ctlName d1.length, 68)) datName
           (hdrDesc datName d2.length, d1.length + 129), false⟩) := by
    unfold ar_scan
    show arScan ((arProbe d1 d2).length + 1) ⟨arProbe d1 d2, 68 + d1.length⟩
      ⟨(68 : Int) + d1.length, dictInsert [] ctlName (hdrDesc ctlName d1.length, 68),
       false⟩ datName = _
    rw [scan_resume_find d1 d2 hodd h1 h2 ((arProbe d1 d2).length)]
  unfold arOpen
  rw [show dictGet (dictInsert [] ctlName (hdrDesc ctlName d1.length, 68)) datName = none
    from rfl]
  dsimp only
  rw [if_neg (show ¬(false = true) from by decide)]
  rw [hscan]

end ArLemmas7

end OpkgRepo

namespace OpkgRepo

/-- C9: in a two-member archive whose first member has odd size, the
writer places one padding byte (a newline) after that member; a fresh
lookup of the second member scans past the first by size plus padding
and finds it at the aligned header boundary; a lookup that finds the odd
first member records the unpadded resume offset, and the subsequent
lookup of the second member, resuming at that offset (the padding byte),
still finds the second member at its aligned boundary, whose data then
reads back exactly. -/
theorem C9_ar_padding_resume (d1 d2 : Bytes) (hodd : d1.length % 2 = 1)
    (h1 : d1.length < 10 ^ 10) (h2 : d2.length < 10 ^ 10) :
    ((arProbe d1 d2).drop (68 + d1.length)).head? = some 10 ∧
    arOpen ⟨arProbe d1 d2, 8⟩ ⟨8, [], false⟩ datName =
      some (⟨d1.length + 129, (d2.length : Int)⟩, ⟨arProbe d1 d2, d1.length + 129⟩,
        ⟨((d1.length + 129 : Nat) : Int) + d2.length,
         dictInsert (dictInsert [] ctlName (hdrDesc ctlName d1.length, 68)) datName
           (hdrDesc datName d2.length, d1.length + 129), false⟩) ∧
    arOpen ⟨arProbe d1 d2, 8⟩ ⟨8, [], false⟩ ctlName =
      some (⟨68, (d1.length : Int)⟩, ⟨arProbe d1 d2, 68⟩,
        ⟨(68 : Int) + d1.length, dictInsert [] ctlName (hdrDesc ctlName d1.length, 68),
         false⟩) ∧
    arOpen ⟨arProbe d1 d2, 68⟩
      ⟨(68 : Int) + d1.length, dictInsert [] ctlName (hdrDesc ctlName d1.length, 68),
       false⟩ datName =
      some (⟨d1.length + 129, (d2.length : Int)⟩, ⟨arProbe d1 d2, d1.length + 129⟩,
        ⟨((d1.length + 129 : Nat) : Int) + d2.length,
         dictInsert (dictInsert [] ctlName (hdrDesc ctlName d1.length, 68)) datName
           (hdrDesc datName d2.length, d1.length + 129), false⟩) ∧
    (fRead ⟨arProbe d1 d2, d1.length + 129⟩ (d2.length : Int)).1 = d2 := by
  refine ⟨?_, ar_open_fresh_dat d1 d2 hodd h1 h2, ar_open_ctl d1 d2 hodd h1 h2,
    ar_open_resume_dat d1 d2 hodd h1 h2, ?_⟩
  · rw [arProbe_shape3 d1 d2 hodd, List.drop_left' (shape3_length d1 h1)]
    rfl
  · unfold fRead
    rw [if_neg (show ¬((d2.length : Int) < 0) from by omega)]
    dsimp only
    rw [arProbe_shape4 d1 d2 hodd, List.drop_left' (shape4_length d1 d2 h1 h2),
      Int.toNat_ofNat, List.take_left' rfl]

/-- C9 witness: the padding and resume behavior at a concrete archive
with an odd 3-byte first member and a 2-byte second member. -/
theorem C9_ar_padding_resume_witness :
    ((arProbe [1, 2, 3] [4, 5]).drop 71).head? = some 10 ∧
    arOpen ⟨arProbe [1, 2, 3] [4, 5], 8⟩ ⟨8, [], false⟩ datName =
      some (⟨132, 2⟩, ⟨arProbe [1, 2, 3] [4, 5], 132⟩,
        ⟨134, dictInsert (dictInsert [] ctlName (hdrDesc ctlName 3, 68)) datName
           (hdrDesc datName 2, 132), false⟩) ∧
    arOpen ⟨arProbe [1, 2, 3] [4, 5], 8⟩ ⟨8, [], false⟩ ctlName =
      some (⟨68, 3⟩, ⟨arProbe [1, 2, 3] [4, 5], 68⟩,
        ⟨71, dictInsert [] ctlName (hdrDesc ctlName 3, 68), false⟩) ∧
    arOpen ⟨arProbe [1, 2, 3] [4, 5], 68⟩
      ⟨71, dictInsert [] ctlName (hdrDesc ctlName 3, 68), false⟩ datName =
      some (⟨132, 2⟩, ⟨arProbe [1, 2, 3] [4, 5], 132⟩,
        ⟨134, dictInsert (dictInsert [] ctlName (hdrDesc ctlName 3, 68)) datName
           (hdrDesc datName 2, 132), false⟩) ∧
    (fRead ⟨arProbe [1, 2, 3] [4, 5], 132⟩ 2).1 = [4, 5] :=
  C9_ar_padding_resume [1, 2, 3] [4, 5] (by decide) (by decide) (by decide)

end OpkgRepo

namespace OpkgRepo

/-- C10: FileSection reads are not clamped to the section bounds.  The
result of read never depends on the section at all and returns exactly
the underlying file's next bytes from the current position; only seek
targets are mapped through the section offset (whence 0 and 2; whence 1
is passed through, other values hit the assert).  On a concrete section
of size 3 at offset 2 over a 10-byte file, reading 5 bytes from the
section start returns bytes crossing the section end at position 5. -/
theorem C10_filesection_read_unclamped :
    (∀ (sec sec2 : FileSection) (f : PyFile) (n : Int),
        FileSection.read sec f n = FileSection.read sec2 f n) ∧
    (∀ (sec : FileSection) (f : PyFile) (n : Int),
        (FileSection.read sec f n).1 =
          if n < 0 then f.data.drop f.pos else (f.data.drop f.pos).take n.toNat) ∧
    (∀ (sec : FileSection) (f : PyFile) (p : Int),
        FileSection.seek sec f p 0 = some (fSeekAbs f (p + sec.offset)) ∧
        FileSection.seek sec f p 1 = some (fSeekRel f p) ∧
        FileSection.seek sec f p 2 = some (fSeekAbs f ((sec.offset : Int) + sec.size + p)) ∧
        FileSection.seek sec f p 3 = none) ∧
    ((fsInit ⟨[0, 1, 2, 3, 4, 5, 6, 7, 8, 9], 0⟩ 2 3).1.offset +
        ((fsInit ⟨[0, 1, 2, 3, 4, 5, 6, 7, 8, 9], 0⟩ 2 3).1.size).toNat = 5 ∧
      ((fsInit ⟨[0, 1, 2, 3, 4, 5, 6, 7, 8, 9], 0⟩ 2 3).1.read
        (fsInit ⟨[0, 1, 2, 3, 4, 5, 6, 7, 8, 9], 0⟩ 2 3).2 5).1 = [2, 3, 4, 5, 6]) := by
  refine ⟨fun sec sec2 f n => rfl, ?_, ?_, by decide⟩
  · intro sec f n
    unfold FileSection.read fRead
    by_cases hn : n < 0
    · rw [if_pos hn, if_pos hn]
    · rw [if_neg hn, if_neg hn]
  · intro sec f p
    exact ⟨rfl, rfl, rfl, rfl⟩

end OpkgRepo

namespace OpkgRepo

section DictLemmas

variable {α : Type}

theorem dictGet_insert_self (d : List (Str × α)) (k : Str) (v : α) :
    dictGet (dictInsert d k v) k = some v := by
  unfold dictInsert
  by_cases hs : (dictGet d k).isSome
  · rw [if_pos hs]
    unfold dictGet at hs ⊢
    induction d with
    | nil => simp at hs
    | cons kv t ih =>
      by_cases hk : (kv.1 == k) = true
      · rw [List.map_cons, if_pos hk, List.find?_cons_of_pos _ (by simp)]
        rfl
      · rw [List.map_cons, if_neg hk, List.find?_cons_of_neg _ (by simpa using hk)]
        apply ih
        rw [List.find?_cons_of_neg _ (by simpa using hk)] at hs
        exact hs
  · rw [if_neg hs]
    unfold dictGet at hs ⊢
    have hnone : d.find? (fun kv => kv.1 == k) = none := by
      cases hfind : d.find? (fun kv => kv.1 == k) with
      | none => rfl
      | some kv =>
        rw [hfind] at hs
        simp at hs
    rw [List.find?_append, hnone]
    rw [List.find?_cons_of_pos _ (by simp)]
    rfl

theorem find?_subst_ne (t : List (Str × α)) (k k2 : Str) (v : α) (h : k2 ≠ k) :
    (t.map (fun kv => if kv.1 == k then (k, v) else kv)).find? (fun kv => kv.1 == k2) =
      t.find? (fun kv => kv.1 == k2) := by
  induction t with
  | nil => rfl
  | cons kv t ih =>
    rw [List.map_cons]
    by_cases hk : (kv.1 == k) = true
    · rw [if_pos hk]
      have h1 : ¬ (((k, v) : Str × α).1 == k2) = true := by
        simp only [beq_iff_eq]
        exact fun he => h he.symm
      have h2 : ¬ (kv.1 == k2) = true := by
        have hke : kv.1 = k := by simpa using hk
        simp only [hke, beq_iff_eq]
        exact fun he => h he.symm
      rw [List.find?_cons_of_neg _ (by exact h1), List.find?_cons_of_neg _ (by exact h2)]
      exact ih
    · rw [if_neg hk]
      by_cases hk2 : (kv.1 == k2) = true
      · rw [List.find?_cons_of_pos _ (by exact hk2), List.find?_cons_of_pos _ (by exact hk2)]
      · rw [List.find?_cons_of_neg _ (by simpa using hk2),
          List.find?_cons_of_neg _ (by simpa using hk2)]
        exact ih

theorem dictGet_insert_ne (d : List (Str × α)) (k k2 : Str) (v : α) (h : k2 ≠ k) :
    dictGet (dictInsert d k v) k2 = dictGet d k2 := by
  unfold dictInsert
  by_cases hs : (dictGet d k).isSome
  · rw [if_pos hs]
    unfold dictGet
    rw [find?_subst_ne d k k2 v h]
  · rw [if_neg hs]
    unfold dictGet
    rw [List.find?_append]
    have h1 : ¬ (((k, v) : Str × α).1 == k2) = true := by
      simp only [beq_iff_eq]
      exact fun he => h he.symm
    rw [List.find?_cons_of_neg _ (by exact h1)]
    cases hf : d.find? (fun kv => kv.1 == k2) with
    | some kv => rfl
    | none => rfl

theorem dictInsert_keys_nodup (d : List (Str × α)) (k : Str) (v : α)
    (h : (d.map Prod.fst).Nodup) : ((dictInsert d k v).map Prod.fst).Nodup := by
  unfold dictInsert
  by_cases hs : (dictGet d k).isSome
  · rw [if_pos hs]
    have he : (d.map (fun kv => if kv.1 == k then (k, v) else kv)).map Prod.fst =
        d.map Prod.fst := by
      rw [List.map_map]
      apply List.map_congr_left
      intro kv hkv
      by_cases hk : (kv.1 == k) = true
      · simp only [Function.comp]
        rw [if_pos hk]
        have : kv.1 = k := by simpa using hk
        simp [this]
      · simp only [Function.comp]
        rw [if_neg hk]
    rw [he]
    exact h
  · rw [if_neg hs]
    rw [List.map_append]
    refine List.Nodup.append h (by simp) ?_
    intro a ha hb
    simp only [List.map_cons, List.map_nil, List.mem_singleton] at hb
    rw [List.mem_map] at ha
    obtain ⟨kv, hkv, hfst⟩ := ha
    have hnone : d.find? (fun kv2 => kv2.1 == k) = none := by
      cases hfind : d.find? (fun kv2 => kv2.1 == k) with
      | none => rfl
      | some kv2 =>
        unfold dictGet at hs
        rw [hfind] at hs
        simp at hs
    have hfalse := List.find?_eq_none.mp hnone kv hkv
    rw [hfst, hb] at hfalse
    simp at hfalse

/-- Remove a key (the effect of os.rename on its source name). -/
def fsRemove (d : List (Str × α)) (k : Str) : List (Str × α) :=
  d.filter (fun kv => !(kv.1 == k))

theorem dictGet_remove_self (d : List (Str × α)) (k : Str) :
    dictGet (fsRemove d k) k = none := by
  unfold fsRemove dictGet
  induction d with
  | nil => rfl
  | cons kv t ih =>
    by_cases hk : (kv.1 == k) = true
    · rw [List.filter_cons_of_neg (by simpa using hk)]
      exact ih
    · rw [List.filter_cons_of_pos (by simpa using hk),
        List.find?_cons_of_neg _ (by simpa using hk)]
      exact ih

theorem dictGet_remove_ne (d : List (Str × α)) (k k2 : Str) (h : k2 ≠ k) :
    dictGet (fsRemove d k) k2 = dictGet d k2 := by
  unfold fsRemove dictGet
  induction d with
  | nil => rfl
  | cons kv t ih =>
    by_cases hk : (kv.1 == k) = true
    · have hne2 : (kv.1 == k2) = false := by
        have : kv.1 = k := by simpa using hk
        simp [this]
        exact fun he => h he.symm
      rw [List.filter_cons_of_neg (by simpa using hk),
        List.find?_cons_of_neg _ (by simpa using hne2)]
      exact ih
    · rw [List.filter_cons_of_pos (by simpa using hk)]
      by_cases hk2 : (kv.1 == k2) = true
      · rw [List.find?_cons_of_pos _ (by exact hk2), List.find?_cons_of_pos _ (by exact hk2)]
      · rw [List.find?_cons_of_neg _ (by simpa using hk2),
          List.find?_cons_of_neg _ (by simpa using hk2)]
        exact ih

end DictLemmas

end OpkgRepo

namespace OpkgRepo

section PackagesModel

/-- The identity key of `add_package` / `make_index`: "%s:%s" of package
and architecture (with the version appended under opt_a); None renders
as "None". -/
def pkgKey (p : Package) (opt_a : Bool) : Str :=
  if opt_a then
    pyShow p.package ++ str (":") ++ pyShow p.architecture ++ str (":") ++ p.version
  else pyShow p.package ++ str (":") ++ pyShow p.architecture

/-- Model of `Package.compare_version`: parse both version strings and
compare; `none` models the exceptions of parse_version / compare. -/
def Package.compare_version (p q : Package) : Option Int :=
  (parse_version p.version).bind (fun a =>
    (parse_version q.version).bind (fun b => a.compare b))

/-- Model of `Packages.add_package`: insert fresh keys (the fresh record
then compares to itself), replace the incumbent when the new version
compares greater or equal (returning 0), keep it otherwise (returning
1).  `none` models an exception escaping from the comparison. -/
def add_package (d : List (Str × Package)) (p : Package) (opt_a : Bool) :
    Option (List (Str × Package) × Nat) :=
  match dictGet d (pkgKey p opt_a) with
  | none =>
    match Package.compare_version p p with
    | none => none
    | some c =>
      if 0 ≤ c then
        some (dictInsert (dictInsert d (pkgKey p opt_a) p) (pkgKey p opt_a) p, 0)
      else some (dictInsert d (pkgKey p opt_a) p, 1)
  | some q =>
    match Package.compare_version p q with
    | none => none
    | some c =>
      if 0 ≤ c then some (dictInsert d (pkgKey p opt_a) p, 0)
      else some (d, 1)

/-- The evolving state of the make_index walk: the package set and the
names moved to the morgue. -/
structure ScanSt where
  pkgs : List (Str × Package)
  morgue : List Str
deriving DecidableEq

/-- One file of the make_index loop (lines 796-818): remember the
incumbent's filename, insert the record, and with archival enabled move
the displaced file (the incumbent's on replacement, the new file's on
rejection) to the morgue. -/
def processFile (st : ScanSt) (p : Package) (filename : Str) (opt_m opt_a : Bool) :
    Option ScanSt :=
  match add_package st.pkgs p opt_a with
  | none => none
  | some (d2, ret) =>
    if ret = 0 then
      match dictGet st.pkgs (pkgKey p opt_a) with
      | some q =>
        match q.filename with
        | some fn2 =>
          if fn2 = [] then some ⟨d2, st.morgue⟩
          else if opt_m then some ⟨d2, st.morgue ++ [fn2]⟩
          else some ⟨d2, st.morgue⟩
        | none => some ⟨d2, st.morgue⟩
      | none => some ⟨d2, st.morgue⟩
    else
      if opt_m then some ⟨d2, st.morgue ++ [filename]⟩
      else some ⟨d2, st.morgue⟩

end PackagesModel

end OpkgRepo

namespace OpkgRepo

/-- The 1.0 archive record of the displacement scenario. -/
def pkg10 : Package :=
  { package := some (str ("foo")), architecture := some (str ("mips")),
    version := str ("1.0"), filename := some (str ("foo_1.0.ipk")) }

/-- The 2.0 archive record of the displacement scenario. -/
def pkg20 : Package :=
  { package := some (str ("foo")), architecture := some (str ("mips")),
    version := str ("2.0"), filename := some (str ("foo_2.0.ipk")) }

/-- C1: add_package keeps at most one record per identity key (key
nodup is preserved); with an incumbent on the same key, a version
comparing greater or equal replaces it and returns 0 while a strictly
older version leaves it and returns 1; and in the concrete two-archive
scenario (versions 1.0 and 2.0, either insertion order, archival on)
the final set holds the 2.0 record and the 1.0 file is in the
morgue. -/
theorem C1_package_set_invariant :
    (∀ (d : List (Str × Package)) (p : Package) (a : Bool)
        (d2 : List (Str × Package)) (r : Nat),
        (d.map Prod.fst).Nodup → add_package d p a = some (d2, r) →
        (d2.map Prod.fst).Nodup) ∧
    (∀ (d : List (Str × Package)) (p : Package) (a : Bool) (q : Package) (c : Int),
        dictGet d (pkgKey p a) = some q → Package.compare_version p q = some c →
        (0 ≤ c → add_package d p a = some (dictInsert d (pkgKey p a) p, 0) ∧
          dictGet (dictInsert d (pkgKey p a) p) (pkgKey p a) = some p) ∧
        (c < 0 → add_package d p a = some (d, 1))) ∧
    ((processFile ⟨[], []⟩ pkg10 (str ("foo_1.0.ipk")) true false).bind
        (fun st => processFile st pkg20 (str ("foo_2.0.ipk")) true false)) =
      some ⟨[(pkgKey pkg20 false, pkg20)], [str ("foo_1.0.ipk")]⟩ ∧
    ((processFile ⟨[], []⟩ pkg20 (str ("foo_2.0.ipk")) true false).bind
        (fun st => processFile st pkg10 (str ("foo_1.0.ipk")) true false)) =
      some ⟨[(pkgKey pkg20 false, pkg20)], [str ("foo_1.0.ipk")]⟩ := by
  refine ⟨?_, ?_, by decide, by decide⟩
  · intro d p a d2 r hnd hadd
    unfold add_package at hadd
    cases hget : dictGet d (pkgKey p a) with
    | none =>
      rw [hget] at hadd
      dsimp only at hadd
      cases hcmp : Package.compare_version p p with
      | none =>
        rw [hcmp] at hadd
        exact absurd hadd (by simp)
      | some c =>
        rw [hcmp] at hadd
        dsimp only at hadd
        by_cases hc : 0 ≤ c
        · rw [if_pos hc] at hadd
          simp only [Option.some.injEq, Prod.mk.injEq] at hadd
          obtain ⟨h1, _⟩ := hadd
          rw [← h1]
          exact dictInsert_keys_nodup _ _ _ (dictInsert_keys_nodup _ _ _ hnd)
        · rw [if_neg hc] at hadd
          simp only [Option.some.injEq, Prod.mk.injEq] at hadd
          obtain ⟨h1, _⟩ := hadd
          rw [← h1]
          exact dictInsert_keys_nodup _ _ _ hnd
    | some q =>
      rw [hget] at hadd
      dsimp only at hadd
      cases hcmp : Package.compare_version p q with
      | none =>
        rw [hcmp] at hadd
        exact absurd hadd (by simp)
      | some c =>
        rw [hcmp] at hadd
        dsimp only at hadd
        by_cases hc : 0 ≤ c
        · rw [if_pos hc] at hadd
          simp only [Option.some.injEq, Prod.mk.injEq] at hadd
          obtain ⟨h1, _⟩ := hadd
          rw [← h1]
          exact dictInsert_keys_nodup _ _ _ hnd
        · rw [if_neg hc] at hadd
          simp only [Option.some.injEq, Prod.mk.injEq] at hadd
          obtain ⟨h1, _⟩ := hadd
          rw [← h1]
          exact hnd
  · intro d p a q c hget hcmp
    constructor
    · intro hc
      unfold add_package
      rw [hget]
      dsimp only
      rw [hcmp]
      dsimp only
      rw [if_pos hc]
      exact ⟨rfl, dictGet_insert_self d (pkgKey p a) p⟩
    · intro hc
      unfold add_package
      rw [hget]
      dsimp only
      rw [hcmp]
      dsimp only
      rw [if_neg (by omega)]

/-- C1 witness: the replacement semantics applied at the concrete
incumbent pkg10 and newer pkg20 on the key "foo:mips". -/
theorem C1_package_set_invariant_witness :
    dictGet [(pkgKey pkg20 false, pkg10)] (pkgKey pkg20 false) = some pkg10 ∧
    Package.compare_version pkg20 pkg10 = some 1 ∧
    add_package [(pkgKey pkg20 false, pkg10)] pkg20 false =
      some (dictInsert [(pkgKey pkg20 false, pkg10)] (pkgKey pkg20 false) pkg20, 0) :=
  ⟨by decide, by decide,
   ((C1_package_set_invariant.2.1 [(pkgKey pkg20 false, pkg10)] pkg20 false pkg10 1
      (by decide) (by decide)).1 (by decide)).1⟩

end OpkgRepo

namespace OpkgRepo

section ErrorModel

/-- The Python exception kinds reaching the per-file loop of
make_index. -/
inductive PyErr where
  | oserror
  | ioerror
  | assertionError
  | valueError
  | attributeError
  | unicodeError
deriving DecidableEq

/-- The except clause of the per-file loop (line 815) catches exactly
OSError and IOError. -/
def caughtByLoop : PyErr → Bool
  | .oserror => true
  | .ioerror => true
  | _ => false

/-- The per-file walk of make_index over the already-read per-archive
results: an exception the loop clause catches is logged and skipped, any
other exception aborts the build, a successfully read record goes
through the insertion and displacement logic. -/
def makeIndexScan : List (Str × Except PyErr Package) → ScanSt → Bool → Bool →
    Option ScanSt
  | [], st, _, _ => some st
  | (fn, res) :: rest, st, opt_m, opt_a =>
    match res with
    | .error e => if caughtByLoop e then makeIndexScan rest st opt_m opt_a else none
    | .ok p =>
      match processFile st p fn opt_m opt_a with
      | none => none
      | some st2 => makeIndexScan rest st2 opt_m opt_a

end ErrorModel

end OpkgRepo

namespace OpkgRepo

/-- C4 counterexample: an archive whose leading bytes are not the ar
magic makes ArFile raise AssertionError (arInit is none), and an
AssertionError in the per-file loop aborts the whole build: the valid
sibling listed after the corrupt file is never indexed, while the same
walk without the corrupt file indexes it. -/
theorem C4_counterexample_assert_aborts :
    arInit ⟨[66, 65, 68, 10], 0⟩ = none ∧
    makeIndexScan
        [(str ("bad.ipk"), .error .assertionError), (str ("good.ipk"), .ok pkgProbe)]
        ⟨[], []⟩ true false = none ∧
    makeIndexScan [(str ("good.ipk"), .ok pkgProbe)] ⟨[], []⟩ true false =
      some ⟨[(pkgKey pkgProbe false, pkgProbe)], []⟩ := by
  decide

/-- C4 (amended): the per-file loop isolates exactly OSError and
IOError — such a failure on one archive is skipped and the walk
continues with the siblings — while any other exception from reading an
archive (the AssertionError of a bad ar magic, a ValueError from a
malformed size or Size field, a decode error) aborts the build. -/
theorem C4_error_isolation (e : PyErr) (fn : Str)
    (rest : List (Str × Except PyErr Package)) (st : ScanSt) (m a : Bool) :
    (caughtByLoop e = true →
      makeIndexScan ((fn, .error e) :: rest) st m a = makeIndexScan rest st m a) ∧
    (caughtByLoop e = false →
      makeIndexScan ((fn, .error e) :: rest) st m a = none) ∧
    caughtByLoop .oserror = true ∧ caughtByLoop .ioerror = true ∧
    caughtByLoop .assertionError = false ∧ caughtByLoop .valueError = false := by
  refine ⟨?_, ?_, rfl, rfl, rfl, rfl⟩
  · intro hc
    rw [makeIndexScan]
    rw [if_pos hc]
  · intro hc
    rw [makeIndexScan]
    rw [if_neg (by simp [hc])]

/-- C4 witness: an OSError on one file is skipped and the sibling still
indexed; an AssertionError is not caught. -/
theorem C4_error_isolation_witness :
    caughtByLoop .oserror = true ∧
    makeIndexScan
        [(str ("bad.ipk"), .error .oserror), (str ("good.ipk"), .ok pkgProbe)]
        ⟨[], []⟩ true false =
      makeIndexScan [(str ("good.ipk"), .ok pkgProbe)] ⟨[], []⟩ true false :=
  ⟨by decide,
   (C4_error_isolation .oserror (str ("bad.ipk"))
      [(str ("good.ipk"), .ok pkgProbe)] ⟨[], []⟩ true false).1 (by decide)⟩

end OpkgRepo

namespace OpkgRepo

section PublishModel

/-- The process-unique temporary name of the plain index. -/
def tmpName (pkgName : Str) (pid : Nat) : Str := pkgName ++ str (".") ++ natToStr pid

/-- The canonical name of the compressed index. -/
def gzName (pkgName : Str) : Str := pkgName ++ str (".gz")

/-- The process-unique temporary name of the compressed index. -/
def tmpGzName (pkgName : Str) (pid : Nat) : Str := gzName pkgName ++ str (".") ++ natToStr pid

/-- os.rename on the name-to-content map (missing source raises; the
publish step never does). -/
def fsRename (fs : List (Str × Str)) (src dst : Str) : List (Str × Str) :=
  match dictGet fs src with
  | none => fs
  | some v => dictInsert (fsRemove fs src) dst v

/-- The publication tail of make_index (lines 893-900): the plain index
already written to its temporary name, the gzip shell command writing
the temporary compressed name (its exit status ignored: on failure the
shell redirection leaves an empty file), then both renames,
unconditionally. -/
def publishIndex (fs : List (Str × Str)) (pkgName : Str) (pid : Nat)
    (content : Str) (gzipOk : Bool) (gzipFn : Str → Str) : List (Str × Str) :=
  fsRename
    (fsRename
      (dictInsert (dictInsert fs (tmpName pkgName pid) content)
        (tmpGzName pkgName pid) (if gzipOk then gzipFn content else []))
      (tmpName pkgName pid) pkgName)
    (tmpGzName pkgName pid) (gzName pkgName)

end PublishModel

end OpkgRepo

namespace OpkgRepo

theorem str_len_ne {a b : Str} (h : a.length ≠ b.length) : a ≠ b :=
  fun he => h (congrArg List.length he)

theorem len_tmpName (pkgName : Str) (pid : Nat) :
    (tmpName pkgName pid).length = pkgName.length + 1 + (natToStr pid).length := by
  unfold tmpName
  rw [List.length_append, List.length_append]
  rfl

theorem len_gzName (pkgName : Str) : (gzName pkgName).length = pkgName.length + 3 := by
  unfold gzName
  rw [List.length_append]
  rfl

theorem len_tmpGzName (pkgName : Str) (pid : Nat) :
    (tmpGzName pkgName pid).length = pkgName.length + 4 + (natToStr pid).length := by
  unfold tmpGzName
  rw [List.length_append, List.length_append, len_gzName]
  rfl

theorem gz_ne_tmp (pkgName : Str) (pid : Nat) : gzName pkgName ≠ tmpName pkgName pid := by
  intro he
  unfold gzName tmpName at he
  rw [List.append_assoc] at he
  have h2 := List.append_cancel_left he
  rw [show str (".") ++ natToStr pid = '.' :: natToStr pid from rfl] at h2
  have h3 : str ("gz") = natToStr pid := by
    injection h2
  have h4 := natToStr_digits pid
  rw [← h3] at h4
  exact absurd h4 (by decide)

/-- C8 counterexample: with an old compressed index published and a
failing gzip step, the publish tail still renames the (empty) temporary
gzip output over the canonical .gz name, destroying the previously
published compressed index. -/
theorem C8_counterexample_gzip_clobber :
    dictGet (publishIndex [(str ("Packages.gz"), str ("OLDGZ"))] (str ("Packages")) 7
        (str ("NEW")) false (fun s => s)) (str ("Packages.gz")) = some [] ∧
    dictGet [(str ("Packages.gz"), str ("OLDGZ"))] (str ("Packages.gz")) =
      some (str ("OLDGZ")) := by
  decide

/-- C8 (amended): both outputs are written under process-unique
temporary names and renamed to the canonical names, and afterwards the
temporaries are gone — but the renames are unconditional and the gzip
exit status is ignored: after the publish tail the canonical plain name
always maps to the new content and the canonical .gz name maps to the
gzip output when compression succeeded and to the empty file it left
behind when it failed, regardless of what was published before. -/
theorem C8_publish_renames (fs : List (Str × Str)) (pkgName : Str) (pid : Nat)
    (content : Str) (gzipOk : Bool) (gzipFn : Str → Str) :
    dictGet (publishIndex fs pkgName pid content gzipOk gzipFn) pkgName = some content ∧
    dictGet (publishIndex fs pkgName pid content gzipOk gzipFn) (gzName pkgName) =
      some (if gzipOk then gzipFn content else []) ∧
    dictGet (publishIndex fs pkgName pid content gzipOk gzipFn) (tmpName pkgName pid) =
      none ∧
    dictGet (publishIndex fs pkgName pid content gzipOk gzipFn) (tmpGzName pkgName pid) =
      none := by
  have hk1 : 1 ≤ (natToStr pid).length := List.length_pos.mpr (natToStr_ne_nil pid)
  have h_tmp_tmpgz : tmpName pkgName pid ≠ tmpGzName pkgName pid :=
    str_len_ne (by rw [len_tmpName, len_tmpGzName]; omega)
  have h_pkg_tmp : pkgName ≠ tmpName pkgName pid :=
    str_len_ne (by rw [len_tmpName]; omega)
  have h_pkg_tmpgz : pkgName ≠ tmpGzName pkgName pid :=
    str_len_ne (by rw [len_tmpGzName]; omega)
  have h_pkg_gz : pkgName ≠ gzName pkgName :=
    str_len_ne (by rw [len_gzName]; omega)
  have h_gz_tmpgz : gzName pkgName ≠ tmpGzName pkgName pid :=
    str_len_ne (by rw [len_gzName, len_tmpGzName]; omega)
  have h_gz_tmp : gzName pkgName ≠ tmpName pkgName pid := gz_ne_tmp pkgName pid
  unfold publishIndex fsRename
  have hget1 : dictGet
      (dictInsert (dictInsert fs (tmpName pkgName pid) content) (tmpGzName pkgName pid)
        (if gzipOk then gzipFn content else [])) (tmpName pkgName pid) = some content := by
    rw [dictGet_insert_ne _ _ _ _ h_tmp_tmpgz, dictGet_insert_self]
  rw [hget1]
  dsimp only
  have hget2 : dictGet
      (dictInsert
        (fsRemove
          (dictInsert (dictInsert fs (tmpName pkgName pid) content) (tmpGzName pkgName pid)
            (if gzipOk then gzipFn content else []))
          (tmpName pkgName pid)) pkgName content) (tmpGzName pkgName pid) =
      some (if gzipOk then gzipFn content else []) := by
    rw [dictGet_insert_ne _ _ _ _ (Ne.symm h_pkg_tmpgz)]
    rw [dictGet_remove_ne _ _ _ (Ne.symm h_tmp_tmpgz)]
    rw [dictGet_insert_self]
  rw [hget2]
  dsimp only
  refine ⟨?_, ?_, ?_, ?_⟩
  · rw [dictGet_insert_ne _ _ _ _ h_pkg_gz]
    rw [dictGet_remove_ne _ _ _ h_pkg_tmpgz]
    rw [dictGet_insert_self]
  · rw [dictGet_insert_self]
  · rw [dictGet_insert_ne _ _ _ _ (Ne.symm h_gz_tmp)]
    rw [dictGet_remove_ne _ _ _ h_tmp_tmpgz]
    rw [dictGet_insert_ne _ _ _ _ (Ne.symm h_pkg_tmp)]
    rw [dictGet_remove_self]
  · rw [dictGet_insert_ne _ _ _ _ (Ne.symm h_gz_tmpgz)]
    rw [dictGet_remove_self]

end OpkgRepo
